import Mathlib

/-!
Verification of the parsegen parser-generator construction pipeline.

This file gives a shallow embedding (in Lean 4) of the core data structures
and algorithms of the parsegen C++ sources:

 * `parsegen_finite_automaton.cpp` : the NFA/DFA table structure, its
   primitive builders, the regular-expression combinators, the powerset
   construction `make_deterministic` and the row-equivalence minimizer
   `simplify`;
 * `parsegen_language.cpp` : `build_grammar`, `build_lexer`,
   `build_indent_info` and `build_parser_tables`;
 * `parsegen_regex.cpp` : the bootstrapped regex front-end language and
   `build_dfa`;
 * `parsegen_build_parser.cpp` : configurations, the LR(0) machine,
   FIRST sets, the adequacy check, Pager lane tracing,
   `build_lalr1_parser` and `accept_parser`.

C++ `int` values are embedded as `Int` (the sentinel `-1` is kept);
`std::vector` becomes `List`, `std::set<int>` becomes `Finset Int`,
in-place mutation becomes explicit state passing, and unbounded loops
become fuel-indexed recursions returning `Option`/`Except`.
-/

namespace Parsegen

/-- Embedding of `struct finite_automaton`: a dense transition table of shape
`nstates x (nsymbols + 2 extra epsilon columns when nondeterministic)`,
plus one accepted token per state (`-1` means not accepting). -/
structure finite_automaton where
  nsymbols : Nat
  is_deterministic : Bool
  table : List (List Int)
  accepted_tokens : List Int
deriving DecidableEq, Repr

/-- Embedding of the `finite_automaton` constructor (the reserve argument only
preallocates in C++ and is dropped): zero states, the column count fixed by
determinism. -/
def mk_fa (nsymbols : Nat) (is_deterministic : Bool) : finite_automaton :=
  ⟨nsymbols, is_deterministic, [], []⟩

/-- Embedding of `get_nstates`. -/
def get_nstates (fa : finite_automaton) : Nat := fa.table.length

/-- Embedding of `get_ncols`: `nsymbols + (deterministic ? 0 : 2)`. -/
def get_ncols (fa : finite_automaton) : Nat :=
  fa.nsymbols + (if fa.is_deterministic then 0 else 2)

/-- Embedding of `get_nsymbols`. -/
def get_nsymbols (fa : finite_automaton) : Nat := fa.nsymbols

/-- Embedding of `get_determinism`. -/
def get_determinism (fa : finite_automaton) : Bool := fa.is_deterministic

/-- Embedding of `get_epsilon0` (C++ asserts nondeterminism, where
`ncols - 2 = nsymbols`). -/
def get_epsilon0 (fa : finite_automaton) : Nat := fa.nsymbols

/-- Embedding of `get_epsilon1` (for a nondeterministic automaton
`ncols - 1 = nsymbols + 1`). -/
def get_epsilon1 (fa : finite_automaton) : Nat := fa.nsymbols + 1

/-- Embedding of `get_nsymbols_eps`. -/
def get_nsymbols_eps (fa : finite_automaton) : Nat := get_ncols fa

/-- Embedding of `add_state`: append a row of `-1` cells and a `-1` accepted
token.  The C++ function returns the index of the new state, which is
`get_nstates fa` of the automaton before the call. -/
def add_state (fa : finite_automaton) : finite_automaton :=
  { fa with
    table := fa.table ++ [List.replicate (get_ncols fa) (-1)]
    accepted_tokens := fa.accepted_tokens ++ [-1] }

/-- Embedding of `add_transition`: set one table cell.  The C++ asserts
(target in range, cell previously `-1`) are invariants of the callers and are
not re-modelled. -/
def add_transition (fa : finite_automaton) (from_state at_symbol : Nat)
    (to_state : Int) : finite_automaton :=
  { fa with
    table := fa.table.set from_state
      ((fa.table.getD from_state []).set at_symbol to_state) }

/-- Embedding of `add_accept` (the C++ asserts `0 <= token`). -/
def add_accept (fa : finite_automaton) (state : Nat) (token : Int) :
    finite_automaton :=
  { fa with accepted_tokens := fa.accepted_tokens.set state token }

/-- Embedding of `remove_accept`. -/
def remove_accept (fa : finite_automaton) (state : Nat) : finite_automaton :=
  { fa with accepted_tokens := fa.accepted_tokens.set state (-1) }

/-- Embedding of `step` (single state): read one table cell.  Out-of-range
reads (which the C++ asserts exclude) give the absent-transition value `-1`. -/
def step (fa : finite_automaton) (state symbol : Nat) : Int :=
  (fa.table.getD state []).getD symbol (-1)

/-- Embedding of `accepts` (single state). -/
def accepts (fa : finite_automaton) (state : Nat) : Int :=
  fa.accepted_tokens.getD state (-1)

/-- Signed-index variant of `step`, for states stored as C++ `int` values. -/
def stepI (fa : finite_automaton) (state : Int) (symbol : Nat) : Int :=
  if state < 0 then -1 else step fa state.toNat symbol

/-- Signed-index variant of `accepts`. -/
def acceptsI (fa : finite_automaton) (state : Int) : Int :=
  if state < 0 then -1 else accepts fa state.toNat

/-- Loop body of the first phase of `append_states`: one `add_state` for the
given state of `other`, copying a nonnegative accepted token. -/
def append_accept_step (other acc : finite_automaton) (other_state : Nat) :
    finite_automaton :=
  let my_state := get_nstates acc
  let acc2 := add_state acc
  let token := accepts other other_state
  if 0 ≤ token then add_accept acc2 my_state token else acc2

/-- First phase of `append_states`: one `add_state` per state of `other`,
copying a nonnegative accepted token. -/
def append_states_accepts (fa other : finite_automaton) : finite_automaton :=
  (List.range (get_nstates other)).foldl (append_accept_step other) fa

/-- Inner loop body of the second phase of `append_states`: copy one
transition cell of `other`, shifting states by `offset`. -/
def append_trans_cell (other : finite_automaton) (offset other_state : Nat)
    (acc2 : finite_automaton) (symbol : Nat) : finite_automaton :=
  let other_next := step other other_state symbol
  if other_next < 0 then acc2
  else add_transition acc2 (other_state + offset) symbol
    (other_next + (offset : Int))

/-- Outer loop body of the second phase of `append_states`: copy all
transition cells of one state of `other` (epsilon columns included when
`other` has them). -/
def append_trans_row (other : finite_automaton) (offset : Nat)
    (acc : finite_automaton) (other_state : Nat) : finite_automaton :=
  (List.range (get_nsymbols_eps other)).foldl
    (append_trans_cell other offset other_state) acc

/-- Second phase of `append_states`: copy every transition of `other`,
shifting states by `offset`. -/
def append_states_trans (fa other : finite_automaton) (offset : Nat) :
    finite_automaton :=
  (List.range (get_nstates other)).foldl (append_trans_row other offset) fa

/-- Embedding of `append_states` (C++ asserts matching symbol counts and that
a nondeterministic `other` is only appended to a nondeterministic `fa`). -/
def append_states (fa other : finite_automaton) : finite_automaton :=
  let offset := get_nstates fa
  append_states_trans (append_states_accepts fa other) other offset

/-- Embedding of `finite_automaton::make_set_nfa`: a two-state deterministic
automaton with one transition per accepted symbol. -/
def make_set_nfa (nsymbols : Nat) (accepted : Finset Nat) (token : Int) :
    finite_automaton :=
  let out := mk_fa nsymbols true
  let start_state := get_nstates out
  let out := add_state out
  let accept_state := get_nstates out
  let out := add_state out
  let out := (accepted.sort (· ≤ ·)).foldl
    (fun acc i => add_transition acc start_state i (accept_state : Int)) out
  add_accept out accept_state token

/-- Embedding of `finite_automaton::make_range_nfa` (C++ asserts
`range_start ≤ range_end ≤ nsymbols`). -/
def make_range_nfa (nsymbols range_start range_end : Nat) (token : Int) :
    finite_automaton :=
  let out := mk_fa nsymbols true
  let start_state := get_nstates out
  let out := add_state out
  let accept_state := get_nstates out
  let out := add_state out
  let out := (List.range (range_end + 1 - range_start)).foldl
    (fun acc k =>
      add_transition acc start_state (range_start + k) (accept_state : Int))
    out
  add_accept out accept_state token

/-- Embedding of `finite_automaton::make_single_nfa`. -/
def make_single_nfa (nsymbols symbol : Nat) (token : Int) : finite_automaton :=
  make_range_nfa nsymbols symbol symbol token

/-- Embedding of `finite_automaton::unite`: fresh start state, both operands
appended, and the two epsilon channels from the start to the two copies. -/
def unite (a b : finite_automaton) : finite_automaton :=
  let nsymbols := get_nsymbols a
  let out := mk_fa nsymbols false
  let start_state := get_nstates out
  let out := add_state out
  let a_offset := get_nstates out
  let out := append_states out a
  let b_offset := get_nstates out
  let out := append_states out b
  let epsilon0 := get_epsilon0 out
  let epsilon1 := get_epsilon1 out
  let out := add_transition out start_state epsilon0 (a_offset : Int)
  add_transition out start_state epsilon1 (b_offset : Int)

/-- Loop body in `concat` for the accepting states of `a`: epsilon0 edge to
`b`'s start, accept removed. -/
def concat_eps_step (a : finite_automaton) (epsilon0 b_offset : Nat)
    (acc : finite_automaton) (i : Nat) : finite_automaton :=
  if accepts a i ≠ -1 then
    remove_accept (add_transition acc i epsilon0 (b_offset : Int)) i
  else acc

/-- Loop body in `concat` for the accepting states of `b`: re-tag to
`token`. -/
def concat_accept_step (b : finite_automaton) (b_offset : Nat) (token : Int)
    (acc : finite_automaton) (i : Nat) : finite_automaton :=
  if accepts b i ≠ -1 then add_accept acc (i + b_offset) token else acc

/-- Embedding of `finite_automaton::concat`: `a` then `b`; each accepting
state of `a` gets an epsilon0 edge to `b`'s start and loses its accept; each
accepting state of `b` is re-tagged to `token`. -/
def concat (a b : finite_automaton) (token : Int) : finite_automaton :=
  let nsymbols := get_nsymbols a
  let out := mk_fa nsymbols false
  let out := append_states out a
  let b_offset := get_nstates out
  let out := append_states out b
  let epsilon0 := get_epsilon0 out
  let out := (List.range (get_nstates a)).foldl
    (concat_eps_step a epsilon0 b_offset) out
  (List.range (get_nstates b)).foldl (concat_accept_step b b_offset token) out

/-- Loop body in `plus` for the accepting states of `a`: epsilon0 to the new
accepting state, epsilon1 back to state 0, accept removed. -/
def plus_eps_step (a : finite_automaton) (epsilon0 epsilon1 new_accept_state : Nat)
    (acc : finite_automaton) (i : Nat) : finite_automaton :=
  if accepts a i ≠ -1 then
    remove_accept
      (add_transition (add_transition acc i epsilon0 (new_accept_state : Int))
        i epsilon1 0) i
  else acc

/-- Embedding of `finite_automaton::plus`: a fresh accepting state; each old
accepting state gets epsilon0 to it and epsilon1 back to state 0, and loses
its accept. -/
def plus (a : finite_automaton) (token : Int) : finite_automaton :=
  let out := mk_fa (get_nsymbols a) false
  let out := append_states out a
  let new_accept_state := get_nstates out
  let out := add_state out
  let out := add_accept out new_accept_state token
  let epsilon0 := get_epsilon0 out
  let epsilon1 := get_epsilon1 out
  (List.range (get_nstates a)).foldl
    (plus_eps_step a epsilon0 epsilon1 new_accept_state) out

/-- Loop body in `maybe`: extend the epsilon0 linked list (the pair carries
the automaton and the last state of the list so far). -/
def maybe_chain_step (a : finite_automaton) (epsilon0 offset : Nat)
    (p : finite_automaton × Nat) (i : Nat) : finite_automaton × Nat :=
  if accepts a i ≠ -1 then
    (remove_accept (add_transition p.1 p.2 epsilon0 ((i + offset : Nat) : Int))
      (i + offset), i + offset)
  else p

/-- Embedding of `finite_automaton::maybe`: fresh start and accept states and
an epsilon0 linked list through the old accepting states, which lose their
accepts. -/
def maybe (a : finite_automaton) (token : Int) : finite_automaton :=
  let out := mk_fa (get_nsymbols a) false
  let new_start_state := get_nstates out
  let out := add_state out
  let offset := get_nstates out
  let out := append_states out a
  let new_accept_state := get_nstates out
  let out := add_state out
  let epsilon0 := get_epsilon0 out
  let epsilon1 := get_epsilon1 out
  let out := add_transition out new_start_state epsilon1 (offset : Int)
  let chain := (List.range (get_nstates a)).foldl
    (maybe_chain_step a epsilon0 offset) (out, new_start_state)
  let out := add_transition chain.1 chain.2 epsilon0 (new_accept_state : Int)
  add_accept out new_accept_state token

/-- Embedding of `finite_automaton::star`. -/
def star (a : finite_automaton) (token : Int) : finite_automaton :=
  maybe (plus a token) token

/-! ### Basic list access lemmas -/

theorem getD_set {α : Type _} (l : List α) (i j : Nat) (v d : α) :
    (l.set i v).getD j d = if i = j ∧ j < l.length then v else l.getD j d := by
  simp only [List.getD_eq_getElem?_getD, List.getElem?_set]
  by_cases h : i = j
  · subst h
    by_cases h2 : i < l.length
    · simp [h2]
    · simp [h2, List.getElem?_eq_none (Nat.le_of_not_lt h2)]
  · simp [h]

theorem getD_append {α : Type _} (l1 l2 : List α) (j : Nat) (d : α) :
    (l1 ++ l2).getD j d =
      if j < l1.length then l1.getD j d else l2.getD (j - l1.length) d := by
  simp only [List.getD_eq_getElem?_getD, List.getElem?_append]
  by_cases h : j < l1.length <;> simp [h]

theorem getD_replicate {α : Type _} (n : Nat) (a d : α) (j : Nat) :
    (List.replicate n a).getD j d = if j < n then a else d := by
  simp only [List.getD_eq_getElem?_getD, List.getElem?_replicate]
  by_cases h : j < n <;> simp [h]

theorem getD_nil {α : Type _} (j : Nat) (d : α) : ([] : List α).getD j d = d := by
  simp [List.getD_eq_getElem?_getD]

theorem set_append_last {α : Type _} (l : List α) (x v : α) :
    (l ++ [x]).set l.length v = l ++ [v] := by
  simp [List.set_append]

theorem getD_map_range (n : Nat) (f : Nat → Int) (j : Nat) :
    (((List.range n).map f).getD j (-1)) = if j < n then f j else -1 := by
  simp only [List.getD_eq_getElem?_getD, List.getElem?_map]
  by_cases h : j < n
  · rw [List.getElem?_range h]
    simp [h]
  · rw [List.getElem?_eq_none (by simpa using Nat.le_of_not_lt h)]
    simp [h]

/-! ### Well-formedness of the automaton invariants used throughout -/

/-- Shape invariant maintained by every `finite_automaton` the code builds:
all rows have exactly `get_ncols` cells and there is one accepted token per
state. -/
def wf (fa : finite_automaton) : Prop :=
  (∀ r ∈ fa.table, r.length = get_ncols fa) ∧
  fa.accepted_tokens.length = fa.table.length

instance (fa : finite_automaton) : Decidable (wf fa) := by
  unfold wf
  infer_instance

/-! ### Pointwise behaviour of the primitive mutators -/

theorem fields_add_state (fa : finite_automaton) :
    (add_state fa).nsymbols = fa.nsymbols ∧
    (add_state fa).is_deterministic = fa.is_deterministic := by
  simp [add_state]

theorem nstates_add_state (fa : finite_automaton) :
    get_nstates (add_state fa) = get_nstates fa + 1 := by
  simp [add_state, get_nstates]

theorem step_add_state (fa : finite_automaton) (s σ : Nat) :
    step (add_state fa) s σ = step fa s σ := by
  simp only [step, add_state, getD_append]
  by_cases h : s < fa.table.length
  · simp [h]
  · rw [if_neg h]
    have hskip : fa.table.getD s [] = ([] : List Int) := by
      rw [List.getD_eq_getElem?_getD, List.getElem?_eq_none (Nat.le_of_not_lt h)]
      rfl
    rw [hskip]
    cases h2 : s - fa.table.length with
    | zero => simp [getD_replicate, getD_nil]
    | succ n => simp [List.getD_cons_succ, getD_nil]

theorem accepts_add_state (fa : finite_automaton) (s : Nat) :
    accepts (add_state fa) s = accepts fa s := by
  simp only [accepts, add_state, getD_append]
  by_cases h : s < fa.accepted_tokens.length
  · simp [h]
  · rw [if_neg h]
    have hskip : fa.accepted_tokens.getD s (-1) = -1 := by
      rw [List.getD_eq_getElem?_getD, List.getElem?_eq_none (Nat.le_of_not_lt h)]
      rfl
    rw [hskip]
    cases h2 : s - fa.accepted_tokens.length with
    | zero => simp
    | succ n => simp [List.getD_cons_succ, getD_nil]

theorem wf_add_state (fa : finite_automaton) (h : wf fa) : wf (add_state fa) := by
  obtain ⟨h1, h2⟩ := h
  constructor
  · intro r hr
    simp only [add_state, List.mem_append, List.mem_singleton] at hr
    rcases hr with hr | hr
    · rw [h1 r hr]
      simp [add_state, get_ncols]
    · subst hr
      simp [add_state, get_ncols]
  · simp [add_state, h2]

theorem fields_add_transition (fa : finite_automaton) (f a : Nat) (t : Int) :
    (add_transition fa f a t).nsymbols = fa.nsymbols ∧
    (add_transition fa f a t).is_deterministic = fa.is_deterministic ∧
    (add_transition fa f a t).accepted_tokens = fa.accepted_tokens := by
  simp [add_transition]

theorem nstates_add_transition (fa : finite_automaton) (f a : Nat) (t : Int) :
    get_nstates (add_transition fa f a t) = get_nstates fa := by
  simp [add_transition, get_nstates]

theorem accepts_add_transition (fa : finite_automaton) (f a : Nat) (t : Int)
    (s : Nat) : accepts (add_transition fa f a t) s = accepts fa s := by
  simp [accepts, add_transition]

theorem step_add_transition (fa : finite_automaton) (f a : Nat) (t : Int)
    (hwf : wf fa) (s σ : Nat) :
    step (add_transition fa f a t) s σ =
      if f = s ∧ a = σ ∧ s < get_nstates fa ∧ σ < get_ncols fa then t
      else step fa s σ := by
  have hrow : ∀ i, i < fa.table.length → (fa.table.getD i []).length = get_ncols fa := by
    intro i hi
    apply hwf.1
    rw [List.getD_eq_getElem?_getD, List.getElem?_eq_getElem hi]
    exact List.getElem_mem hi
  simp only [step, add_transition, get_nstates]
  rw [getD_set]
  by_cases hf : f = s
  · subst hf
    by_cases hs : f < fa.table.length
    · rw [if_pos ⟨rfl, hs⟩, getD_set, hrow f hs]
      by_cases hrest : a = σ ∧ σ < get_ncols fa
      · rw [if_pos hrest, if_pos ⟨rfl, hrest.1, hs, hrest.2⟩]
      · rw [if_neg hrest, if_neg (fun hcon => hrest ⟨hcon.2.1, hcon.2.2.2⟩)]
    · rw [if_neg (fun hcon => hs hcon.2), if_neg (fun hcon => hs hcon.2.2.1)]
  · rw [if_neg (fun hcon => hf hcon.1), if_neg (fun hcon => hf hcon.1)]

theorem wf_add_transition (fa : finite_automaton) (f a : Nat) (t : Int)
    (h : wf fa) : wf (add_transition fa f a t) := by
  obtain ⟨h1, h2⟩ := h
  constructor
  · intro r hr
    simp only [add_transition] at hr
    by_cases hs : f < fa.table.length
    · rcases List.mem_or_eq_of_mem_set hr with hr2 | hr2
      · exact h1 r hr2
      · subst hr2
        rw [List.length_set]
        apply h1
        rw [List.getD_eq_getElem?_getD, List.getElem?_eq_getElem hs]
        exact List.getElem_mem hs
    · rw [List.set_eq_of_length_le (Nat.le_of_not_lt hs)] at hr
      exact h1 r hr
  · simp [add_transition, h2]

theorem fields_add_accept (fa : finite_automaton) (st : Nat) (tok : Int) :
    (add_accept fa st tok).nsymbols = fa.nsymbols ∧
    (add_accept fa st tok).is_deterministic = fa.is_deterministic ∧
    (add_accept fa st tok).table = fa.table := by
  simp [add_accept]

theorem step_add_accept (fa : finite_automaton) (st : Nat) (tok : Int)
    (s σ : Nat) : step (add_accept fa st tok) s σ = step fa s σ := by
  simp [step, add_accept]

theorem accepts_add_accept (fa : finite_automaton) (st : Nat) (tok : Int)
    (s : Nat) :
    accepts (add_accept fa st tok) s =
      if st = s ∧ s < fa.accepted_tokens.length then tok else accepts fa s := by
  simp only [accepts, add_accept]
  rw [getD_set]

theorem wf_add_accept (fa : finite_automaton) (st : Nat) (tok : Int)
    (h : wf fa) : wf (add_accept fa st tok) := by
  obtain ⟨h1, h2⟩ := h
  exact ⟨fun r hr => h1 r hr, by simp [add_accept, h2]⟩

theorem remove_accept_eq (fa : finite_automaton) (st : Nat) :
    remove_accept fa st = add_accept fa st (-1) := rfl

/-! ### Behaviour of `append_states` -/

theorem append_states_accepts_aux (fa other : finite_automaton)
    (hlen : fa.accepted_tokens.length = fa.table.length) (n : Nat) :
    (List.range n).foldl (append_accept_step other) fa =
      { fa with
        table := fa.table ++
          List.replicate n (List.replicate (get_ncols fa) (-1)),
        accepted_tokens := fa.accepted_tokens ++
          (List.range n).map
            (fun i => if 0 ≤ accepts other i then accepts other i else -1) } := by
  induction n with
  | zero => simp
  | succ n ih =>
    rw [List.range_succ, List.foldl_append, ih, List.foldl_cons, List.foldl_nil]
    unfold append_accept_step add_state add_accept
    dsimp only
    simp only [get_nstates]
    have hcols : get_ncols { fa with
        table := fa.table ++ List.replicate n (List.replicate (get_ncols fa) (-1)),
        accepted_tokens := fa.accepted_tokens ++ (List.range n).map
          (fun i => if 0 ≤ accepts other i then accepts other i else -1) }
        = get_ncols fa := rfl
    rw [hcols]
    have hidx : (fa.table ++ List.replicate n (List.replicate (get_ncols fa) (-1))).length
        = (fa.accepted_tokens ++ (List.range n).map
            (fun i => if 0 ≤ accepts other i then accepts other i else -1)).length := by
      simp [hlen]
    by_cases htok : 0 ≤ accepts other n
    · rw [if_pos htok]
      congr 1
      · rw [List.append_assoc, ← List.replicate_succ']
      · rw [hidx, set_append_last]
        simp [List.range_succ, htok, List.append_assoc]
    · rw [if_neg htok]
      congr 1
      · rw [List.append_assoc, ← List.replicate_succ']
      · simp [List.range_succ, htok, List.append_assoc]

theorem append_states_accepts_spec (fa other : finite_automaton)
    (hlen : fa.accepted_tokens.length = fa.table.length) :
    append_states_accepts fa other =
      { fa with
        table := fa.table ++
          List.replicate (get_nstates other) (List.replicate (get_ncols fa) (-1)),
        accepted_tokens := fa.accepted_tokens ++
          (List.range (get_nstates other)).map
            (fun i => if 0 ≤ accepts other i then accepts other i else -1) } := by
  unfold append_states_accepts
  exact append_states_accepts_aux fa other hlen (get_nstates other)

theorem append_trans_row_aux (other : finite_automaton) (offset other_state : Nat)
    (acc : finite_automaton) (hwf : wf acc)
    (hst : other_state + offset < get_nstates acc) (m : Nat)
    (hm : m ≤ get_ncols acc) :
    let R := (List.range m).foldl (append_trans_cell other offset other_state) acc
    R.nsymbols = acc.nsymbols ∧ R.is_deterministic = acc.is_deterministic ∧
    R.accepted_tokens = acc.accepted_tokens ∧ get_nstates R = get_nstates acc ∧
    wf R ∧
    ∀ s σ, step R s σ =
      if s = other_state + offset ∧ σ < m ∧ 0 ≤ step other other_state σ then
        step other other_state σ + offset
      else step acc s σ := by
  induction m with
  | zero =>
    refine ⟨rfl, rfl, rfl, rfl, hwf, ?_⟩
    intro s σ
    rw [if_neg (fun hcon => Nat.not_lt_zero σ hcon.2.1)]
    rfl
  | succ m ih =>
    have hm2 : m ≤ get_ncols acc := Nat.le_of_succ_le hm
    obtain ⟨e1, e2, e3, e4, hwfR, hstep⟩ := ih hm2
    rw [List.range_succ, List.foldl_append, List.foldl_cons, List.foldl_nil]
    set R := (List.range m).foldl (append_trans_cell other offset other_state) acc
      with hR
    unfold append_trans_cell
    by_cases hneg : step other other_state m < 0
    · rw [if_pos hneg]
      refine ⟨e1, e2, e3, e4, hwfR, ?_⟩
      intro s σ
      rw [hstep s σ]
      by_cases hcon : s = other_state + offset ∧ σ < m ∧ 0 ≤ step other other_state σ
      · rw [if_pos hcon, if_pos ⟨hcon.1, Nat.lt_succ_of_lt hcon.2.1, hcon.2.2⟩]
      · rw [if_neg hcon, if_neg]
        intro hcon2
        apply hcon
        refine ⟨hcon2.1, ?_, hcon2.2.2⟩
        rcases Nat.lt_succ_iff_lt_or_eq.mp hcon2.2.1 with h | h
        · exact h
        · subst h
          omega
    · rw [if_neg hneg]
      have hcolR : get_ncols R = get_ncols acc := by
        simp [get_ncols, e1, e2]
      refine ⟨?_, ?_, ?_, ?_, ?_, ?_⟩
      · rw [(fields_add_transition R _ _ _).1, e1]
      · rw [(fields_add_transition R _ _ _).2.1, e2]
      · rw [(fields_add_transition R _ _ _).2.2, e3]
      · rw [nstates_add_transition, e4]
      · exact wf_add_transition _ _ _ _ hwfR
      · intro s σ
        rw [step_add_transition _ _ _ _ hwfR s σ, hstep s σ]
        by_cases hc1 : other_state + offset = s ∧ m = σ
        · obtain ⟨hc1a, hc1b⟩ := hc1
          subst hc1a
          subst hc1b
          rw [if_pos ⟨rfl, rfl, by omega, by omega⟩, if_pos]
          refine ⟨rfl, Nat.lt_succ_self m, by omega⟩
        · rw [if_neg (fun hcon => hc1 ⟨hcon.1, hcon.2.1⟩)]
          by_cases hc2 : s = other_state + offset ∧ σ < m ∧ 0 ≤ step other other_state σ
          · rw [if_pos hc2, if_pos ⟨hc2.1, Nat.lt_succ_of_lt hc2.2.1, hc2.2.2⟩]
          · rw [if_neg hc2, if_neg]
            intro hcon2
            rcases Nat.lt_succ_iff_lt_or_eq.mp hcon2.2.1 with h | h
            · exact hc2 ⟨hcon2.1, h, hcon2.2.2⟩
            · subst h
              exact hc1 ⟨hcon2.1.symm, rfl⟩

theorem append_states_trans_aux (fa other : finite_automaton) (offset : Nat)
    (hwf : wf fa) (hcols : get_nsymbols_eps other ≤ get_ncols fa) (n : Nat)
    (hn : ∀ i, i < n → i + offset < get_nstates fa) :
    let R := (List.range n).foldl (append_trans_row other offset) fa
    R.nsymbols = fa.nsymbols ∧ R.is_deterministic = fa.is_deterministic ∧
    R.accepted_tokens = fa.accepted_tokens ∧ get_nstates R = get_nstates fa ∧
    wf R ∧
    ∀ s σ, step R s σ =
      if offset ≤ s ∧ s - offset < n ∧ σ < get_nsymbols_eps other ∧
          0 ≤ step other (s - offset) σ then
        step other (s - offset) σ + offset
      else step fa s σ := by
  induction n with
  | zero =>
    refine ⟨rfl, rfl, rfl, rfl, hwf, ?_⟩
    intro s σ
    rw [if_neg (fun hcon => Nat.not_lt_zero (s - offset) hcon.2.1)]
    rfl
  | succ n ih =>
    have hn2 : ∀ i, i < n → i + offset < get_nstates fa := fun i hi =>
      hn i (Nat.lt_succ_of_lt hi)
    obtain ⟨e1, e2, e3, e4, hwfR, hstep⟩ := ih hn2
    rw [List.range_succ, List.foldl_append, List.foldl_cons, List.foldl_nil]
    set R := (List.range n).foldl (append_trans_row other offset) fa with hR
    have hcolR : get_ncols R = get_ncols fa := by
      simp [get_ncols, e1, e2]
    have hrow := append_trans_row_aux other offset n R hwfR
      (by rw [e4]; exact hn n (Nat.lt_succ_self n)) (get_nsymbols_eps other)
      (by rw [hcolR]; exact hcols)
    obtain ⟨f1, f2, f3, f4, hwfR2, hstep2⟩ := hrow
    unfold append_trans_row
    refine ⟨by rw [f1, e1], by rw [f2, e2], by rw [f3, e3], by rw [f4, e4],
      hwfR2, ?_⟩
    intro s σ
    rw [hstep2 s σ, hstep s σ]
    by_cases hc1 : s = n + offset ∧ σ < get_nsymbols_eps other ∧
        0 ≤ step other n σ
    · have hsub : s - offset = n := by omega
      rw [if_pos hc1, if_pos]
      · rw [hsub]
      · rw [hsub]
        exact ⟨by omega, by omega, hc1.2.1, hc1.2.2⟩
    · rw [if_neg hc1]
      by_cases hc2 : offset ≤ s ∧ s - offset < n ∧ σ < get_nsymbols_eps other ∧
          0 ≤ step other (s - offset) σ
      · rw [if_pos hc2, if_pos ⟨hc2.1, Nat.lt_succ_of_lt hc2.2.1, hc2.2.2⟩]
      · rw [if_neg hc2, if_neg]
        intro hcon
        rcases Nat.lt_succ_iff_lt_or_eq.mp hcon.2.1 with h | h
        · exact hc2 ⟨hcon.1, h, hcon.2.2⟩
        · apply hc1
          refine ⟨by omega, ?_, ?_⟩
          · exact hcon.2.2.1
          · have : s - offset = n := h
            rw [← this]
            exact hcon.2.2.2

theorem append_states_spec (fa other : finite_automaton) (hwf : wf fa)
    (hcols : get_nsymbols_eps other ≤ get_ncols fa) :
    (append_states fa other).nsymbols = fa.nsymbols ∧
    (append_states fa other).is_deterministic = fa.is_deterministic ∧
    get_nstates (append_states fa other) = get_nstates fa + get_nstates other ∧
    wf (append_states fa other) ∧
    (∀ s σ, step (append_states fa other) s σ =
      if get_nstates fa ≤ s ∧ s - get_nstates fa < get_nstates other ∧
          σ < get_nsymbols_eps other ∧ 0 ≤ step other (s - get_nstates fa) σ then
        step other (s - get_nstates fa) σ + get_nstates fa
      else if s < get_nstates fa then step fa s σ else -1) ∧
    (∀ s, accepts (append_states fa other) s =
      if s < get_nstates fa then accepts fa s
      else if s - get_nstates fa < get_nstates other ∧
          0 ≤ accepts other (s - get_nstates fa) then
        accepts other (s - get_nstates fa)
      else -1) := by
  unfold append_states
  rw [append_states_accepts_spec fa other hwf.2]
  set mid : finite_automaton := { fa with
    table := fa.table ++
      List.replicate (get_nstates other) (List.replicate (get_ncols fa) (-1)),
    accepted_tokens := fa.accepted_tokens ++
      (List.range (get_nstates other)).map
        (fun i => if 0 ≤ accepts other i then accepts other i else -1) }
    with hmid
  have hmidcols : get_ncols mid = get_ncols fa := rfl
  have hmidn : get_nstates mid = get_nstates fa + get_nstates other := by
    simp [hmid, get_nstates]
  have hmidwf : wf mid := by
    constructor
    · intro r hr
      rw [hmid] at hr
      simp only [List.mem_append] at hr
      rcases hr with hr | hr
      · rw [hmidcols]
        exact hwf.1 r hr
      · rw [hmidcols, List.eq_of_mem_replicate hr]
        simp
    · rw [hmid]
      simp [hwf.2]
  have hstep_mid : ∀ s σ, step mid s σ =
      if s < get_nstates fa then step fa s σ else -1 := by
    intro s σ
    rw [hmid]
    simp only [step, getD_append, get_nstates]
    by_cases hs : s < fa.table.length
    · simp [hs]
    · rw [if_neg hs, if_neg hs]
      rw [getD_replicate]
      split_ifs with h2
      · rw [getD_replicate]
        split_ifs <;> rfl
      · rw [getD_nil]
  have haccepts_mid : ∀ s, accepts mid s =
      if s < get_nstates fa then accepts fa s
      else if s - get_nstates fa < get_nstates other ∧
          0 ≤ accepts other (s - get_nstates fa) then
        accepts other (s - get_nstates fa)
      else -1 := by
    intro s
    rw [hmid]
    simp only [accepts, getD_append, get_nstates]
    rw [hwf.2]
    by_cases hs : s < fa.table.length
    · simp [hs]
    · rw [if_neg hs, if_neg hs, getD_map_range]
      by_cases h2 : s - fa.table.length < other.table.length
      · rw [if_pos h2]
        by_cases h3 : 0 ≤ other.accepted_tokens.getD (s - fa.table.length) (-1)
        · rw [if_pos h3, if_pos ⟨h2, h3⟩]
        · rw [if_neg h3, if_neg (fun hcon => h3 hcon.2)]
      · rw [if_neg h2, if_neg (fun hcon => h2 hcon.1)]
  have htr := append_states_trans_aux mid other (get_nstates fa) hmidwf
    (by rw [hmidcols]; exact hcols) (get_nstates other)
    (fun i hi => by rw [hmidn]; omega)
  obtain ⟨e1, e2, e3, e4, hwfR, hstep⟩ := htr
  unfold append_states_trans
  refine ⟨by rw [e1], by rw [e2], by rw [e4, hmidn], hwfR, ?_, ?_⟩
  · intro s σ
    rw [hstep s σ, hstep_mid s σ]
  · intro s
    have heq : accepts ((List.range (get_nstates other)).foldl
        (append_trans_row other (get_nstates fa)) mid) s = accepts mid s := by
      unfold accepts
      rw [e3]
    rw [heq, haccepts_mid s]

/-! ### Characterizations of the combinator loops -/

theorem concat_eps_fold_spec (a : finite_automaton) (eps0 boff : Nat)
    (acc : finite_automaton) (hwf : wf acc) (n : Nat) (hn : n ≤ get_nstates acc)
    (heps : eps0 < get_ncols acc) :
    let F := (List.range n).foldl (concat_eps_step a eps0 boff) acc
    F.nsymbols = acc.nsymbols ∧ F.is_deterministic = acc.is_deterministic ∧
    get_nstates F = get_nstates acc ∧ wf F ∧
    (∀ s σ, step F s σ =
      if s < n ∧ accepts a s ≠ -1 ∧ σ = eps0 then (boff : Int)
      else step acc s σ) ∧
    (∀ s, accepts F s =
      if s < n ∧ accepts a s ≠ -1 then -1 else accepts acc s) := by
  induction n with
  | zero =>
    refine ⟨rfl, rfl, rfl, hwf, ?_, ?_⟩
    · intro s σ
      rw [if_neg (fun hcon => Nat.not_lt_zero s hcon.1)]
      rfl
    · intro s
      rw [if_neg (fun hcon => Nat.not_lt_zero s hcon.1)]
      rfl
  | succ n ih =>
    obtain ⟨e1, e2, e3, hwfF, hstep, hacc⟩ := ih (Nat.le_of_succ_le hn)
    rw [List.range_succ, List.foldl_append, List.foldl_cons, List.foldl_nil]
    set F := (List.range n).foldl (concat_eps_step a eps0 boff) acc with hF
    have hcolF : get_ncols F = get_ncols acc := by simp [get_ncols, e1, e2]
    unfold concat_eps_step
    by_cases hai : accepts a n ≠ -1
    · rw [if_pos hai]
      have hlenF : F.accepted_tokens.length = get_nstates acc := by
        rw [hwfF.2]
        exact e3
      have hwfT := wf_add_transition F n eps0 (boff : Int) hwfF
      refine ⟨?_, ?_, ?_, ?_, ?_, ?_⟩
      · rw [remove_accept_eq, (fields_add_accept _ _ _).1,
          (fields_add_transition _ _ _ _).1, e1]
      · rw [remove_accept_eq, (fields_add_accept _ _ _).2.1,
          (fields_add_transition _ _ _ _).2.1, e2]
      · rw [remove_accept_eq]
        show ((add_accept _ _ _).table).length = _
        rw [(fields_add_accept _ _ _).2.2]
        show get_nstates (add_transition _ _ _ _) = _
        rw [nstates_add_transition, e3]
      · rw [remove_accept_eq]
        exact wf_add_accept _ _ _ hwfT
      · intro s σ
        rw [remove_accept_eq, step_add_accept,
          step_add_transition F n eps0 (boff : Int) hwfF s σ, hstep s σ, e3]
        by_cases h1 : n = s ∧ eps0 = σ
        · obtain ⟨hs, hσ⟩ := h1
          subst hs
          subst hσ
          rw [if_pos ⟨rfl, rfl, by omega, by rw [hcolF]; exact heps⟩,
            if_pos ⟨Nat.lt_succ_self n, hai, rfl⟩]
        · rw [if_neg (fun hcon => h1 ⟨hcon.1, hcon.2.1⟩)]
          by_cases h2 : s < n ∧ accepts a s ≠ -1 ∧ σ = eps0
          · rw [if_pos h2, if_pos ⟨Nat.lt_succ_of_lt h2.1, h2.2⟩]
          · rw [if_neg h2, if_neg]
            intro hcon
            rcases Nat.lt_succ_iff_lt_or_eq.mp hcon.1 with h | h
            · exact h2 ⟨h, hcon.2⟩
            · exact h1 ⟨h.symm, hcon.2.2.symm⟩
      · intro s
        have hlen2 : (add_transition F n eps0 (boff : Int)).accepted_tokens.length
            = get_nstates acc := by
          rw [(fields_add_transition _ _ _ _).2.2, hlenF]
        rw [remove_accept_eq, accepts_add_accept, accepts_add_transition,
          hacc s, hlen2]
        by_cases h1 : n = s
        · subst h1
          rw [if_pos ⟨rfl, by omega⟩, if_pos ⟨Nat.lt_succ_self n, hai⟩]
        · rw [if_neg (fun hcon => h1 hcon.1)]
          by_cases h2 : s < n ∧ accepts a s ≠ -1
          · rw [if_pos h2, if_pos ⟨Nat.lt_succ_of_lt h2.1, h2.2⟩]
          · rw [if_neg h2, if_neg]
            intro hcon
            rcases Nat.lt_succ_iff_lt_or_eq.mp hcon.1 with h | h
            · exact h2 ⟨h, hcon.2⟩
            · exact h1 h.symm
    · rw [if_neg hai]
      push_neg at hai
      refine ⟨e1, e2, e3, hwfF, ?_, ?_⟩
      · intro s σ
        rw [hstep s σ]
        by_cases h2 : s < n ∧ accepts a s ≠ -1 ∧ σ = eps0
        · rw [if_pos h2, if_pos ⟨Nat.lt_succ_of_lt h2.1, h2.2⟩]
        · rw [if_neg h2, if_neg]
          intro hcon
          rcases Nat.lt_succ_iff_lt_or_eq.mp hcon.1 with h | h
          · exact h2 ⟨h, hcon.2⟩
          · subst h
            exact hcon.2.1 hai
      · intro s
        rw [hacc s]
        by_cases h2 : s < n ∧ accepts a s ≠ -1
        · rw [if_pos h2, if_pos ⟨Nat.lt_succ_of_lt h2.1, h2.2⟩]
        · rw [if_neg h2, if_neg]
          intro hcon
          rcases Nat.lt_succ_iff_lt_or_eq.mp hcon.1 with h | h
          · exact h2 ⟨h, hcon.2⟩
          · subst h
            exact hcon.2 hai

theorem concat_accept_fold_spec (b : finite_automaton) (boff : Nat)
    (token : Int) (acc : finite_automaton)
    (hlen : acc.accepted_tokens.length = get_nstates acc) (n : Nat)
    (hn : ∀ i, i < n → i + boff < get_nstates acc) :
    let G := (List.range n).foldl (concat_accept_step b boff token) acc
    G.nsymbols = acc.nsymbols ∧ G.is_deterministic = acc.is_deterministic ∧
    G.table = acc.table ∧
    G.accepted_tokens.length = acc.accepted_tokens.length ∧
    ∀ s, accepts G s =
      if boff ≤ s ∧ s - boff < n ∧ accepts b (s - boff) ≠ -1 then token
      else accepts acc s := by
  induction n with
  | zero =>
    refine ⟨rfl, rfl, rfl, rfl, ?_⟩
    intro s
    rw [if_neg (fun hcon => Nat.not_lt_zero (s - boff) hcon.2.1)]
    rfl
  | succ n ih =>
    obtain ⟨e1, e2, e3, e4, hacc⟩ := ih (fun i hi => hn i (Nat.lt_succ_of_lt hi))
    rw [List.range_succ, List.foldl_append, List.foldl_cons, List.foldl_nil]
    set G := (List.range n).foldl (concat_accept_step b boff token) acc with hG
    unfold concat_accept_step
    by_cases hbi : accepts b n ≠ -1
    · rw [if_pos hbi]
      have hlenG : G.accepted_tokens.length = get_nstates acc := by
        rw [e4, hlen]
      refine ⟨?_, ?_, ?_, ?_, ?_⟩
      · rw [(fields_add_accept _ _ _).1, e1]
      · rw [(fields_add_accept _ _ _).2.1, e2]
      · rw [(fields_add_accept _ _ _).2.2, e3]
      · show (G.accepted_tokens.set (n + boff) token).length = _
        rw [List.length_set, e4]
      · intro s
        rw [accepts_add_accept, hacc s, hlenG]
        by_cases h1 : n + boff = s
        · subst h1
          rw [if_pos ⟨rfl, hn n (Nat.lt_succ_self n)⟩,
            if_pos ⟨by omega, by simpa using hbi, by simpa using hbi⟩]
        · rw [if_neg (fun hcon => h1 hcon.1)]
          by_cases h2 : boff ≤ s ∧ s - boff < n ∧ accepts b (s - boff) ≠ -1
          · rw [if_pos h2, if_pos ⟨h2.1, Nat.lt_succ_of_lt h2.2.1, h2.2.2⟩]
          · rw [if_neg h2, if_neg]
            intro hcon
            rcases Nat.lt_succ_iff_lt_or_eq.mp hcon.2.1 with h | h
            · exact h2 ⟨hcon.1, h, hcon.2.2⟩
            · exact h1 (by omega)
    · rw [if_neg hbi]
      push_neg at hbi
      refine ⟨e1, e2, e3, e4, ?_⟩
      intro s
      rw [hacc s]
      by_cases h2 : boff ≤ s ∧ s - boff < n ∧ accepts b (s - boff) ≠ -1
      · rw [if_pos h2, if_pos ⟨h2.1, Nat.lt_succ_of_lt h2.2.1, h2.2.2⟩]
      · rw [if_neg h2, if_neg]
        intro hcon
        rcases Nat.lt_succ_iff_lt_or_eq.mp hcon.2.1 with h | h
        · exact h2 ⟨hcon.1, h, hcon.2.2⟩
        · apply hcon.2.2
          rw [h]
          exact hbi

theorem plus_eps_fold_spec (a : finite_automaton) (eps0 eps1 nas : Nat)
    (acc : finite_automaton) (hwf : wf acc) (n : Nat) (hn : n ≤ get_nstates acc)
    (he0 : eps0 < get_ncols acc) (he1 : eps1 < get_ncols acc)
    (hne : eps0 ≠ eps1) :
    let P := (List.range n).foldl (plus_eps_step a eps0 eps1 nas) acc
    P.nsymbols = acc.nsymbols ∧ P.is_deterministic = acc.is_deterministic ∧
    get_nstates P = get_nstates acc ∧ wf P ∧
    (∀ s σ, step P s σ =
      if s < n ∧ accepts a s ≠ -1 ∧ σ = eps0 then (nas : Int)
      else if s < n ∧ accepts a s ≠ -1 ∧ σ = eps1 then 0
      else step acc s σ) ∧
    (∀ s, accepts P s =
      if s < n ∧ accepts a s ≠ -1 then -1 else accepts acc s) := by
  induction n with
  | zero =>
    refine ⟨rfl, rfl, rfl, hwf, ?_, ?_⟩
    · intro s σ
      rw [if_neg (fun hcon => Nat.not_lt_zero s hcon.1),
        if_neg (fun hcon => Nat.not_lt_zero s hcon.1)]
      rfl
    · intro s
      rw [if_neg (fun hcon => Nat.not_lt_zero s hcon.1)]
      rfl
  | succ n ih =>
    obtain ⟨e1, e2, e3, hwfP, hstep, hacc⟩ := ih (Nat.le_of_succ_le hn)
    rw [List.range_succ, List.foldl_append, List.foldl_cons, List.foldl_nil]
    set P := (List.range n).foldl (plus_eps_step a eps0 eps1 nas) acc with hP
    have hcolP : get_ncols P = get_ncols acc := by simp [get_ncols, e1, e2]
    unfold plus_eps_step
    by_cases hai : accepts a n ≠ -1
    · rw [if_pos hai]
      have hwfX1 := wf_add_transition P n eps0 (nas : Int) hwfP
      have hwfX2 := wf_add_transition _ n eps1 0 hwfX1
      have hX1fields := fields_add_transition P n eps0 (nas : Int)
      have hcolX1 : get_ncols (add_transition P n eps0 (nas : Int)) =
          get_ncols acc := by
        simp [get_ncols, hX1fields.1, hX1fields.2.1, e1, e2]
      have hnX1 : get_nstates (add_transition P n eps0 (nas : Int)) =
          get_nstates acc := by
        rw [nstates_add_transition, e3]
      refine ⟨?_, ?_, ?_, ?_, ?_, ?_⟩
      · rw [remove_accept_eq, (fields_add_accept _ _ _).1,
          (fields_add_transition _ _ _ _).1, hX1fields.1, e1]
      · rw [remove_accept_eq, (fields_add_accept _ _ _).2.1,
          (fields_add_transition _ _ _ _).2.1, hX1fields.2.1, e2]
      · rw [remove_accept_eq]
        show ((add_accept _ _ _).table).length = _
        rw [(fields_add_accept _ _ _).2.2]
        show get_nstates (add_transition _ _ _ _) = _
        rw [nstates_add_transition, hnX1]
      · rw [remove_accept_eq]
        exact wf_add_accept _ _ _ hwfX2
      · intro s σ
        rw [remove_accept_eq, step_add_accept,
          step_add_transition _ n eps1 0 hwfX1 s σ,
          step_add_transition P n eps0 (nas : Int) hwfP s σ, hstep s σ]
        simp only [e3, hnX1, hcolX1, hcolP]
        by_cases h1 : n = s ∧ eps0 = σ
        · obtain ⟨hs, hσ⟩ := h1
          subst hs
          subst hσ
          rw [if_neg (fun hcon => hne hcon.2.1.symm),
            if_pos ⟨rfl, rfl, by omega, he0⟩,
            if_pos ⟨Nat.lt_succ_self n, hai, rfl⟩]
        · by_cases h2 : n = s ∧ eps1 = σ
          · obtain ⟨hs, hσ⟩ := h2
            subst hs
            subst hσ
            rw [if_pos ⟨rfl, rfl, by omega, he1⟩,
              if_neg (fun hcon => hne hcon.2.2.symm),
              if_pos ⟨Nat.lt_succ_self n, hai, rfl⟩]
          · rw [if_neg (fun hcon => h2 ⟨hcon.1, hcon.2.1⟩),
              if_neg (fun hcon => h1 ⟨hcon.1, hcon.2.1⟩)]
            by_cases h3 : s < n ∧ accepts a s ≠ -1 ∧ σ = eps0
            · rw [if_pos h3, if_pos ⟨Nat.lt_succ_of_lt h3.1, h3.2⟩]
            · rw [if_neg h3]
              by_cases h4 : s < n ∧ accepts a s ≠ -1 ∧ σ = eps1
              · rw [if_pos h4]
                rw [if_neg, if_pos ⟨Nat.lt_succ_of_lt h4.1, h4.2⟩]
                intro hcon
                exact h3 ⟨h4.1, h4.2.1, hcon.2.2⟩
              · rw [if_neg h4, if_neg, if_neg]
                · intro hcon
                  rcases Nat.lt_succ_iff_lt_or_eq.mp hcon.1 with h | h
                  · exact h4 ⟨h, hcon.2⟩
                  · exact h2 ⟨h.symm, hcon.2.2.symm⟩
                · intro hcon
                  rcases Nat.lt_succ_iff_lt_or_eq.mp hcon.1 with h | h
                  · exact h3 ⟨h, hcon.2⟩
                  · exact h1 ⟨h.symm, hcon.2.2.symm⟩
      · intro s
        have hlen2 : (add_transition (add_transition P n eps0 (nas : Int)) n
            eps1 0).accepted_tokens.length = get_nstates acc := by
          rw [(fields_add_transition _ _ _ _).2.2,
            (fields_add_transition _ _ _ _).2.2, hwfP.2]
          exact e3
        rw [remove_accept_eq, accepts_add_accept, accepts_add_transition,
          accepts_add_transition, hacc s, hlen2]
        by_cases h1 : n = s
        · subst h1
          rw [if_pos ⟨rfl, by omega⟩, if_pos ⟨Nat.lt_succ_self n, hai⟩]
        · rw [if_neg (fun hcon => h1 hcon.1)]
          by_cases h2 : s < n ∧ accepts a s ≠ -1
          · rw [if_pos h2, if_pos ⟨Nat.lt_succ_of_lt h2.1, h2.2⟩]
          · rw [if_neg h2, if_neg]
            intro hcon
            rcases Nat.lt_succ_iff_lt_or_eq.mp hcon.1 with h | h
            · exact h2 ⟨h, hcon.2⟩
            · exact h1 h.symm
    · rw [if_neg hai]
      push_neg at hai
      refine ⟨e1, e2, e3, hwfP, ?_, ?_⟩
      · intro s σ
        rw [hstep s σ]
        by_cases h3 : s < n ∧ accepts a s ≠ -1 ∧ σ = eps0
        · rw [if_pos h3, if_pos ⟨Nat.lt_succ_of_lt h3.1, h3.2⟩]
        · rw [if_neg h3]
          by_cases h4 : s < n ∧ accepts a s ≠ -1 ∧ σ = eps1
          · rw [if_pos h4]
            rw [if_neg, if_pos ⟨Nat.lt_succ_of_lt h4.1, h4.2⟩]
            intro hcon
            exact h3 ⟨h4.1, h4.2.1, hcon.2.2⟩
          · rw [if_neg h4, if_neg, if_neg]
            · intro hcon
              rcases Nat.lt_succ_iff_lt_or_eq.mp hcon.1 with h | h
              · exact h4 ⟨h, hcon.2⟩
              · subst h
                exact hcon.2.1 hai
            · intro hcon
              rcases Nat.lt_succ_iff_lt_or_eq.mp hcon.1 with h | h
              · exact h3 ⟨h, hcon.2⟩
              · subst h
                exact hcon.2.1 hai
      · intro s
        rw [hacc s]
        by_cases h2 : s < n ∧ accepts a s ≠ -1
        · rw [if_pos h2, if_pos ⟨Nat.lt_succ_of_lt h2.1, h2.2⟩]
        · rw [if_neg h2, if_neg]
          intro hcon
          rcases Nat.lt_succ_iff_lt_or_eq.mp hcon.1 with h | h
          · exact h2 ⟨h, hcon.2⟩
          · subst h
            exact hcon.2 hai

theorem maybe_chain_fold_spec (a : finite_automaton) (eps0 offset : Nat)
    (acc : finite_automaton) (l0 : Nat) (hwf : wf acc) (n : Nat)
    (hn : ∀ i, i < n → i + offset < get_nstates acc)
    (hl0 : l0 < get_nstates acc) (heps : eps0 < get_ncols acc) :
    let C := (List.range n).foldl (maybe_chain_step a eps0 offset) (acc, l0)
    C.1.nsymbols = acc.nsymbols ∧ C.1.is_deterministic = acc.is_deterministic ∧
    get_nstates C.1 = get_nstates acc ∧ wf C.1 ∧
    (C.2 = l0 ∨ (offset ≤ C.2 ∧ C.2 - offset < n)) ∧
    (∀ s, accepts C.1 s =
      if offset ≤ s ∧ s - offset < n ∧ accepts a (s - offset) ≠ -1 then -1
      else accepts acc s) ∧
    (∀ s σ, offset + n ≤ s → s ≠ l0 → step C.1 s σ = step acc s σ) := by
  induction n with
  | zero =>
    refine ⟨rfl, rfl, rfl, hwf, Or.inl rfl, ?_, ?_⟩
    · intro s
      rw [if_neg (fun hcon => Nat.not_lt_zero (s - offset) hcon.2.1)]
      rfl
    · intro s σ hs hsl
      rfl
  | succ n ih =>
    obtain ⟨e1, e2, e3, hwfC, hlast, hacc, hstep⟩ :=
      ih (fun i hi => hn i (Nat.lt_succ_of_lt hi))
    rw [List.range_succ, List.foldl_append, List.foldl_cons, List.foldl_nil]
    set C := (List.range n).foldl (maybe_chain_step a eps0 offset) (acc, l0)
      with hC
    have hcolC : get_ncols C.1 = get_ncols acc := by simp [get_ncols, e1, e2]
    have hlastlt : C.2 < get_nstates acc := by
      rcases hlast with h | h
      · rw [h]
        exact hl0
      · have := hn (C.2 - offset) (Nat.lt_succ_of_lt h.2)
        omega
    unfold maybe_chain_step
    by_cases hai : accepts a n ≠ -1
    · rw [if_pos hai]
      dsimp only
      have hwfX := wf_add_transition C.1 C.2 eps0 ((n + offset : Nat) : Int) hwfC
      refine ⟨?_, ?_, ?_, ?_, ?_, ?_, ?_⟩
      · rw [remove_accept_eq, (fields_add_accept _ _ _).1,
          (fields_add_transition _ _ _ _).1, e1]
      · rw [remove_accept_eq, (fields_add_accept _ _ _).2.1,
          (fields_add_transition _ _ _ _).2.1, e2]
      · rw [remove_accept_eq]
        show ((add_accept _ _ _).table).length = _
        rw [(fields_add_accept _ _ _).2.2]
        show get_nstates (add_transition _ _ _ _) = _
        rw [nstates_add_transition, e3]
      · rw [remove_accept_eq]
        exact wf_add_accept _ _ _ hwfX
      · right
        constructor
        · omega
        · omega
      · intro s
        have hlen2 : (add_transition C.1 C.2 eps0
            ((n + offset : Nat) : Int)).accepted_tokens.length
            = get_nstates acc := by
          rw [(fields_add_transition _ _ _ _).2.2, hwfC.2]
          exact e3
        rw [remove_accept_eq, accepts_add_accept, accepts_add_transition,
          hacc s, hlen2]
        by_cases h1 : n + offset = s
        · subst h1
          rw [if_pos ⟨rfl, hn n (Nat.lt_succ_self n)⟩,
            if_pos ⟨by omega, by omega, by simpa using hai⟩]
        · rw [if_neg (fun hcon => h1 hcon.1)]
          by_cases h2 : offset ≤ s ∧ s - offset < n ∧ accepts a (s - offset) ≠ -1
          · rw [if_pos h2, if_pos ⟨h2.1, Nat.lt_succ_of_lt h2.2.1, h2.2.2⟩]
          · rw [if_neg h2, if_neg]
            intro hcon
            rcases Nat.lt_succ_iff_lt_or_eq.mp hcon.2.1 with h | h
            · exact h2 ⟨hcon.1, h, hcon.2.2⟩
            · exact h1 (by omega)
      · intro s σ hs hsl
        rw [remove_accept_eq, step_add_accept,
          step_add_transition C.1 C.2 eps0 ((n + offset : Nat) : Int) hwfC s σ]
        rw [if_neg]
        · exact hstep s σ (by omega) hsl
        · intro hcon
          have : C.2 = s := hcon.1
          rcases hlast with h | h
          · exact hsl (by omega)
          · omega
    · rw [if_neg hai]
      push_neg at hai
      refine ⟨e1, e2, e3, hwfC, ?_, ?_, ?_⟩
      · rcases hlast with h | h
        · exact Or.inl h
        · exact Or.inr ⟨h.1, Nat.lt_succ_of_lt h.2⟩
      · intro s
        rw [hacc s]
        by_cases h2 : offset ≤ s ∧ s - offset < n ∧ accepts a (s - offset) ≠ -1
        · rw [if_pos h2, if_pos ⟨h2.1, Nat.lt_succ_of_lt h2.2.1, h2.2.2⟩]
        · rw [if_neg h2, if_neg]
          intro hcon
          rcases Nat.lt_succ_iff_lt_or_eq.mp hcon.2.1 with h | h
          · exact h2 ⟨hcon.1, h, hcon.2.2⟩
          · apply hcon.2.2
            rw [h]
            exact hai
      · intro s σ hs hsl
        exact hstep s σ (by omega) hsl

/-! ### Characterization of the combinators -/

theorem wf_mk_fa (n : Nat) (d : Bool) : wf (mk_fa n d) :=
  ⟨fun r hr => absurd hr (by simp [mk_fa]), rfl⟩

theorem step_mk_fa (n : Nat) (d : Bool) (s σ : Nat) :
    step (mk_fa n d) s σ = -1 := by
  unfold step mk_fa
  rw [getD_nil, getD_nil]

theorem accepts_mk_fa (n : Nat) (d : Bool) (s : Nat) :
    accepts (mk_fa n d) s = -1 := by
  unfold accepts mk_fa
  rw [getD_nil]

theorem nsymbols_eps_le (fa : finite_automaton) :
    get_nsymbols_eps fa ≤ fa.nsymbols + 2 := by
  unfold get_nsymbols_eps get_ncols
  split <;> omega

set_option maxHeartbeats 1600000 in
theorem unite_spec (a b : finite_automaton)
    (hab : get_nsymbols b = get_nsymbols a) :
    (unite a b).nsymbols = get_nsymbols a ∧
    (unite a b).is_deterministic = false ∧
    get_nstates (unite a b) = 1 + get_nstates a + get_nstates b ∧
    wf (unite a b) ∧
    (∀ s, accepts (unite a b) s =
      if 1 ≤ s ∧ s - 1 < get_nstates a then
        (if 0 ≤ accepts a (s - 1) then accepts a (s - 1) else -1)
      else if 1 + get_nstates a ≤ s ∧ s - (1 + get_nstates a) < get_nstates b then
        (if 0 ≤ accepts b (s - (1 + get_nstates a)) then
          accepts b (s - (1 + get_nstates a)) else -1)
      else -1) ∧
    (∀ s σ, step (unite a b) s σ =
      if s = 0 ∧ σ = get_nsymbols a then ((1 : Nat) : Int)
      else if s = 0 ∧ σ = get_nsymbols a + 1 then ((1 + get_nstates a : Nat) : Int)
      else if 1 ≤ s ∧ s - 1 < get_nstates a ∧ σ < get_nsymbols_eps a ∧
          0 ≤ step a (s - 1) σ then step a (s - 1) σ + ((1 : Nat) : Int)
      else if 1 + get_nstates a ≤ s ∧ s - (1 + get_nstates a) < get_nstates b ∧
          σ < get_nsymbols_eps b ∧ 0 ≤ step b (s - (1 + get_nstates a)) σ then
        step b (s - (1 + get_nstates a)) σ + ((1 + get_nstates a : Nat) : Int)
      else -1) := by
  have hrepr : unite a b =
      add_transition
        (add_transition
          (append_states (append_states (add_state (mk_fa (get_nsymbols a) false)) a) b)
          0
          (get_epsilon0
            (append_states (append_states (add_state (mk_fa (get_nsymbols a) false)) a) b))
          ((get_nstates (add_state (mk_fa (get_nsymbols a) false)) : Nat) : Int))
        0
        (get_epsilon1
          (append_states (append_states (add_state (mk_fa (get_nsymbols a) false)) a) b))
        ((get_nstates (append_states (add_state (mk_fa (get_nsymbols a) false)) a) : Nat) : Int)
      := rfl
  set u1 := add_state (mk_fa (get_nsymbols a) false) with hu1def
  have hwfu1 : wf u1 := wf_add_state _ (wf_mk_fa _ _)
  have hn1 : get_nstates u1 = 1 := rfl
  have hnsym1 : u1.nsymbols = get_nsymbols a := rfl
  have hdet1 : u1.is_deterministic = false := rfl
  have hcolu1 : get_ncols u1 = get_nsymbols a + 2 := rfl
  have hstepu1 : ∀ s σ, step u1 s σ = -1 := by
    intro s σ
    rw [hu1def, step_add_state, step_mk_fa]
  have haccu1 : ∀ s, accepts u1 s = -1 := by
    intro s
    rw [hu1def, accepts_add_state, accepts_mk_fa]
  have hca : get_nsymbols_eps a ≤ get_ncols u1 := by
    rw [hcolu1]
    exact nsymbols_eps_le a
  obtain ⟨a1, a2, a3, hwfu2, hstepu2, haccu2⟩ := append_states_spec u1 a hwfu1 hca
  set u2 := append_states u1 a with hu2def
  have hnsym2 : u2.nsymbols = get_nsymbols a := by rw [a1, hnsym1]
  have hdet2 : u2.is_deterministic = false := by rw [a2, hdet1]
  have hn2 : get_nstates u2 = 1 + get_nstates a := by rw [a3, hn1]
  have hcolu2 : get_ncols u2 = get_nsymbols a + 2 := by
    unfold get_ncols
    rw [hnsym2, hdet2]
    rfl
  have hcb : get_nsymbols_eps b ≤ get_ncols u2 := by
    rw [hcolu2, ← hab]
    exact nsymbols_eps_le b
  obtain ⟨b1, b2, b3, hwfu3, hstepu3, haccu3⟩ := append_states_spec u2 b hwfu2 hcb
  set u3 := append_states u2 b with hu3def
  have hnsym3 : u3.nsymbols = get_nsymbols a := by rw [b1, hnsym2]
  have hdet3 : u3.is_deterministic = false := by rw [b2, hdet2]
  have hn3 : get_nstates u3 = 1 + get_nstates a + get_nstates b := by
    rw [b3, hn2]
  have hcolu3 : get_ncols u3 = get_nsymbols a + 2 := by
    unfold get_ncols
    rw [hnsym3, hdet3]
    rfl
  have heps0 : get_epsilon0 u3 = get_nsymbols a := by
    unfold get_epsilon0
    rw [hnsym3]
  have heps1 : get_epsilon1 u3 = get_nsymbols a + 1 := by
    unfold get_epsilon1
    rw [hnsym3]
  rw [hrepr]
  set u4 := add_transition u3 0 (get_epsilon0 u3) ((get_nstates u1 : Nat) : Int)
    with hu4def
  have hwfu4 : wf u4 := wf_add_transition _ _ _ _ hwfu3
  have hnsym4 : u4.nsymbols = get_nsymbols a := by
    rw [hu4def, (fields_add_transition _ _ _ _).1, hnsym3]
  have hdet4 : u4.is_deterministic = false := by
    rw [hu4def, (fields_add_transition _ _ _ _).2.1, hdet3]
  have hn4 : get_nstates u4 = 1 + get_nstates a + get_nstates b := by
    rw [hu4def, nstates_add_transition, hn3]
  have hcolu4 : get_ncols u4 = get_nsymbols a + 2 := by
    unfold get_ncols
    rw [hnsym4, hdet4]
    rfl
  set u5 := add_transition u4 0 (get_epsilon1 u3) ((get_nstates u2 : Nat) : Int)
    with hu5def
  have hnsym5 : u5.nsymbols = get_nsymbols a := by
    rw [hu5def, (fields_add_transition _ _ _ _).1, hnsym4]
  have hdet5 : u5.is_deterministic = false := by
    rw [hu5def, (fields_add_transition _ _ _ _).2.1, hdet4]
  have hn5 : get_nstates u5 = 1 + get_nstates a + get_nstates b := by
    rw [hu5def, nstates_add_transition, hn4]
  clear_value u5 u4 u3 u2 u1
  have hwf5 : wf u5 := by
    rw [hu5def]
    exact wf_add_transition _ _ _ _ hwfu4
  refine ⟨hnsym5, hdet5, hn5, hwf5, ?_, ?_⟩
  · intro s
    have hc1 : accepts u5 s = accepts u3 s := by
      rw [hu5def, accepts_add_transition, hu4def, accepts_add_transition]
    rw [hc1, haccu3 s, haccu2 s, haccu1 s, hn1, hn2]
    split_ifs <;> omega
  · intro s σ
    have hstepu4 : ∀ t τ, step u4 t τ =
        if 0 = t ∧ get_epsilon0 u3 = τ ∧ t < get_nstates u3 ∧
            τ < get_ncols u3 then ((get_nstates u1 : Nat) : Int)
        else step u3 t τ := by
      intro t τ
      rw [hu4def, step_add_transition u3 0 (get_epsilon0 u3)
        ((get_nstates u1 : Nat) : Int) hwfu3 t τ]
    have hstepu5 : ∀ t τ, step u5 t τ =
        if 0 = t ∧ get_epsilon1 u3 = τ ∧ t < get_nstates u4 ∧
            τ < get_ncols u4 then ((get_nstates u2 : Nat) : Int)
        else step u4 t τ := by
      intro t τ
      rw [hu5def, step_add_transition u4 0 (get_epsilon1 u3)
        ((get_nstates u2 : Nat) : Int) hwfu4 t τ]
    rw [hstepu5 s σ, hstepu4 s σ, hstepu3 s σ, hstepu2 s σ, hstepu1 s σ,
      hn1, hn2, hn3, hn4, hcolu3, hcolu4, heps0, heps1]
    clear hstepu5 hstepu4 hstepu3 hstepu2 hstepu1 haccu3 haccu2 haccu1
    clear hwfu4 hwfu3 hwfu2 hwfu1 hwf5 hrepr hu5def hu4def hu3def hu2def
    clear hu1def hca hcb a1 a2 a3 b1 b2 b3 hcolu1 hcolu2 hcolu3 hcolu4
    clear heps0 heps1 hn1 hn2 hn3 hn4 hn5 hnsym1 hnsym2 hnsym3 hnsym4
    clear hnsym5 hdet1 hdet2 hdet3 hdet4 hdet5 hab
    clear u5 u4 u2 u1
    split_ifs <;> omega

theorem wf_of_fields (x y : finite_automaton) (ht : x.table = y.table)
    (hs : x.nsymbols = y.nsymbols) (hd : x.is_deterministic = y.is_deterministic)
    (hl : x.accepted_tokens.length = y.accepted_tokens.length) (h : wf y) :
    wf x := by
  constructor
  · intro r hr
    rw [ht] at hr
    rw [h.1 r hr]
    unfold get_ncols
    rw [hs, hd]
  · rw [hl, ht]
    exact h.2

set_option maxHeartbeats 1600000 in
theorem concat_spec (a b : finite_automaton) (token : Int)
    (hab : get_nsymbols b = get_nsymbols a) :
    (concat a b token).nsymbols = get_nsymbols a ∧
    (concat a b token).is_deterministic = false ∧
    get_nstates (concat a b token) = get_nstates a + get_nstates b ∧
    wf (concat a b token) ∧
    (∀ s, accepts (concat a b token) s =
      if get_nstates a ≤ s ∧ s - get_nstates a < get_nstates b ∧
          accepts b (s - get_nstates a) ≠ -1 then token
      else -1) ∧
    (∀ s σ, get_nstates a ≤ s →
      step (concat a b token) s σ =
        if s - get_nstates a < get_nstates b ∧ σ < get_nsymbols_eps b ∧
            0 ≤ step b (s - get_nstates a) σ then
          step b (s - get_nstates a) σ + ((get_nstates a : Nat) : Int)
        else -1) := by
  have hrepr : concat a b token =
      (List.range (get_nstates b)).foldl
        (concat_accept_step b
          (get_nstates (append_states (mk_fa (get_nsymbols a) false) a)) token)
        ((List.range (get_nstates a)).foldl
          (concat_eps_step a
            (get_epsilon0
              (append_states (append_states (mk_fa (get_nsymbols a) false) a) b))
            (get_nstates (append_states (mk_fa (get_nsymbols a) false) a)))
          (append_states (append_states (mk_fa (get_nsymbols a) false) a) b))
      := rfl
  have hca : get_nsymbols_eps a ≤ get_ncols (mk_fa (get_nsymbols a) false) :=
    nsymbols_eps_le a
  obtain ⟨a1, a2, a3, hwfu1, hstepu1, haccu1⟩ :=
    append_states_spec (mk_fa (get_nsymbols a) false) a (wf_mk_fa _ _) hca
  set u1 := append_states (mk_fa (get_nsymbols a) false) a with hu1def
  have hn0 : get_nstates (mk_fa (get_nsymbols a) false) = 0 := rfl
  have hnsym1 : u1.nsymbols = get_nsymbols a := by
    rw [a1]
    rfl
  have hdet1 : u1.is_deterministic = false := by
    rw [a2]
    rfl
  have hn1 : get_nstates u1 = get_nstates a := by rw [a3, hn0, Nat.zero_add]
  have hcolu1 : get_ncols u1 = get_nsymbols a + 2 := by
    unfold get_ncols
    rw [hnsym1, hdet1]
    rfl
  have hcb : get_nsymbols_eps b ≤ get_ncols u1 := by
    rw [hcolu1, ← hab]
    exact nsymbols_eps_le b
  obtain ⟨b1, b2, b3, hwfu2, hstepu2, haccu2⟩ := append_states_spec u1 b hwfu1 hcb
  set u2 := append_states u1 b with hu2def
  have hnsym2 : u2.nsymbols = get_nsymbols a := by rw [b1, hnsym1]
  have hdet2 : u2.is_deterministic = false := by rw [b2, hdet1]
  have hn2 : get_nstates u2 = get_nstates a + get_nstates b := by rw [b3, hn1]
  have hcolu2 : get_ncols u2 = get_nsymbols a + 2 := by
    unfold get_ncols
    rw [hnsym2, hdet2]
    rfl
  have heps0 : get_epsilon0 u2 = get_nsymbols a := by
    unfold get_epsilon0
    rw [hnsym2]
  obtain ⟨f1, f2, f3, hwfu3, hstepu3, haccu3⟩ :=
    concat_eps_fold_spec a (get_epsilon0 u2) (get_nstates u1) u2 hwfu2
      (get_nstates a) (by omega) (by rw [heps0, hcolu2]; omega)
  set u3 := (List.range (get_nstates a)).foldl
    (concat_eps_step a (get_epsilon0 u2) (get_nstates u1)) u2 with hu3def
  have hnsym3 : u3.nsymbols = get_nsymbols a := by rw [f1, hnsym2]
  have hdet3 : u3.is_deterministic = false := by rw [f2, hdet2]
  have hn3 : get_nstates u3 = get_nstates a + get_nstates b := by rw [f3, hn2]
  obtain ⟨g1, g2, g3, g4, haccu4⟩ :=
    concat_accept_fold_spec b (get_nstates u1) token u3 hwfu3.2
      (get_nstates b) (by omega)
  set u4 := (List.range (get_nstates b)).foldl
    (concat_accept_step b (get_nstates u1) token) u3 with hu4def
  rw [hrepr]
  clear_value u4 u3 u2 u1
  have hnsym4 : u4.nsymbols = get_nsymbols a := by rw [g1, hnsym3]
  have hdet4 : u4.is_deterministic = false := by rw [g2, hdet3]
  have hn4 : get_nstates u4 = get_nstates a + get_nstates b := by
    unfold get_nstates
    rw [g3]
    exact hn3
  have hwfu4 : wf u4 := wf_of_fields u4 u3 g3 g1 g2 g4 hwfu3
  have hstepu4 : ∀ s σ, step u4 s σ = step u3 s σ := by
    intro s σ
    unfold step
    rw [g3]
  refine ⟨hnsym4, hdet4, hn4, hwfu4, ?_, ?_⟩
  · intro s
    rw [haccu4 s, haccu3 s, haccu2 s, haccu1 s, hn0, hn1]
    simp only [Nat.sub_zero]
    clear haccu4 haccu3 haccu2 haccu1 hstepu4 hstepu3 hstepu2 hstepu1
    clear hwfu4 hwfu3 hwfu2 hwfu1 hrepr hu4def hu3def hu2def hu1def
    clear a1 a2 a3 b1 b2 b3 f1 f2 f3 g1 g2 g3 g4 hca hcb hcolu1 hcolu2
    clear heps0 hn0 hn1 hn2 hn3 hn4 hnsym1 hnsym2 hnsym3 hnsym4
    clear hdet1 hdet2 hdet3 hdet4 hab
    split_ifs <;> omega
  · intro s σ hs
    rw [hstepu4 s σ, hstepu3 s σ, hstepu2 s σ, hstepu1 s σ, hn0, hn1]
    simp only [Nat.sub_zero]
    clear haccu4 haccu3 haccu2 haccu1 hstepu4 hstepu3 hstepu2 hstepu1
    clear hwfu4 hwfu3 hwfu2 hwfu1 hrepr hu4def hu3def hu2def hu1def
    clear a1 a2 a3 b1 b2 b3 f1 f2 f3 g1 g2 g3 g4 hca hcb hcolu1 hcolu2
    clear heps0 hn0 hn1 hn2 hn3 hn4 hnsym1 hnsym2 hnsym3 hnsym4
    clear hdet1 hdet2 hdet3 hdet4 hab
    split_ifs <;> omega

set_option maxHeartbeats 1600000 in
theorem plus_spec (a : finite_automaton) (token : Int) :
    (plus a token).nsymbols = get_nsymbols a ∧
    (plus a token).is_deterministic = false ∧
    get_nstates (plus a token) = get_nstates a + 1 ∧
    wf (plus a token) ∧
    (∀ s, accepts (plus a token) s =
      if s = get_nstates a then token else -1) ∧
    (∀ σ, step (plus a token) (get_nstates a) σ = -1) := by
  have hrepr : plus a token =
      (List.range (get_nstates a)).foldl
        (plus_eps_step a
          (get_epsilon0
            (add_accept (add_state (append_states (mk_fa (get_nsymbols a) false) a))
              (get_nstates (append_states (mk_fa (get_nsymbols a) false) a)) token))
          (get_epsilon1
            (add_accept (add_state (append_states (mk_fa (get_nsymbols a) false) a))
              (get_nstates (append_states (mk_fa (get_nsymbols a) false) a)) token))
          (get_nstates (append_states (mk_fa (get_nsymbols a) false) a)))
        (add_accept (add_state (append_states (mk_fa (get_nsymbols a) false) a))
          (get_nstates (append_states (mk_fa (get_nsymbols a) false) a)) token)
      := rfl
  have hca : get_nsymbols_eps a ≤ get_ncols (mk_fa (get_nsymbols a) false) :=
    nsymbols_eps_le a
  obtain ⟨a1, a2, a3, hwfu1, hstepu1, haccu1⟩ :=
    append_states_spec (mk_fa (get_nsymbols a) false) a (wf_mk_fa _ _) hca
  set u1 := append_states (mk_fa (get_nsymbols a) false) a with hu1def
  have hn0 : get_nstates (mk_fa (get_nsymbols a) false) = 0 := rfl
  have hnsym1 : u1.nsymbols = get_nsymbols a := by
    rw [a1]
    rfl
  have hdet1 : u1.is_deterministic = false := by
    rw [a2]
    rfl
  have hn1 : get_nstates u1 = get_nstates a := by rw [a3, hn0, Nat.zero_add]
  set u2 := add_state u1 with hu2def
  have hwfu2 : wf u2 := wf_add_state u1 hwfu1
  have hnsym2 : u2.nsymbols = get_nsymbols a := by
    rw [hu2def, (fields_add_state u1).1, hnsym1]
  have hdet2 : u2.is_deterministic = false := by
    rw [hu2def, (fields_add_state u1).2, hdet1]
  have hn2 : get_nstates u2 = get_nstates a + 1 := by
    rw [hu2def, nstates_add_state, hn1]
  have hstepu2 : ∀ s σ, step u2 s σ = step u1 s σ := by
    intro s σ
    rw [hu2def, step_add_state]
  have haccu2 : ∀ s, accepts u2 s = accepts u1 s := by
    intro s
    rw [hu2def, accepts_add_state]
  set u3 := add_accept u2 (get_nstates u1) token with hu3def
  have hwfu3 : wf u3 := wf_add_accept u2 (get_nstates u1) token hwfu2
  have hnsym3 : u3.nsymbols = get_nsymbols a := by
    rw [hu3def, (fields_add_accept _ _ _).1, hnsym2]
  have hdet3 : u3.is_deterministic = false := by
    rw [hu3def, (fields_add_accept _ _ _).2.1, hdet2]
  have hn3 : get_nstates u3 = get_nstates a + 1 := by
    show u3.table.length = _
    rw [hu3def, (fields_add_accept _ _ _).2.2]
    exact hn2
  have hcolu3 : get_ncols u3 = get_nsymbols a + 2 := by
    unfold get_ncols
    rw [hnsym3, hdet3]
    rfl
  have heps0 : get_epsilon0 u3 = get_nsymbols a := by
    unfold get_epsilon0
    rw [hnsym3]
  have heps1 : get_epsilon1 u3 = get_nsymbols a + 1 := by
    unfold get_epsilon1
    rw [hnsym3]
  have hlen2 : u2.accepted_tokens.length = get_nstates a + 1 := by
    rw [hwfu2.2]
    exact hn2
  have hstepu3 : ∀ s σ, step u3 s σ = step u2 s σ := by
    intro s σ
    rw [hu3def, step_add_accept]
  have haccu3 : ∀ s, accepts u3 s =
      if get_nstates u1 = s ∧ s < get_nstates a + 1 then token
      else accepts u2 s := by
    intro s
    rw [hu3def, accepts_add_accept, hlen2]
  obtain ⟨f1, f2, f3, hwfF, hstepF, haccF⟩ :=
    plus_eps_fold_spec a (get_epsilon0 u3) (get_epsilon1 u3) (get_nstates u1)
      u3 hwfu3 (get_nstates a) (by omega)
      (by rw [heps0, hcolu3]; omega) (by rw [heps1, hcolu3]; omega)
      (by rw [heps0, heps1]; omega)
  set F := (List.range (get_nstates a)).foldl
    (plus_eps_step a (get_epsilon0 u3) (get_epsilon1 u3) (get_nstates u1)) u3
    with hFdef
  rw [hrepr]
  clear_value F u3 u2 u1
  have hnsymF : F.nsymbols = get_nsymbols a := by rw [f1, hnsym3]
  have hdetF : F.is_deterministic = false := by rw [f2, hdet3]
  have hnF : get_nstates F = get_nstates a + 1 := by rw [f3, hn3]
  refine ⟨hnsymF, hdetF, hnF, hwfF, ?_, ?_⟩
  · intro s
    rw [haccF s, haccu3 s, haccu2 s, haccu1 s, hn0, hn1]
    simp only [Nat.sub_zero]
    clear haccF haccu3 haccu2 haccu1 hstepF hstepu3 hstepu2 hstepu1
    clear hwfF hwfu3 hwfu2 hwfu1 hrepr hFdef hu3def hu2def hu1def
    clear a1 a2 a3 f1 f2 f3 hca hcolu3 heps0 heps1 hlen2
    clear hn0 hn1 hn2 hn3 hnF hnsym1 hnsym2 hnsym3 hnsymF
    clear hdet1 hdet2 hdet3 hdetF
    split_ifs <;> omega
  · intro σ
    rw [hstepF (get_nstates a) σ, hstepu3 (get_nstates a) σ,
      hstepu2 (get_nstates a) σ, hstepu1 (get_nstates a) σ, hn0]
    simp only [Nat.sub_zero]
    clear haccF haccu3 haccu2 haccu1 hstepF hstepu3 hstepu2 hstepu1
    clear hwfF hwfu3 hwfu2 hwfu1 hrepr hFdef hu3def hu2def hu1def
    clear a1 a2 a3 f1 f2 f3 hca hcolu3 heps0 heps1 hlen2
    clear hn0 hn1 hn2 hn3 hnF hnsym1 hnsym2 hnsym3 hnsymF
    clear hdet1 hdet2 hdet3 hdetF
    split_ifs <;> omega

set_option maxHeartbeats 1600000 in
theorem maybe_spec (a : finite_automaton) (token : Int) :
    (maybe a token).nsymbols = get_nsymbols a ∧
    (maybe a token).is_deterministic = false ∧
    get_nstates (maybe a token) = get_nstates a + 2 ∧
    wf (maybe a token) ∧
    (∀ s, accepts (maybe a token) s =
      if s = 1 + get_nstates a then token else -1) ∧
    (∀ σ, step (maybe a token) (1 + get_nstates a) σ = -1) := by
  have hrepr : maybe a token =
      add_accept
        (add_transition
          ((List.range (get_nstates a)).foldl
            (maybe_chain_step a
              (get_epsilon0
                (add_state (append_states (add_state (mk_fa (get_nsymbols a) false)) a)))
              (get_nstates (add_state (mk_fa (get_nsymbols a) false))))
            (add_transition
              (add_state (append_states (add_state (mk_fa (get_nsymbols a) false)) a))
              (get_nstates (mk_fa (get_nsymbols a) false))
              (get_epsilon1
                (add_state (append_states (add_state (mk_fa (get_nsymbols a) false)) a)))
              ((get_nstates (add_state (mk_fa (get_nsymbols a) false)) : Nat) : Int),
             get_nstates (mk_fa (get_nsymbols a) false))).1
          ((List.range (get_nstates a)).foldl
            (maybe_chain_step a
              (get_epsilon0
                (add_state (append_states (add_state (mk_fa (get_nsymbols a) false)) a)))
              (get_nstates (add_state (mk_fa (get_nsymbols a) false))))
            (add_transition
              (add_state (append_states (add_state (mk_fa (get_nsymbols a) false)) a))
              (get_nstates (mk_fa (get_nsymbols a) false))
              (get_epsilon1
                (add_state (append_states (add_state (mk_fa (get_nsymbols a) false)) a)))
              ((get_nstates (add_state (mk_fa (get_nsymbols a) false)) : Nat) : Int),
             get_nstates (mk_fa (get_nsymbols a) false))).2
          (get_epsilon0
            (add_state (append_states (add_state (mk_fa (get_nsymbols a) false)) a)))
          ((get_nstates (append_states (add_state (mk_fa (get_nsymbols a) false)) a) : Nat) : Int))
        (get_nstates (append_states (add_state (mk_fa (get_nsymbols a) false)) a))
        token := rfl
  set u1 := add_state (mk_fa (get_nsymbols a) false) with hu1def
  have hwfu1 : wf u1 := wf_add_state _ (wf_mk_fa _ _)
  have hn1 : get_nstates u1 = 1 := rfl
  have hnsym1 : u1.nsymbols = get_nsymbols a := rfl
  have hdet1 : u1.is_deterministic = false := rfl
  have hcolu1 : get_ncols u1 = get_nsymbols a + 2 := rfl
  have hstepu1 : ∀ s σ, step u1 s σ = -1 := by
    intro s σ
    rw [hu1def, step_add_state, step_mk_fa]
  have haccu1 : ∀ s, accepts u1 s = -1 := by
    intro s
    rw [hu1def, accepts_add_state, accepts_mk_fa]
  have hca : get_nsymbols_eps a ≤ get_ncols u1 := by
    rw [hcolu1]
    exact nsymbols_eps_le a
  obtain ⟨a1, a2, a3, hwfu2, hstepu2, haccu2⟩ := append_states_spec u1 a hwfu1 hca
  set u2 := append_states u1 a with hu2def
  have hnsym2 : u2.nsymbols = get_nsymbols a := by rw [a1, hnsym1]
  have hdet2 : u2.is_deterministic = false := by rw [a2, hdet1]
  have hn2 : get_nstates u2 = 1 + get_nstates a := by rw [a3, hn1]
  set u3 := add_state u2 with hu3def
  have hwfu3 : wf u3 := wf_add_state u2 hwfu2
  have hnsym3 : u3.nsymbols = get_nsymbols a := by
    rw [hu3def, (fields_add_state u2).1, hnsym2]
  have hdet3 : u3.is_deterministic = false := by
    rw [hu3def, (fields_add_state u2).2, hdet2]
  have hn3 : get_nstates u3 = get_nstates a + 2 := by
    rw [hu3def, nstates_add_state, hn2]
    omega
  have hcolu3 : get_ncols u3 = get_nsymbols a + 2 := by
    unfold get_ncols
    rw [hnsym3, hdet3]
    rfl
  have heps0 : get_epsilon0 u3 = get_nsymbols a := by
    unfold get_epsilon0
    rw [hnsym3]
  have heps1 : get_epsilon1 u3 = get_nsymbols a + 1 := by
    unfold get_epsilon1
    rw [hnsym3]
  have hstepu3 : ∀ s σ, step u3 s σ = step u2 s σ := by
    intro s σ
    rw [hu3def, step_add_state]
  have haccu3 : ∀ s, accepts u3 s = accepts u2 s := by
    intro s
    rw [hu3def, accepts_add_state]
  set u4 := add_transition u3 (get_nstates (mk_fa (get_nsymbols a) false))
    (get_epsilon1 u3) ((get_nstates u1 : Nat) : Int) with hu4def
  have hwfu4 : wf u4 := wf_add_transition _ _ _ _ hwfu3
  have hnsym4 : u4.nsymbols = get_nsymbols a := by
    rw [hu4def, (fields_add_transition _ _ _ _).1, hnsym3]
  have hdet4 : u4.is_deterministic = false := by
    rw [hu4def, (fields_add_transition _ _ _ _).2.1, hdet3]
  have hn4 : get_nstates u4 = get_nstates a + 2 := by
    rw [hu4def, nstates_add_transition, hn3]
  have hcolu4 : get_ncols u4 = get_nsymbols a + 2 := by
    unfold get_ncols
    rw [hnsym4, hdet4]
    rfl
  have hn0 : get_nstates (mk_fa (get_nsymbols a) false) = 0 := rfl
  have hstepu4 : ∀ s σ, step u4 s σ =
      if get_nstates (mk_fa (get_nsymbols a) false) = s ∧ get_epsilon1 u3 = σ ∧
          s < get_nstates u3 ∧ σ < get_ncols u3 then ((get_nstates u1 : Nat) : Int)
      else step u3 s σ := by
    intro s σ
    rw [hu4def, step_add_transition u3 _ _ _ hwfu3 s σ]
  have haccu4 : ∀ s, accepts u4 s = accepts u3 s := by
    intro s
    rw [hu4def, accepts_add_transition]
  obtain ⟨c1, c2, c3, hwfC, hlast, haccC, hstepC⟩ :=
    maybe_chain_fold_spec a (get_epsilon0 u3) (get_nstates u1) u4
      (get_nstates (mk_fa (get_nsymbols a) false)) hwfu4 (get_nstates a)
      (fun i hi => by omega) (by omega) (by omega)
  set C := (List.range (get_nstates a)).foldl
    (maybe_chain_step a (get_epsilon0 u3) (get_nstates u1))
    (u4, get_nstates (mk_fa (get_nsymbols a) false)) with hCdef
  rw [hrepr]
  clear_value C u4 u3 u2 u1
  have hnsymC : C.1.nsymbols = get_nsymbols a := by rw [c1, hnsym4]
  have hdetC : C.1.is_deterministic = false := by rw [c2, hdet4]
  have hnC : get_nstates C.1 = get_nstates a + 2 := by rw [c3, hn4]
  have hlastlt : C.2 < 1 + get_nstates a := by
    rcases hlast with h | h
    · rw [hn0] at h
      omega
    · rw [hn1] at h
      omega
  set u5 := add_transition C.1 C.2 (get_epsilon0 u3)
    ((get_nstates u2 : Nat) : Int) with hu5def
  have hwfu5 : wf u5 := wf_add_transition _ _ _ _ hwfC
  have hnsym5 : u5.nsymbols = get_nsymbols a := by
    rw [hu5def, (fields_add_transition _ _ _ _).1, hnsymC]
  have hdet5 : u5.is_deterministic = false := by
    rw [hu5def, (fields_add_transition _ _ _ _).2.1, hdetC]
  have hn5 : get_nstates u5 = get_nstates a + 2 := by
    rw [hu5def, nstates_add_transition, hnC]
  have hstepu5 : ∀ s σ, step u5 s σ =
      if C.2 = s ∧ get_epsilon0 u3 = σ ∧ s < get_nstates C.1 ∧
          σ < get_ncols C.1 then ((get_nstates u2 : Nat) : Int)
      else step C.1 s σ := by
    intro s σ
    rw [hu5def, step_add_transition C.1 _ _ _ hwfC s σ]
  have haccu5 : ∀ s, accepts u5 s = accepts C.1 s := by
    intro s
    rw [hu5def, accepts_add_transition]
  have hlen5 : u5.accepted_tokens.length = get_nstates a + 2 := by
    rw [hwfu5.2]
    exact hn5
  refine ⟨?_, ?_, ?_, ?_, ?_, ?_⟩
  · rw [(fields_add_accept _ _ _).1, hnsym5]
  · rw [(fields_add_accept _ _ _).2.1, hdet5]
  · show ((add_accept _ _ _).table).length = _
    rw [(fields_add_accept _ _ _).2.2]
    exact hn5
  · exact wf_add_accept _ _ _ hwfu5
  · intro s
    rw [accepts_add_accept, hlen5, haccu5 s, haccC s, haccu4 s, haccu3 s,
      haccu2 s, haccu1 s, hn1, hn2]
    clear haccC haccu5 haccu4 haccu3 haccu2 haccu1
    clear hstepC hstepu5 hstepu4 hstepu3 hstepu2 hstepu1
    clear hwfu5 hwfC hwfu4 hwfu3 hwfu2 hwfu1 hrepr hCdef hu5def hu4def
    clear hu3def hu2def hu1def a1 a2 a3 c1 c2 c3 hca hcolu1 hcolu3 hcolu4
    clear heps0 heps1 hlast hlastlt hlen5 hn1 hn2 hn3 hn4 hn5 hnC
    clear hnsym1 hnsym2 hnsym3 hnsym4 hnsym5 hnsymC
    clear hdet1 hdet2 hdet3 hdet4 hdet5 hdetC
    split_ifs <;> omega
  · intro σ
    rw [step_add_accept, hstepu5 (1 + get_nstates a) σ]
    rw [if_neg (by omega : ¬(C.2 = 1 + get_nstates a ∧
      get_epsilon0 u3 = σ ∧ 1 + get_nstates a < get_nstates C.1 ∧
      σ < get_ncols C.1))]
    rw [hstepC (1 + get_nstates a) σ (by omega) (by omega)]
    rw [hstepu4 (1 + get_nstates a) σ,
      if_neg (by omega : ¬(get_nstates (mk_fa (get_nsymbols a) false) =
          1 + get_nstates a ∧
        get_epsilon1 u3 = σ ∧ 1 + get_nstates a < get_nstates u3 ∧
        σ < get_ncols u3)),
      hstepu3 (1 + get_nstates a) σ, hstepu2 (1 + get_nstates a) σ, hn1]
    rw [if_neg (by omega : ¬(1 ≤ 1 + get_nstates a ∧
        1 + get_nstates a - 1 < get_nstates a ∧ σ < get_nsymbols_eps a ∧
        0 ≤ step a (1 + get_nstates a - 1) σ)),
      if_neg (by omega : ¬1 + get_nstates a < 1)]

/-! ### The accepting-states-have-no-epsilon-transitions invariant (C9) -/

/-- The documented combinator invariant: an accepting state has no outgoing
transition on either epsilon channel. -/
def accepting_no_eps (fa : finite_automaton) : Prop :=
  ∀ s, s < get_nstates fa → accepts fa s ≠ -1 →
    step fa s (get_epsilon0 fa) = -1 ∧ step fa s (get_epsilon1 fa) = -1

instance (fa : finite_automaton) : Decidable (accepting_no_eps fa) := by
  unfold accepting_no_eps
  infer_instance

theorem unite_no_eps (a b : finite_automaton)
    (hab : get_nsymbols b = get_nsymbols a)
    (ha : accepting_no_eps a) (hb : accepting_no_eps b) :
    accepting_no_eps (unite a b) := by
  obtain ⟨e1, e2, e3, hwfo, hacc, hstep⟩ := unite_spec a b hab
  intro s hs hok
  have he0 : get_epsilon0 (unite a b) = get_nsymbols a := by
    unfold get_epsilon0
    rw [e1]
  have he1 : get_epsilon1 (unite a b) = get_nsymbols a + 1 := by
    unfold get_epsilon1
    rw [e1]
  rw [hacc s] at hok
  by_cases h1 : 1 ≤ s ∧ s - 1 < get_nstates a
  · rw [if_pos h1] at hok
    have hvalid : accepts a (s - 1) ≠ -1 := by
      by_cases h2 : 0 ≤ accepts a (s - 1)
      · omega
      · rw [if_neg h2] at hok
        exact absurd rfl hok
    have pa := ha (s - 1) h1.2 hvalid
    have pa1 : step a (s - 1) (get_nsymbols a) = -1 := pa.1
    have pa2 : step a (s - 1) (get_nsymbols a + 1) = -1 := pa.2
    obtain ⟨hls, hltn⟩ := h1
    constructor
    · rw [he0, hstep s (get_nsymbols a)]
      split_ifs <;> omega
    · rw [he1, hstep s (get_nsymbols a + 1)]
      split_ifs <;> omega
  · rw [if_neg h1] at hok
    by_cases h2 : 1 + get_nstates a ≤ s ∧
        s - (1 + get_nstates a) < get_nstates b
    · rw [if_pos h2] at hok
      have hvalid : accepts b (s - (1 + get_nstates a)) ≠ -1 := by
        by_cases h3 : 0 ≤ accepts b (s - (1 + get_nstates a))
        · omega
        · rw [if_neg h3] at hok
          exact absurd rfl hok
      have pb := hb (s - (1 + get_nstates a)) h2.2 hvalid
      have pb1 : step b (s - (1 + get_nstates a)) (get_nsymbols a) = -1 := by
        rw [← hab]
        exact pb.1
      have pb2 : step b (s - (1 + get_nstates a)) (get_nsymbols a + 1) = -1 := by
        rw [← hab]
        exact pb.2
      obtain ⟨hls, hltn⟩ := h2
      constructor
      · rw [he0, hstep s (get_nsymbols a)]
        split_ifs <;> omega
      · rw [he1, hstep s (get_nsymbols a + 1)]
        split_ifs <;> omega
    · rw [if_neg h2] at hok
      exact absurd rfl hok

theorem concat_no_eps (a b : finite_automaton) (token : Int)
    (hab : get_nsymbols b = get_nsymbols a) (hb : accepting_no_eps b) :
    accepting_no_eps (concat a b token) := by
  obtain ⟨e1, e2, e3, hwfo, hacc, hstep⟩ := concat_spec a b token hab
  intro s hs hok
  have he0 : get_epsilon0 (concat a b token) = get_nsymbols a := by
    unfold get_epsilon0
    rw [e1]
  have he1 : get_epsilon1 (concat a b token) = get_nsymbols a + 1 := by
    unfold get_epsilon1
    rw [e1]
  rw [hacc s] at hok
  by_cases h1 : get_nstates a ≤ s ∧ s - get_nstates a < get_nstates b ∧
      accepts b (s - get_nstates a) ≠ -1
  · have pb := hb (s - get_nstates a) h1.2.1 h1.2.2
    have pb1 : step b (s - get_nstates a) (get_nsymbols a) = -1 := by
      rw [← hab]
      exact pb.1
    have pb2 : step b (s - get_nstates a) (get_nsymbols a + 1) = -1 := by
      rw [← hab]
      exact pb.2
    obtain ⟨hls, hltn, hne⟩ := h1
    constructor
    · rw [he0, hstep s (get_nsymbols a) hls]
      split_ifs <;> omega
    · rw [he1, hstep s (get_nsymbols a + 1) hls]
      split_ifs <;> omega
  · rw [if_neg h1] at hok
    exact absurd rfl hok

theorem plus_no_eps (a : finite_automaton) (token : Int) :
    accepting_no_eps (plus a token) := by
  obtain ⟨e1, e2, e3, hwfo, hacc, hstep⟩ := plus_spec a token
  intro s hs hok
  rw [hacc s] at hok
  by_cases h1 : s = get_nstates a
  · subst h1
    exact ⟨hstep _, hstep _⟩
  · rw [if_neg h1] at hok
    exact absurd rfl hok

theorem maybe_no_eps (a : finite_automaton) (token : Int) :
    accepting_no_eps (maybe a token) := by
  obtain ⟨e1, e2, e3, hwfo, hacc, hstep⟩ := maybe_spec a token
  intro s hs hok
  rw [hacc s] at hok
  by_cases h1 : s = 1 + get_nstates a
  · subst h1
    exact ⟨hstep _, hstep _⟩
  · rw [if_neg h1] at hok
    exact absurd rfl hok

theorem star_no_eps (a : finite_automaton) (token : Int) :
    accepting_no_eps (star a token) :=
  maybe_no_eps (plus a token) token

/-- Claim C9: for all input automata whose accepting states have no outgoing
epsilon transitions (and matching symbol counts, which the C++ code asserts),
each combinator `unite`, `concat`, `plus`, `maybe` and `star` again produces
an automaton whose accepting states have no outgoing epsilon transitions. -/
theorem claim_C9_combinators_preserve_no_eps_invariant
    (a b : finite_automaton) (token : Int)
    (hab : get_nsymbols b = get_nsymbols a)
    (ha : accepting_no_eps a) (hb : accepting_no_eps b) :
    accepting_no_eps (unite a b) ∧ accepting_no_eps (concat a b token) ∧
    accepting_no_eps (plus a token) ∧ accepting_no_eps (maybe a token) ∧
    accepting_no_eps (star a token) :=
  ⟨unite_no_eps a b hab ha hb, concat_no_eps a b token hab hb,
   plus_no_eps a token, maybe_no_eps a token, star_no_eps a token⟩

/-- Concrete witness for the hypotheses and conclusion of claim C9. -/
theorem claim_C9_witness :
    get_nsymbols (make_single_nfa 2 1 1) =
      get_nsymbols (plus (make_single_nfa 2 0 0) 0) ∧
    accepting_no_eps (plus (make_single_nfa 2 0 0) 0) ∧
    accepting_no_eps (make_single_nfa 2 1 1) ∧
    (accepting_no_eps (unite (plus (make_single_nfa 2 0 0) 0)
        (make_single_nfa 2 1 1)) ∧
      accepting_no_eps (concat (plus (make_single_nfa 2 0 0) 0)
        (make_single_nfa 2 1 1) 1) ∧
      accepting_no_eps (plus (plus (make_single_nfa 2 0 0) 0) 1) ∧
      accepting_no_eps (maybe (plus (make_single_nfa 2 0 0) 0) 1) ∧
      accepting_no_eps (star (plus (make_single_nfa 2 0 0) 0) 1)) :=
  ⟨by decide, by decide, by decide,
   claim_C9_combinators_preserve_no_eps_invariant
     (plus (make_single_nfa 2 0 0) 0) (make_single_nfa 2 1 1) 1
     (by decide) (by decide) (by decide)⟩

/-! ### Subset construction (`make_deterministic`) -/

/-- Embedding of the static `step` on state sets: successors of the member
states on `symbol`, dropping `-1`. -/
def step_set (ss : Finset Int) (symbol : Nat) (fa : finite_automaton) :
    Finset Int :=
  (ss.image (fun state => stepI fa state symbol)).filter (· ≠ -1)

/-- Embedding of the queue loop inside `get_epsilon_closure`, with explicit
fuel: pop a state, push its unseen epsilon successors. -/
def get_epsilon_closure_loop (fa : finite_automaton) :
    Nat → List Int → Finset Int → Option (Finset Int)
  | _, [], ss => some ss
  | 0, _ :: _, _ => none
  | fuel + 1, state :: q, ss =>
      let next0 := stepI fa state (get_epsilon0 fa)
      let p1 := if next0 ≠ -1 ∧ next0 ∉ ss
        then (insert next0 ss, q ++ [next0]) else (ss, q)
      let next1 := stepI fa state (get_epsilon1 fa)
      let p2 := if next1 ≠ -1 ∧ next1 ∉ p1.1
        then (insert next1 p1.1, p1.2 ++ [next1]) else p1
      get_epsilon_closure_loop fa fuel p2.2 p2.1

/-- Ascending insertion into a sorted list (helper used to enumerate a
`std::set<int>` in ascending order, as its iterators do). -/
def insert_ascending (x : Int) : List Int → List Int
  | [] => [x]
  | y :: l => if x ≤ y then x :: y :: l else y :: insert_ascending x l

theorem insert_ascending_comm (x y : Int) :
    ∀ l : List Int, insert_ascending x (insert_ascending y l) =
      insert_ascending y (insert_ascending x l) := by
  intro l
  induction l with
  | nil =>
      by_cases h1 : x ≤ y
      · by_cases h2 : y ≤ x
        · have hxy : x = y := le_antisymm h1 h2
          subst hxy
          rfl
        · simp [insert_ascending, h1, h2]
      · have h2 : y ≤ x := le_of_not_le h1
        simp [insert_ascending, h1, h2]
  | cons a l ih =>
      simp only [insert_ascending]
      by_cases hya : y ≤ a <;> by_cases hxa : x ≤ a <;>
        simp only [if_pos, if_neg, hya, hxa, insert_ascending, ite_true,
          ite_false, if_true, if_false]
      · by_cases hxy : x ≤ y <;> by_cases hyx : y ≤ x <;>
          simp only [insert_ascending, hxy, hyx, hxa, hya, ite_true, ite_false,
            if_true, if_false]
        · have hxy2 : x = y := le_antisymm hxy hyx
          subst hxy2
          rfl
        all_goals simp [hxy, hyx, hxa, hya]
        all_goals exact ⟨by omega, by omega⟩
      · have hxy : ¬ x ≤ y := by omega
        have hyx : y ≤ x := by omega
        simp [insert_ascending, hxy, hyx, hxa, hya]
      · have hxy : x ≤ y := by omega
        have hyx : ¬ y ≤ x := by omega
        simp [insert_ascending, hxy, hyx, hxa, hya]
      · rw [ih]

instance : LeftCommutative insert_ascending :=
  ⟨fun a b l => insert_ascending_comm a b l⟩

theorem mem_insert_ascending (z x : Int) :
    ∀ l : List Int, z ∈ insert_ascending x l ↔ z = x ∨ z ∈ l := by
  intro l
  induction l with
  | nil => simp [insert_ascending]
  | cons a l ih =>
      simp only [insert_ascending]
      by_cases h : x ≤ a
      · simp [h]
      · simp only [h, if_false, ite_false, List.mem_cons, ih]
        tauto

/-- The members of a `Finset Int` listed in ascending order (the enumeration
order of a `std::set<int>`). -/
def finset_asc (s : Finset Int) : List Int :=
  Multiset.foldr insert_ascending [] s.val

theorem mem_finset_asc (z : Int) (s : Finset Int) :
    z ∈ finset_asc s ↔ z ∈ s := by
  rw [Finset.mem_def]
  unfold finset_asc
  induction s.val using Multiset.induction_on with
  | empty => simp [Multiset.foldr_zero]
  | cons a m ih =>
      rw [Multiset.foldr_cons, mem_insert_ascending, ih, Multiset.mem_cons]

/-- Embedding of `get_epsilon_closure`: the queue starts with the members of
the set (`std::set` iterates in ascending order). -/
def get_epsilon_closure (fa : finite_automaton) (fuel : Nat) (ss : Finset Int) :
    Option (Finset Int) :=
  get_epsilon_closure_loop fa fuel (finset_asc ss) ss

/-- One round of the mathematical epsilon-expansion: add every non-`-1`
epsilon successor of a member. -/
def eps_expand (fa : finite_automaton) (S : Finset Int) : Finset Int :=
  S ∪ ((S.image (fun s => stepI fa s (get_epsilon0 fa)) ∪
        S.image (fun s => stepI fa s (get_epsilon1 fa))).filter (· ≠ -1))

/-- All values appearing in the two epsilon columns of the table. -/
def eps_targets (fa : finite_automaton) : Finset Int :=
  ((List.range (get_nstates fa)).map
    (fun s => step fa s (get_epsilon0 fa))).toFinset ∪
  ((List.range (get_nstates fa)).map
    (fun s => step fa s (get_epsilon1 fa))).toFinset

/-- The epsilon closure, specified as the smallest superset closed under
epsilon steps; computed by iterating `eps_expand` to its fixed point. -/
def eps_closure_spec (fa : finite_automaton) (S : Finset Int) : Finset Int :=
  (eps_expand fa)^[(eps_targets fa).card + 1] S

/-- Embedding of the `min_accepted` computation at the end of each
`make_deterministic` loop iteration: the minimum accepted token over the
member states, ignoring `-1`; `-1` when no member accepts. -/
def min_accepted_token (nfa : finite_automaton) (ss : Finset Int) : Int :=
  let toks := (ss.image (fun state => acceptsI nfa state)).filter (· ≠ -1)
  if h : toks.Nonempty then toks.min' h else -1

/-- Embedding of the body of the symbol loop in `make_deterministic`: compute
the successor set, close it, intern it (allocating a fresh D-state on a miss)
and record the transition. -/
def md_symbol_step (nfa : finite_automaton) (cf : Nat) (state : Nat)
    (ss : Finset Int) (acc : List (Finset Int) × finite_automaton)
    (symbol : Nat) : Option (List (Finset Int) × finite_automaton) :=
  let next_ss := step_set ss symbol nfa
  if next_ss = ∅ then some acc
  else match get_epsilon_closure nfa cf next_ss with
  | none => none
  | some next_closed =>
      match acc.1.findIdx? (fun t => t == next_closed) with
      | some idx => some (acc.1, add_transition acc.2 state symbol (idx : Int))
      | none =>
          let next_state := get_nstates acc.2
          some (acc.1 ++ [next_closed],
            add_transition (add_state acc.2) state symbol (next_state : Int))

/-- The symbol loop of one `make_deterministic` iteration. -/
def md_symbols (nfa : finite_automaton) (cf state : Nat) (ss : Finset Int)
    (acc : List (Finset Int) × finite_automaton) :
    Option (List (Finset Int) × finite_automaton) :=
  (List.range (get_nsymbols nfa)).foldlM (md_symbol_step nfa cf state ss) acc

/-- Embedding of the main worklist loop of `make_deterministic`, with
explicit fuel: process the pending interned state sets in order. -/
def md_loop (nfa : finite_automaton) (cf : Nat) :
    Nat → List (Finset Int) → finite_automaton → Nat →
    Option (finite_automaton × List (Finset Int))
  | 0, ssupv, out, front =>
      if front < ssupv.length then none else some (out, ssupv)
  | fuel + 1, ssupv, out, front =>
      if h : front < ssupv.length then
        let ss := ssupv.get ⟨front, h⟩
        match md_symbols nfa cf front ss (ssupv, out) with
        | none => none
        | some acc2 =>
            let min_acc := min_accepted_token nfa ss
            let out3 := if min_acc ≠ -1
              then add_accept acc2.2 front min_acc else acc2.2
            md_loop nfa cf fuel acc2.1 out3 (front + 1)
      else some (out, ssupv)

/-- Embedding of `finite_automaton::make_deterministic` (also returning the
interned state sets, a local variable of the C++ function, for use in the
correctness statements).  A deterministic input is returned unchanged. -/
def make_deterministic_aux (nfa : finite_automaton) (cf fuel : Nat) :
    Option (finite_automaton × List (Finset Int)) :=
  if get_determinism nfa then some (nfa, [])
  else
    match get_epsilon_closure nfa cf ({0} : Finset Int) with
    | none => none
    | some start_ss =>
        md_loop nfa cf fuel [start_ss] (add_state (mk_fa (get_nsymbols nfa) true)) 0

/-- Embedding of `finite_automaton::make_deterministic` proper. -/
def make_deterministic (nfa : finite_automaton) (cf fuel : Nat) :
    Option finite_automaton :=
  (make_deterministic_aux nfa cf fuel).map Prod.fst

/-- Claim C10: on an automaton whose `is_deterministic` flag is set,
`make_deterministic` returns its argument unchanged, so applying it twice
gives the same result as applying it once. -/
theorem claim_C10_make_deterministic_identity_on_dfas
    (fa : finite_automaton) (cf fuel cf2 fuel2 : Nat)
    (h : get_determinism fa = true) :
    make_deterministic fa cf fuel = some fa ∧
    make_deterministic fa cf2 fuel2 = some fa := by
  constructor <;>
    simp [make_deterministic, make_deterministic_aux, h]

/-- Concrete witness for claim C10: a two-state DFA. -/
theorem claim_C10_witness :
    get_determinism (make_single_nfa 2 0 5) = true ∧
    make_deterministic (make_single_nfa 2 0 5) 3 3 = some (make_single_nfa 2 0 5) ∧
    make_deterministic (make_single_nfa 2 0 5) 7 7 = some (make_single_nfa 2 0 5) :=
  ⟨by decide,
   (claim_C10_make_deterministic_identity_on_dfas
      (make_single_nfa 2 0 5) 3 3 7 7 (by decide)).1,
   (claim_C10_make_deterministic_identity_on_dfas
      (make_single_nfa 2 0 5) 3 3 7 7 (by decide)).2⟩

/-! ### The epsilon closure: fixed-point theory -/

theorem step_out_of_range (fa : finite_automaton) (s σ : Nat)
    (h : get_nstates fa ≤ s) : step fa s σ = -1 := by
  have h0 : fa.table.getD s [] = [] := by
    rw [List.getD_eq_getElem?_getD, List.getElem?_eq_none h]
    rfl
  unfold step
  rw [h0]
  exact getD_nil σ (-1)

theorem accepts_out_of_range (fa : finite_automaton) (s : Nat) (hwf : wf fa)
    (h : get_nstates fa ≤ s) : accepts fa s = -1 := by
  unfold accepts
  rw [List.getD_eq_getElem?_getD, List.getElem?_eq_none (by rw [hwf.2]; exact h)]
  rfl

theorem eps_expand_extensive (fa : finite_automaton) (S : Finset Int) :
    S ⊆ eps_expand fa S :=
  Finset.subset_union_left

theorem eps_expand_mono (fa : finite_automaton) {S T : Finset Int}
    (h : S ⊆ T) : eps_expand fa S ⊆ eps_expand fa T := by
  unfold eps_expand
  apply Finset.union_subset_union h
  apply Finset.filter_subset_filter
  exact Finset.union_subset_union (Finset.image_subset_image h)
    (Finset.image_subset_image h)

theorem mem_eps_expand_of_step (fa : finite_automaton) (S : Finset Int)
    (x : Int) (c : Nat) (hx : x ∈ S)
    (hc : c = get_epsilon0 fa ∨ c = get_epsilon1 fa)
    (hne : stepI fa x c ≠ -1) : stepI fa x c ∈ eps_expand fa S := by
  unfold eps_expand
  apply Finset.mem_union_right
  rw [Finset.mem_filter]
  refine ⟨Finset.mem_union.mpr ?_, hne⟩
  rcases hc with hc | hc
  · exact Or.inl (by rw [← hc]; exact Finset.mem_image_of_mem _ hx)
  · exact Or.inr (by rw [← hc]; exact Finset.mem_image_of_mem _ hx)

theorem eps_expand_subset_union (fa : finite_automaton) (S : Finset Int) :
    eps_expand fa S ⊆ S ∪ eps_targets fa := by
  unfold eps_expand
  apply Finset.union_subset Finset.subset_union_left
  intro x hx
  rw [Finset.mem_filter, Finset.mem_union] at hx
  obtain ⟨hmem, hne⟩ := hx
  apply Finset.mem_union_right
  have key : ∀ c : Nat, ∀ s ∈ S, stepI fa s c = x →
      (c = get_epsilon0 fa ∨ c = get_epsilon1 fa) → x ∈ eps_targets fa := by
    intro c s _ hs hcc
    by_cases hneg : s < 0
    · exfalso; apply hne; rw [← hs]; simp [stepI, hneg]
    · by_cases hrange : s.toNat < get_nstates fa
      · unfold eps_targets
        rw [Finset.mem_union]
        rcases hcc with hcc | hcc
        · left
          rw [List.mem_toFinset, List.mem_map]
          exact ⟨s.toNat, List.mem_range.mpr hrange, by
            rw [← hcc, ← hs]; simp [stepI, hneg]⟩
        · right
          rw [List.mem_toFinset, List.mem_map]
          exact ⟨s.toNat, List.mem_range.mpr hrange, by
            rw [← hcc, ← hs]; simp [stepI, hneg]⟩
      · exfalso
        apply hne
        rw [← hs]
        simp only [stepI, if_neg hneg]
        exact step_out_of_range fa s.toNat c (Nat.le_of_not_lt hrange)
  rcases hmem with hmem | hmem <;>
    · rw [Finset.mem_image] at hmem
      obtain ⟨s, hsS, hs⟩ := hmem
      first
        | exact key _ s hsS hs (Or.inl rfl)
        | exact key _ s hsS hs (Or.inr rfl)

theorem iterate_eps_expand_subset_union (fa : finite_automaton)
    (S : Finset Int) (k : Nat) :
    (eps_expand fa)^[k] S ⊆ S ∪ eps_targets fa := by
  induction k with
  | zero => simp
  | succ k ih =>
      rw [Function.iterate_succ_apply']
      calc eps_expand fa ((eps_expand fa)^[k] S)
          ⊆ (eps_expand fa)^[k] S ∪ eps_targets fa :=
            eps_expand_subset_union fa _
        _ ⊆ (S ∪ eps_targets fa) ∪ eps_targets fa :=
            Finset.union_subset_union_left ih
        _ = S ∪ eps_targets fa := by rw [Finset.union_assoc, Finset.union_self]

theorem iterate_eps_expand_extensive (fa : finite_automaton)
    (S : Finset Int) (k : Nat) : S ⊆ (eps_expand fa)^[k] S := by
  induction k with
  | zero => simp
  | succ k ih =>
      rw [Function.iterate_succ_apply']
      exact ih.trans (eps_expand_extensive fa _)

theorem iterate_eps_expand_card (fa : finite_automaton) (S : Finset Int)
    (k : Nat)
    (h : ∀ j < k, (eps_expand fa)^[j + 1] S ≠ (eps_expand fa)^[j] S) :
    S.card + k ≤ ((eps_expand fa)^[k] S).card := by
  induction k with
  | zero => simp
  | succ k ih =>
      have hk := ih (fun j hj => h j (Nat.lt_succ_of_lt hj))
      have hne := h k (Nat.lt_succ_self k)
      have hsub : (eps_expand fa)^[k] S ⊂ (eps_expand fa)^[k + 1] S := by
        rw [Function.iterate_succ_apply']
        refine Finset.ssubset_iff_subset_ne.mpr
          ⟨eps_expand_extensive fa _, ?_⟩
        intro hcon
        apply hne
        rw [Function.iterate_succ_apply']
        exact hcon.symm
      have := Finset.card_lt_card hsub
      omega

theorem eps_closure_spec_fixed (fa : finite_automaton) (S : Finset Int) :
    eps_expand fa (eps_closure_spec fa S) = eps_closure_spec fa S := by
  unfold eps_closure_spec
  by_cases hex : ∃ k < (eps_targets fa).card + 1,
      (eps_expand fa)^[k + 1] S = (eps_expand fa)^[k] S
  · obtain ⟨k, hk, heq⟩ := hex
    rw [Function.iterate_succ_apply'] at heq
    have hfix : ∀ m, k ≤ m → (eps_expand fa)^[m] S = (eps_expand fa)^[k] S := by
      intro m hm
      rw [← Nat.sub_add_cancel hm, Function.iterate_add_apply]
      exact Function.iterate_fixed heq _
    rw [hfix _ (Nat.le_of_lt hk), heq]
  · exfalso
    push_neg at hex
    have h1 := iterate_eps_expand_card fa S ((eps_targets fa).card + 1) hex
    have h2 : (((eps_expand fa)^[(eps_targets fa).card + 1]) S).card ≤
        (S ∪ eps_targets fa).card :=
      Finset.card_le_card (iterate_eps_expand_subset_union fa S _)
    have h3 := Finset.card_union_le S (eps_targets fa)
    omega

theorem subset_eps_closure_spec (fa : finite_automaton) (S : Finset Int) :
    S ⊆ eps_closure_spec fa S :=
  iterate_eps_expand_extensive fa S _

theorem eps_closure_spec_minimal (fa : finite_automaton) (S T : Finset Int)
    (hST : S ⊆ T) (hT : eps_expand fa T ⊆ T) :
    eps_closure_spec fa S ⊆ T := by
  unfold eps_closure_spec
  generalize (eps_targets fa).card + 1 = k
  induction k with
  | zero => simpa using hST
  | succ k ih =>
      rw [Function.iterate_succ_apply']
      exact (eps_expand_mono fa ih).trans hT

theorem eps_closure_spec_of_closed (fa : finite_automaton) (S : Finset Int)
    (hS : eps_expand fa S ⊆ S) : eps_closure_spec fa S = S :=
  Finset.Subset.antisymm
    (eps_closure_spec_minimal fa S S Finset.Subset.rfl hS)
    (subset_eps_closure_spec fa S)

theorem eps_closure_spec_mono (fa : finite_automaton) {S T : Finset Int}
    (h : S ⊆ T) : eps_closure_spec fa S ⊆ eps_closure_spec fa T :=
  eps_closure_spec_minimal fa S (eps_closure_spec fa T)
    (h.trans (subset_eps_closure_spec fa T))
    (le_of_eq (eps_closure_spec_fixed fa T))

theorem eps_closure_spec_congr (fa : finite_automaton) (S T : Finset Int)
    (hST : S ⊆ T) (hTc : T ⊆ eps_closure_spec fa S) :
    eps_closure_spec fa T = eps_closure_spec fa S := by
  apply Finset.Subset.antisymm
  · exact eps_closure_spec_minimal fa T (eps_closure_spec fa S) hTc
      (le_of_eq (eps_closure_spec_fixed fa S))
  · exact eps_closure_spec_mono fa hST

theorem stepI_mem_closure (fa : finite_automaton) (S0 : Finset Int)
    (x : Int) (c : Nat) (hx : x ∈ eps_closure_spec fa S0)
    (hc : c = get_epsilon0 fa ∨ c = get_epsilon1 fa)
    (hne : stepI fa x c ≠ -1) : stepI fa x c ∈ eps_closure_spec fa S0 := by
  have h := mem_eps_expand_of_step fa (eps_closure_spec fa S0) x c hx hc hne
  rwa [eps_closure_spec_fixed] at h

/-- Invariant of the worklist loop inside `get_epsilon_closure`: every queued
state is a member, every settled member has its epsilon successors inside the
set, and the set sits between the seed and its closure. -/
def closure_loop_inv (fa : finite_automaton) (S0 : Finset Int)
    (q : List Int) (ss : Finset Int) : Prop :=
  (∀ x ∈ q, x ∈ ss) ∧
  (∀ x ∈ ss, x ∉ q →
    (stepI fa x (get_epsilon0 fa) = -1 ∨ stepI fa x (get_epsilon0 fa) ∈ ss) ∧
    (stepI fa x (get_epsilon1 fa) = -1 ∨ stepI fa x (get_epsilon1 fa) ∈ ss)) ∧
  S0 ⊆ ss ∧ ss ⊆ eps_closure_spec fa S0

theorem closure_inv_done (fa : finite_automaton) (S0 ss : Finset Int)
    (hinv : closure_loop_inv fa S0 [] ss) : ss = eps_closure_spec fa S0 := by
  have hclosed : eps_expand fa ss ⊆ ss := by
    unfold eps_expand
    apply Finset.union_subset Finset.Subset.rfl
    intro x hx
    rw [Finset.mem_filter, Finset.mem_union] at hx
    obtain ⟨hmem, hne⟩ := hx
    rcases hmem with hmem | hmem
    · rw [Finset.mem_image] at hmem
      obtain ⟨s, hsS, hs⟩ := hmem
      subst hs
      rcases (hinv.2.1 s hsS (List.not_mem_nil s)).1 with h | h
      · exact absurd h hne
      · exact h
    · rw [Finset.mem_image] at hmem
      obtain ⟨s, hsS, hs⟩ := hmem
      subst hs
      rcases (hinv.2.1 s hsS (List.not_mem_nil s)).2 with h | h
      · exact absurd h hne
      · exact h
  rw [← eps_closure_spec_of_closed fa ss hclosed,
    eps_closure_spec_congr fa S0 ss hinv.2.2.1 hinv.2.2.2]

theorem closure_inv_step (fa : finite_automaton) (S0 : Finset Int)
    (state : Int) (rest : List Int) (ss ss2 : Finset Int) (q2 : List Int)
    (hinv : closure_loop_inv fa S0 (state :: rest) ss)
    (hsub : ss ⊆ ss2)
    (hq2 : ∀ x ∈ q2, x ∈ ss2)
    (hrest : ∀ x ∈ rest, x ∈ q2)
    (hnew : ∀ x ∈ ss2, x ∉ ss → x ∈ q2)
    (hnewc : ∀ x ∈ ss2, x ∉ ss → x ∈ eps_closure_spec fa S0)
    (h0 : stepI fa state (get_epsilon0 fa) = -1 ∨
      stepI fa state (get_epsilon0 fa) ∈ ss2)
    (h1 : stepI fa state (get_epsilon1 fa) = -1 ∨
      stepI fa state (get_epsilon1 fa) ∈ ss2) :
    closure_loop_inv fa S0 q2 ss2 := by
  obtain ⟨hq, hcl, hS0, hup⟩ := hinv
  refine ⟨hq2, ?_, hS0.trans hsub, ?_⟩
  · intro x hx hxq
    have hxss : x ∈ ss := by
      by_contra hcon
      exact hxq (hnew x hx hcon)
    by_cases hxs : x = state
    · subst hxs
      exact ⟨h0, h1⟩
    · have hxq0 : x ∉ state :: rest := by
        intro hcon
        rcases List.mem_cons.mp hcon with hcon | hcon
        · exact hxs hcon
        · exact hxq (hrest x hcon)
      obtain ⟨g0, g1⟩ := hcl x hxss hxq0
      constructor
      · rcases g0 with g0 | g0
        · exact Or.inl g0
        · exact Or.inr (hsub g0)
      · rcases g1 with g1 | g1
        · exact Or.inl g1
        · exact Or.inr (hsub g1)
  · intro x hx
    by_cases hxss : x ∈ ss
    · exact hup hxss
    · exact hnewc x hx hxss

theorem closure_loop_correct (fa : finite_automaton) (S0 : Finset Int) :
    ∀ (fuel : Nat) (q : List Int) (ss R : Finset Int),
    get_epsilon_closure_loop fa fuel q ss = some R →
    closure_loop_inv fa S0 q ss →
    R = eps_closure_spec fa S0 := by
  intro fuel
  induction fuel with
  | zero =>
      intro q ss R h hinv
      cases q with
      | nil =>
          simp only [get_epsilon_closure_loop, Option.some.injEq] at h
          subst h
          exact closure_inv_done fa S0 _ hinv
      | cons state rest =>
          simp only [get_epsilon_closure_loop] at h
          exact Option.noConfusion h
  | succ fuel ih =>
      intro q ss R h hinv
      cases q with
      | nil =>
          simp only [get_epsilon_closure_loop, Option.some.injEq] at h
          subst h
          exact closure_inv_done fa S0 _ hinv
      | cons state rest =>
          have hstate : state ∈ ss := hinv.1 state (List.mem_cons_self state rest)
          have hstatec : state ∈ eps_closure_spec fa S0 := hinv.2.2.2 hstate
          simp only [get_epsilon_closure_loop] at h
          by_cases hc0 : stepI fa state (get_epsilon0 fa) ≠ -1 ∧
              stepI fa state (get_epsilon0 fa) ∉ ss
          · rw [if_pos hc0] at h
            simp only [] at h
            by_cases hc1 : stepI fa state (get_epsilon1 fa) ≠ -1 ∧
                stepI fa state (get_epsilon1 fa) ∉
                  insert (stepI fa state (get_epsilon0 fa)) ss
            · rw [if_pos hc1] at h
              apply ih _ _ _ h
              apply closure_inv_step fa S0 state rest ss _ _ hinv
              · exact (Finset.subset_insert _ _).trans (Finset.subset_insert _ _)
              · intro x hx
                rcases List.mem_append.mp hx with hx | hx
                · rcases List.mem_append.mp hx with hx | hx
                  · exact Finset.mem_insert_of_mem
                      (Finset.mem_insert_of_mem (hinv.1 x (List.mem_cons_of_mem _ hx)))
                  · rw [List.mem_singleton] at hx
                    subst hx
                    exact Finset.mem_insert_of_mem (Finset.mem_insert_self _ _)
                · rw [List.mem_singleton] at hx
                  subst hx
                  exact Finset.mem_insert_self _ _
              · intro x hx
                exact List.mem_append_left _ (List.mem_append_left _ hx)
              · intro x hx hxss
                rcases Finset.mem_insert.mp hx with hx | hx
                · subst hx
                  exact List.mem_append_right _ (List.mem_singleton_self _)
                · rcases Finset.mem_insert.mp hx with hx | hx
                  · subst hx
                    exact List.mem_append_left _
                      (List.mem_append_right _ (List.mem_singleton_self _))
                  · exact absurd hx hxss
              · intro x hx hxss
                rcases Finset.mem_insert.mp hx with hx | hx
                · subst hx
                  exact stepI_mem_closure fa S0 state _ hstatec (Or.inr rfl) hc1.1
                · rcases Finset.mem_insert.mp hx with hx | hx
                  · subst hx
                    exact stepI_mem_closure fa S0 state _ hstatec (Or.inl rfl) hc0.1
                  · exact absurd hx hxss
              · exact Or.inr (Finset.mem_insert_of_mem (Finset.mem_insert_self _ _))
              · exact Or.inr (Finset.mem_insert_self _ _)
            · rw [if_neg hc1] at h
              apply ih _ _ _ h
              apply closure_inv_step fa S0 state rest ss _ _ hinv
              · exact Finset.subset_insert _ _
              · intro x hx
                rcases List.mem_append.mp hx with hx | hx
                · exact Finset.mem_insert_of_mem (hinv.1 x (List.mem_cons_of_mem _ hx))
                · rw [List.mem_singleton] at hx
                  subst hx
                  exact Finset.mem_insert_self _ _
              · intro x hx
                exact List.mem_append_left _ hx
              · intro x hx hxss
                rcases Finset.mem_insert.mp hx with hx | hx
                · subst hx
                  exact List.mem_append_right _ (List.mem_singleton_self _)
                · exact absurd hx hxss
              · intro x hx hxss
                rcases Finset.mem_insert.mp hx with hx | hx
                · subst hx
                  exact stepI_mem_closure fa S0 state _ hstatec (Or.inl rfl) hc0.1
                · exact absurd hx hxss
              · exact Or.inr (Finset.mem_insert_self _ _)
              · by_cases hne : stepI fa state (get_epsilon1 fa) = -1
                · exact Or.inl hne
                · push_neg at hc1
                  exact Or.inr (hc1 hne)
          · rw [if_neg hc0] at h
            simp only [] at h
            have hn0 : stepI fa state (get_epsilon0 fa) = -1 ∨
                stepI fa state (get_epsilon0 fa) ∈ ss := by
              by_cases hne : stepI fa state (get_epsilon0 fa) = -1
              · exact Or.inl hne
              · push_neg at hc0
                exact Or.inr (hc0 hne)
            by_cases hc1 : stepI fa state (get_epsilon1 fa) ≠ -1 ∧
                stepI fa state (get_epsilon1 fa) ∉ ss
            · rw [if_pos hc1] at h
              apply ih _ _ _ h
              apply closure_inv_step fa S0 state rest ss _ _ hinv
              · exact Finset.subset_insert _ _
              · intro x hx
                rcases List.mem_append.mp hx with hx | hx
                · exact Finset.mem_insert_of_mem (hinv.1 x (List.mem_cons_of_mem _ hx))
                · rw [List.mem_singleton] at hx
                  subst hx
                  exact Finset.mem_insert_self _ _
              · intro x hx
                exact List.mem_append_left _ hx
              · intro x hx hxss
                rcases Finset.mem_insert.mp hx with hx | hx
                · subst hx
                  exact List.mem_append_right _ (List.mem_singleton_self _)
                · exact absurd hx hxss
              · intro x hx hxss
                rcases Finset.mem_insert.mp hx with hx | hx
                · subst hx
                  exact stepI_mem_closure fa S0 state _ hstatec (Or.inr rfl) hc1.1
                · exact absurd hx hxss
              · rcases hn0 with hn0 | hn0
                · exact Or.inl hn0
                · exact Or.inr (Finset.mem_insert_of_mem hn0)
              · exact Or.inr (Finset.mem_insert_self _ _)
            · rw [if_neg hc1] at h
              apply ih _ _ _ h
              apply closure_inv_step fa S0 state rest ss _ _ hinv
              · exact Finset.Subset.rfl
              · exact fun x hx => hinv.1 x (List.mem_cons_of_mem _ hx)
              · exact fun x hx => hx
              · exact fun x hx hxss => absurd hx hxss
              · exact fun x hx hxss => absurd hx hxss
              · exact hn0
              · by_cases hne : stepI fa state (get_epsilon1 fa) = -1
                · exact Or.inl hne
                · push_neg at hc1
                  exact Or.inr (hc1 hne)

theorem get_epsilon_closure_correct (fa : finite_automaton) (fuel : Nat)
    (S R : Finset Int) (h : get_epsilon_closure fa fuel S = some R) :
    R = eps_closure_spec fa S := by
  apply closure_loop_correct fa S fuel (finset_asc S) S R h
  refine ⟨?_, ?_, Finset.Subset.rfl, subset_eps_closure_spec fa S⟩
  · intro x hx
    exact (mem_finset_asc x S).mp hx
  · intro x hx hxq
    exact absurd ((mem_finset_asc x S).mpr hx) hxq

theorem findIdx_some_spec {α : Type _} (pr : α → Bool) (d : α) :
    ∀ (l : List α) (base i : Nat), List.findIdx? pr l base = some i →
      base ≤ i ∧ i - base < l.length ∧ pr (l.getD (i - base) d) = true := by
  intro l
  induction l with
  | nil =>
      intro base i h
      simp [List.findIdx?_nil] at h
  | cons x xs ih =>
      intro base i h
      rw [List.findIdx?_cons] at h
      by_cases hx : pr x = true
      · rw [if_pos hx, Option.some.injEq] at h
        subst h
        refine ⟨Nat.le_refl _, by simp, ?_⟩
        simpa using hx
      · rw [if_neg hx] at h
        obtain ⟨h1, h2, h3⟩ := ih (base + 1) i h
        refine ⟨by omega, by simp only [List.length_cons]; omega, ?_⟩
        have he : i - base = (i - (base + 1)) + 1 := by omega
        rw [he, List.getD_cons_succ]
        exact h3

theorem findIdx_some_spec0 {α : Type _} (pr : α → Bool) (d : α) (l : List α)
    (i : Nat) (h : l.findIdx? pr = some i) :
    i < l.length ∧ pr (l.getD i d) = true := by
  obtain ⟨_, h2, h3⟩ := findIdx_some_spec pr d l 0 i h
  rw [Nat.sub_zero] at h2 h3
  exact ⟨h2, h3⟩

/-- One transition cell of the subset construction is correct: the cell of
D-state `i` on `σ`, whose member N-state set is `S`, holds `-1` when the
successor set is empty and otherwise holds the index of the interned
epsilon-closed successor set. -/
def md_cell_ok (nfa : finite_automaton) (ssupv : List (Finset Int))
    (out : finite_automaton) (S : Finset Int) (i σ : Nat) : Prop :=
  if step_set S σ nfa = ∅ then step out i σ = -1
  else ∃ j : Nat, j < ssupv.length ∧ step out i σ = (j : Int) ∧
    ssupv.getD j ∅ = eps_closure_spec nfa (step_set S σ nfa)

/-- Loop invariant of `make_deterministic`'s worklist loop, parameterised by
the number `front` of fully processed D-states and the number `m` of symbols
handled for the current front state.  `ssupv0` is a reference prefix of the
interned set list (the list only grows). -/
structure md_inv (nfa : finite_automaton) (ssupv0 : List (Finset Int))
    (front m : Nat) (p : List (Finset Int) × finite_automaton) : Prop where
  len_eq : get_nstates p.2 = p.1.length
  hwf : wf p.2
  nsym : p.2.nsymbols = get_nsymbols nfa
  det : p.2.is_deterministic = true
  closed : ∀ S ∈ p.1, eps_expand nfa S = S
  ext_len : ssupv0.length ≤ p.1.length
  ext_get : ∀ i, i < ssupv0.length → p.1.getD i ∅ = ssupv0.getD i ∅
  front_le : front ≤ p.1.length
  done_cells : ∀ i σ, i < front → σ < get_nsymbols nfa →
      md_cell_ok nfa p.1 p.2 (p.1.getD i ∅) i σ
  done_accept : ∀ i, i < front →
      accepts p.2 i = min_accepted_token nfa (p.1.getD i ∅)
  cur_cells : ∀ σ, σ < m → σ < get_nsymbols nfa →
      md_cell_ok nfa p.1 p.2 (p.1.getD front ∅) front σ
  cur_rest : ∀ σ, m ≤ σ → step p.2 front σ = -1
  todo_rows : ∀ i σ, front < i → step p.2 i σ = -1
  todo_accepts : ∀ i, front ≤ i → accepts p.2 i = -1

theorem md_cell_ok_mono (nfa : finite_automaton)
    (ssupv ssupv2 : List (Finset Int)) (out out2 : finite_automaton)
    (S : Finset Int) (i σ : Nat)
    (hlen : ssupv.length ≤ ssupv2.length)
    (hget : ∀ j, j < ssupv.length → ssupv2.getD j ∅ = ssupv.getD j ∅)
    (hstep : step out2 i σ = step out i σ)
    (h : md_cell_ok nfa ssupv out S i σ) :
    md_cell_ok nfa ssupv2 out2 S i σ := by
  unfold md_cell_ok at h ⊢
  by_cases he : step_set S σ nfa = ∅
  · rw [if_pos he] at h ⊢
    rw [hstep]
    exact h
  · rw [if_neg he] at h ⊢
    obtain ⟨j, hj, h1, h2⟩ := h
    exact ⟨j, Nat.lt_of_lt_of_le hj hlen,
      by rw [hstep]; exact h1, by rw [hget j hj]; exact h2⟩

theorem md_symbol_step_inv (nfa : finite_automaton) (cf front m : Nat)
    (ssupv0 : List (Finset Int)) (S : Finset Int)
    (p p2 : List (Finset Int) × finite_automaton)
    (hfront : front < ssupv0.length)
    (hS : p.1.getD front ∅ = S)
    (hm : m < get_nsymbols nfa)
    (hstep : md_symbol_step nfa cf front S p m = some p2)
    (hinv : md_inv nfa ssupv0 front m p) :
    md_inv nfa ssupv0 front (m + 1) p2 := by
  have hfp : front < p.1.length := Nat.lt_of_lt_of_le hfront hinv.ext_len
  have hncols : get_ncols p.2 = get_nsymbols nfa := by
    unfold get_ncols
    rw [hinv.nsym, hinv.det]
    simp
  simp only [md_symbol_step] at hstep
  split at hstep
  · -- empty successor set: nothing written
    rename_i hempty
    rw [Option.some.injEq] at hstep
    subst hstep
    refine ⟨hinv.len_eq, hinv.hwf, hinv.nsym, hinv.det, hinv.closed,
      hinv.ext_len, hinv.ext_get, hinv.front_le, hinv.done_cells,
      hinv.done_accept, ?_, fun σ hσ => hinv.cur_rest σ (by omega),
      hinv.todo_rows, hinv.todo_accepts⟩
    intro σ hσ hσ2
    by_cases hσm : σ = m
    · subst hσm
      unfold md_cell_ok
      rw [hS, if_pos hempty]
      exact hinv.cur_rest σ (Nat.le_refl σ)
    · exact hinv.cur_cells σ (by omega) hσ2
  · rename_i hempty
    split at hstep
    · exact Option.noConfusion hstep
    · rename_i next_closed hcl
      have hnc : next_closed = eps_closure_spec nfa (step_set S m nfa) :=
        get_epsilon_closure_correct nfa cf _ _ hcl
      split at hstep
      · -- the closed successor set is already interned at index idx
        rename_i idx hidx
        rw [Option.some.injEq] at hstep
        subst hstep
        obtain ⟨hidxlt, hidxval⟩ := findIdx_some_spec0 _ ∅ _ _ hidx
        have hidxeq : p.1.getD idx ∅ = next_closed := by
          simpa using hidxval
        have hstep2 : ∀ s σ, step (add_transition p.2 front m (idx : Int)) s σ =
            if front = s ∧ m = σ then (idx : Int) else step p.2 s σ := by
          intro s σ
          rw [step_add_transition p.2 front m _ hinv.hwf s σ]
          by_cases hc : front = s ∧ m = σ
          · rw [if_pos ⟨hc.1, hc.2, by rw [← hc.1, hinv.len_eq]; exact hfp,
              by rw [← hc.2, hncols]; exact hm⟩, if_pos hc]
          · rw [if_neg (fun hcon => hc ⟨hcon.1, hcon.2.1⟩), if_neg hc]
        refine ⟨by rw [nstates_add_transition]; exact hinv.len_eq,
          wf_add_transition _ _ _ _ hinv.hwf,
          by rw [(fields_add_transition p.2 front m _).1]; exact hinv.nsym,
          by rw [(fields_add_transition p.2 front m _).2.1]; exact hinv.det,
          hinv.closed, hinv.ext_len, hinv.ext_get, hinv.front_le,
          ?_, ?_, ?_, ?_, ?_, ?_⟩
        · intro i σ hi hσ
          apply md_cell_ok_mono nfa p.1 p.1 p.2 _ _ i σ (Nat.le_refl _)
            (fun j hj => rfl) ?_ (hinv.done_cells i σ hi hσ)
          rw [hstep2]
          exact if_neg (fun hcon => by omega)
        · intro i hi
          rw [accepts_add_transition]
          exact hinv.done_accept i hi
        · intro σ hσ hσ2
          by_cases hσm : σ = m
          · subst hσm
            unfold md_cell_ok
            rw [hS, if_neg hempty]
            refine ⟨idx, hidxlt, ?_, by rw [hidxeq, hnc]⟩
            rw [hstep2]
            exact if_pos ⟨rfl, rfl⟩
          · apply md_cell_ok_mono nfa p.1 p.1 p.2 _ _ front σ (Nat.le_refl _)
              (fun j hj => rfl) ?_ (hinv.cur_cells σ (by omega) hσ2)
            rw [hstep2]
            exact if_neg (fun hcon => hσm hcon.2.symm)
        · intro σ hσ
          rw [hstep2, if_neg (fun hcon => by omega)]
          exact hinv.cur_rest σ (by omega)
        · intro i σ hi
          rw [hstep2, if_neg (fun hcon => by omega)]
          exact hinv.todo_rows i σ hi
        · intro i hi
          rw [accepts_add_transition]
          exact hinv.todo_accepts i hi
      · -- the closed successor set is new: a fresh D-state is allocated
        rename_i hnone
        rw [Option.some.injEq] at hstep
        subst hstep
        have hwf2 : wf (add_state p.2) := wf_add_state _ hinv.hwf
        have hncols2 : get_ncols (add_state p.2) = get_ncols p.2 := rfl
        have hstep2 : ∀ s σ,
            step (add_transition (add_state p.2) front m
              ((get_nstates p.2 : Nat) : Int)) s σ =
            if front = s ∧ m = σ then ((get_nstates p.2 : Nat) : Int)
            else step p.2 s σ := by
          intro s σ
          rw [step_add_transition (add_state p.2) front m _ hwf2 s σ,
            step_add_state]
          by_cases hc : front = s ∧ m = σ
          · rw [if_pos ⟨hc.1, hc.2, by
              rw [← hc.1, nstates_add_state, hinv.len_eq]; omega,
              by rw [← hc.2, hncols2, hncols]; exact hm⟩, if_pos hc]
          · rw [if_neg (fun hcon => hc ⟨hcon.1, hcon.2.1⟩), if_neg hc]
        have hlen2 : (p.1 ++ [next_closed]).length = p.1.length + 1 := by
          simp
        have hget2 : ∀ j, j < p.1.length →
            (p.1 ++ [next_closed]).getD j ∅ = p.1.getD j ∅ := by
          intro j hj
          rw [getD_append, if_pos hj]
        refine ⟨?_, wf_add_transition _ _ _ _ hwf2,
          by rw [(fields_add_transition _ front m _).1,
            (fields_add_state p.2).1]; exact hinv.nsym,
          by rw [(fields_add_transition _ front m _).2.1,
            (fields_add_state p.2).2]; exact hinv.det,
          ?_, ?_, ?_, ?_, ?_, ?_, ?_, ?_, ?_, ?_⟩
        · rw [nstates_add_transition, nstates_add_state, hlen2, hinv.len_eq]
        · intro T hT
          rcases List.mem_append.mp hT with hT | hT
          · exact hinv.closed T hT
          · rw [List.mem_singleton] at hT
            subst hT
            rw [hnc]
            exact eps_closure_spec_fixed nfa _
        · rw [hlen2]
          exact Nat.le_succ_of_le hinv.ext_len
        · intro i hi
          rw [hget2 i (Nat.lt_of_lt_of_le hi hinv.ext_len)]
          exact hinv.ext_get i hi
        · rw [hlen2]
          exact Nat.le_succ_of_le hinv.front_le
        · intro i σ hi hσ
          rw [hget2 i (Nat.lt_of_lt_of_le hi hinv.front_le)]
          apply md_cell_ok_mono nfa p.1 _ p.2 _ _ i σ (by rw [hlen2]; omega)
            hget2 ?_ (hinv.done_cells i σ hi hσ)
          rw [hstep2]
          exact if_neg (fun hcon => by omega)
        · intro i hi
          rw [accepts_add_transition, accepts_add_state,
            hget2 i (Nat.lt_of_lt_of_le hi hinv.front_le)]
          exact hinv.done_accept i hi
        · intro σ hσ hσ2
          rw [hget2 front hfp]
          by_cases hσm : σ = m
          · subst hσm
            unfold md_cell_ok
            rw [hS, if_neg hempty]
            refine ⟨p.1.length, by rw [hlen2]; omega, ?_, ?_⟩
            · rw [hstep2, if_pos ⟨rfl, rfl⟩, hinv.len_eq]
            · rw [getD_append, if_neg (Nat.lt_irrefl _)]
              simp only [Nat.sub_self]
              rw [hnc]
              rfl
          · apply md_cell_ok_mono nfa p.1 _ p.2 _ _ front σ
              (by rw [hlen2]; omega) hget2 ?_
              (hinv.cur_cells σ (by omega) hσ2)
            rw [hstep2]
            exact if_neg (fun hcon => hσm hcon.2.symm)
        · intro σ hσ
          rw [hstep2, if_neg (fun hcon => by omega)]
          exact hinv.cur_rest σ (by omega)
        · intro i σ hi
          rw [hstep2, if_neg (fun hcon => by omega)]
          exact hinv.todo_rows i σ hi
        · intro i hi
          rw [accepts_add_transition, accepts_add_state]
          exact hinv.todo_accepts i hi

theorem md_symbols_inv (nfa : finite_automaton) (cf front : Nat)
    (ssupv0 : List (Finset Int)) (S : Finset Int)
    (hfront : front < ssupv0.length)
    (hS0 : ssupv0.getD front ∅ = S) :
    ∀ (k : Nat) (p p2 : List (Finset Int) × finite_automaton),
    k ≤ get_nsymbols nfa →
    (List.range k).foldlM (md_symbol_step nfa cf front S) p = some p2 →
    md_inv nfa ssupv0 front 0 p →
    md_inv nfa ssupv0 front k p2 := by
  intro k
  induction k with
  | zero =>
      intro p p2 hk h hinv
      simp only [List.range_zero, List.foldlM_nil] at h
      have h2 : p = p2 := by simpa using h
      subst h2
      exact hinv
  | succ k ih =>
      intro p p2 hk h hinv
      rw [List.range_succ, List.foldlM_append] at h
      cases hq0 : (List.range k).foldlM (md_symbol_step nfa cf front S) p with
      | none =>
          rw [hq0] at h
          simp at h
      | some q =>
          rw [hq0] at h
          simp only [List.foldlM_cons, List.foldlM_nil] at h
          have h2 : md_symbol_step nfa cf front S q k = some p2 := by
            simpa using h
          have hinvq := ih p q (by omega) hq0 hinv
          have hSq : q.1.getD front ∅ = S := by
            rw [hinvq.ext_get front hfront, hS0]
          exact md_symbol_step_inv nfa cf front k ssupv0 S q p2 hfront hSq
            (by omega) h2 hinvq

theorem md_symbols_inv_full (nfa : finite_automaton) (cf front : Nat)
    (ssupv0 : List (Finset Int)) (S : Finset Int)
    (p p2 : List (Finset Int) × finite_automaton)
    (hfront : front < ssupv0.length)
    (hS0 : ssupv0.getD front ∅ = S)
    (h : md_symbols nfa cf front S p = some p2)
    (hinv : md_inv nfa ssupv0 front 0 p) :
    md_inv nfa ssupv0 front (get_nsymbols nfa) p2 :=
  md_symbols_inv nfa cf front ssupv0 S hfront hS0 (get_nsymbols nfa) p p2
    (Nat.le_refl _) h hinv

theorem md_inv_retarget (nfa : finite_automaton) (s0 s1 : List (Finset Int))
    (front m : Nat) (p : List (Finset Int) × finite_automaton)
    (h : md_inv nfa s1 front m p)
    (hlen : s0.length ≤ s1.length)
    (hget : ∀ i, i < s0.length → s1.getD i ∅ = s0.getD i ∅) :
    md_inv nfa s0 front m p :=
  ⟨h.len_eq, h.hwf, h.nsym, h.det, h.closed,
    hlen.trans h.ext_len,
    fun i hi => by
      rw [h.ext_get i (Nat.lt_of_lt_of_le hi hlen), hget i hi],
    h.front_le, h.done_cells, h.done_accept, h.cur_cells, h.cur_rest,
    h.todo_rows, h.todo_accepts⟩

theorem md_loop_inv (nfa : finite_automaton) (cf : Nat) :
    ∀ (fuel : Nat) (ssupv : List (Finset Int)) (out : finite_automaton)
      (front : Nat) (R : finite_automaton × List (Finset Int)),
    md_loop nfa cf fuel ssupv out front = some R →
    md_inv nfa ssupv front 0 (ssupv, out) →
    md_inv nfa ssupv R.2.length 0 (R.2, R.1) := by
  intro fuel
  induction fuel with
  | zero =>
      intro ssupv out front R h hinv
      simp only [md_loop] at h
      split at h
      · exact Option.noConfusion h
      · rename_i hge
        rw [Option.some.injEq] at h
        subst h
        have hfe : front = ssupv.length :=
          Nat.le_antisymm hinv.front_le (Nat.le_of_not_lt hge)
        rw [← hfe]
        exact hinv
  | succ fuel ih =>
      intro ssupv out front R h hinv
      simp only [md_loop] at h
      split at h
      · rename_i hlt
        have hss : ssupv.getD front ∅ = ssupv.get ⟨front, hlt⟩ := by
          rw [List.getD_eq_getElem?_getD, List.getElem?_eq_getElem hlt]
          rfl
        split at h
        · exact Option.noConfusion h
        · rename_i acc2 hacc
          have hinv2 := md_symbols_inv_full nfa cf front ssupv
            (ssupv.get ⟨front, hlt⟩) (ssupv, out) acc2 hlt hss hacc hinv
          have hfl : front < acc2.1.length :=
            Nat.lt_of_lt_of_le hlt hinv2.ext_len
          have hacc_len : acc2.2.accepted_tokens.length = acc2.1.length := by
            rw [hinv2.hwf.2]
            exact hinv2.len_eq
          have hMAeq : acc2.1.getD front ∅ =
              ssupv.get ⟨front, hlt⟩ := by
            rw [hinv2.ext_get front hlt, hss]
          by_cases hMA : min_accepted_token nfa (ssupv.get ⟨front, hlt⟩) = -1
          · rw [if_neg (not_not_intro hMA)] at h
            have hnew : md_inv nfa acc2.1 (front + 1) 0 (acc2.1, acc2.2) := by
              refine ⟨hinv2.len_eq, hinv2.hwf, hinv2.nsym, hinv2.det,
                hinv2.closed, Nat.le_refl _, fun i hi => rfl, hfl, ?_, ?_,
                fun σ hσ _ => absurd hσ (Nat.not_lt_zero σ),
                fun σ _ => hinv2.todo_rows (front + 1) σ (Nat.lt_succ_self _),
                fun i σ hi => hinv2.todo_rows i σ (by omega),
                fun i hi => hinv2.todo_accepts i (by omega)⟩
              · intro i σ hi hσ
                by_cases hif : i = front
                · subst hif
                  exact hinv2.cur_cells σ hσ hσ
                · exact hinv2.done_cells i σ (by omega) hσ
              · intro i hi
                by_cases hif : i = front
                · subst hif
                  rw [hinv2.todo_accepts i (Nat.le_refl i), hMAeq, hMA]
                · exact hinv2.done_accept i (by omega)
            have hR := ih acc2.1 acc2.2 (front + 1) R h hnew
            exact md_inv_retarget nfa ssupv acc2.1 _ _ _ hR hinv2.ext_len
              hinv2.ext_get
          · rw [if_pos hMA] at h
            have hnew : md_inv nfa acc2.1 (front + 1) 0
                (acc2.1, add_accept acc2.2 front
                  (min_accepted_token nfa (ssupv.get ⟨front, hlt⟩))) := by
              refine ⟨?_, wf_add_accept _ _ _ hinv2.hwf,
                by rw [(fields_add_accept _ _ _).1]; exact hinv2.nsym,
                by rw [(fields_add_accept _ _ _).2.1]; exact hinv2.det,
                hinv2.closed, Nat.le_refl _, fun i hi => rfl, hfl, ?_, ?_,
                fun σ hσ _ => absurd hσ (Nat.not_lt_zero σ), ?_, ?_, ?_⟩
              · show (add_accept _ _ _).table.length = _
                rw [(fields_add_accept _ _ _).2.2]
                exact hinv2.len_eq
              · intro i σ hi hσ
                apply md_cell_ok_mono nfa acc2.1 acc2.1 acc2.2 _ _ i σ
                  (Nat.le_refl _) (fun j hj => rfl)
                  (step_add_accept acc2.2 front _ i σ) ?_
                by_cases hif : i = front
                · subst hif
                  exact hinv2.cur_cells σ hσ hσ
                · exact hinv2.done_cells i σ (by omega) hσ
              · intro i hi
                rw [accepts_add_accept]
                by_cases hif : i = front
                · subst hif
                  rw [if_pos ⟨rfl, by rw [hacc_len]; exact hfl⟩, hMAeq]
                · rw [if_neg (fun hcon => hif hcon.1.symm)]
                  exact hinv2.done_accept i (by omega)
              · intro σ _
                rw [step_add_accept]
                exact hinv2.todo_rows (front + 1) σ (Nat.lt_succ_self _)
              · intro i σ hi
                rw [step_add_accept]
                exact hinv2.todo_rows i σ (by omega)
              · intro i hi
                rw [accepts_add_accept, if_neg (fun hcon => by omega)]
                exact hinv2.todo_accepts i (by omega)
            have hR := ih acc2.1 _ (front + 1) R h hnew
            exact md_inv_retarget nfa ssupv acc2.1 _ _ _ hR hinv2.ext_len
              hinv2.ext_get
      · rename_i hge
        rw [Option.some.injEq] at h
        subst h
        have hfe : front = ssupv.length :=
          Nat.le_antisymm hinv.front_le (Nat.le_of_not_lt hge)
        rw [← hfe]
        exact hinv

/-- Master correctness statement for the subset construction: on success the
returned DFA satisfies the full worklist invariant over the interned state
sets, and the first interned set is the epsilon closure of `{0}`. -/
theorem make_deterministic_aux_spec (nfa : finite_automaton) (cf fuel : Nat)
    (out : finite_automaton) (ssupv : List (Finset Int))
    (hdet : get_determinism nfa = false)
    (h : make_deterministic_aux nfa cf fuel = some (out, ssupv)) :
    md_inv nfa ssupv ssupv.length 0 (ssupv, out) ∧
    0 < ssupv.length ∧
    ssupv.getD 0 ∅ = eps_closure_spec nfa ({0} : Finset Int) := by
  unfold make_deterministic_aux at h
  rw [hdet] at h
  simp only [Bool.false_eq_true, if_false] at h
  split at h
  · exact Option.noConfusion h
  · rename_i start_ss hclS
    have hstart : start_ss = eps_closure_spec nfa ({0} : Finset Int) :=
      get_epsilon_closure_correct nfa cf _ _ hclS
    have hinv0 : md_inv nfa [start_ss] 0 0
        ([start_ss], add_state (mk_fa (get_nsymbols nfa) true)) := by
      refine ⟨by rw [nstates_add_state]; rfl,
        wf_add_state _ (wf_mk_fa _ _), rfl, rfl, ?_,
        Nat.le_refl _, fun i hi => rfl, by simp,
        fun i σ hi _ => absurd hi (Nat.not_lt_zero i),
        fun i hi => absurd hi (Nat.not_lt_zero i),
        fun σ hσ _ => absurd hσ (Nat.not_lt_zero σ), ?_, ?_, ?_⟩
      · intro S hS
        rw [List.mem_singleton] at hS
        subst hS
        rw [hstart]
        exact eps_closure_spec_fixed nfa _
      · intro σ _
        rw [step_add_state, step_mk_fa]
      · intro i σ _
        rw [step_add_state, step_mk_fa]
      · intro i _
        rw [accepts_add_state, accepts_mk_fa]
    have hR := md_loop_inv nfa cf fuel [start_ss] _ 0 (out, ssupv) h hinv0
    have hlen1 : 1 ≤ ssupv.length := hR.ext_len
    have hget0 : ssupv.getD 0 ∅ = start_ss := by
      have := hR.ext_get 0 (by simp)
      simpa using this
    refine ⟨⟨hR.len_eq, hR.hwf, hR.nsym, hR.det, hR.closed, Nat.le_refl _,
      fun i hi => rfl, hR.front_le, hR.done_cells, hR.done_accept,
      hR.cur_cells, hR.cur_rest, hR.todo_rows, hR.todo_accepts⟩,
      by omega, by rw [hget0, hstart]⟩

/-! ### Row-equivalence minimisation (`simplify_once` / `simplify`) -/

/-- The key by which `simplify_once`'s `StateRow2SimpleState` map (ordered by
`state_row_compare`) identifies states: two states are merged exactly when
they have the same accepted token and the same full transition row. -/
def state_signature (fa : finite_automaton) (s : Nat) : Int × List Int :=
  (accepts fa s, fa.table.getD s [])

/-- One insertion step of the `sr2ss` map build in `simplify_once`: a state
whose signature is new is assigned the next fresh simple-state number. -/
def assign_step (fa : finite_automaton)
    (p : List ((Int × List Int) × Nat) × Nat) (s : Nat) :
    List ((Int × List Int) × Nat) × Nat :=
  match p.1.find? (fun e => e.1 == state_signature fa s) with
  | some _ => p
  | none => (p.1 ++ [(state_signature fa s, p.2)], p.2 + 1)

/-- Embedding of the first loop of `simplify_once` (the map build together
with the `nsimple` counter). -/
def simplify_assign (fa : finite_automaton) :
    List ((Int × List Int) × Nat) × Nat :=
  (List.range (get_nstates fa)).foldl (assign_step fa) ([], 0)

/-- Embedding of a lookup `sr2ss[state]` in `simplify_once`. -/
def sr2ss (fa : finite_automaton) (s : Nat) : Nat :=
  match (simplify_assign fa).1.find? (fun e => e.1 == state_signature fa s) with
  | some e => e.2
  | none => 0

/-- The number of simple states (`nsimple` in `simplify_once`). -/
def nsimple (fa : finite_automaton) : Nat := (simplify_assign fa).2

/-- Correctness properties of the map build after the first `n` states have
been inserted: the counter equals the entry count, entry values are their
positions, signatures are pairwise distinct, the entries cover exactly the
signatures of the first `n` states, and the first entry belongs to state 0. -/
def assign_ok (fa : finite_automaton) (n : Nat)
    (p : List ((Int × List Int) × Nat) × Nat) : Prop :=
  p.2 = p.1.length ∧
  (∀ k (hk : k < p.1.length), (p.1.get ⟨k, hk⟩).2 = k) ∧
  (∀ k1 k2 (hk1 : k1 < p.1.length) (hk2 : k2 < p.1.length), k1 ≠ k2 →
    (p.1.get ⟨k1, hk1⟩).1 ≠ (p.1.get ⟨k2, hk2⟩).1) ∧
  (∀ s, s < n → ∃ e, e ∈ p.1 ∧ e.1 = state_signature fa s) ∧
  (∀ e, e ∈ p.1 → ∃ s, s < n ∧ e.1 = state_signature fa s) ∧
  (0 < n → ∃ h0 : 0 < p.1.length,
    p.1.get ⟨0, h0⟩ = (state_signature fa 0, 0))

theorem assign_step_ok (fa : finite_automaton) (n : Nat)
    (p : List ((Int × List Int) × Nat) × Nat)
    (h : assign_ok fa n p) : assign_ok fa (n + 1) (assign_step fa p n) := by
  obtain ⟨h1, h2, h3, h4, h5, h6⟩ := h
  unfold assign_step
  cases hf : p.1.find? (fun e => e.1 == state_signature fa n) with
  | some e =>
      have he : e.1 = state_signature fa n := by
        have := List.find?_some hf
        simpa [beq_iff_eq] using this
      refine ⟨h1, h2, h3, ?_, ?_, ?_⟩
      · intro s hs
        by_cases hsn : s = n
        · subst hsn
          exact ⟨e, List.mem_of_find?_eq_some hf, he⟩
        · exact h4 s (by omega)
      · intro e2 he2
        obtain ⟨s, hs, hsig⟩ := h5 e2 he2
        exact ⟨s, by omega, hsig⟩
      · intro _
        by_cases hn : 0 < n
        · exact h6 hn
        · obtain ⟨s, hs, _⟩ := h5 e (List.mem_of_find?_eq_some hf)
          omega
  | none =>
      have hnone : ∀ e ∈ p.1, e.1 ≠ state_signature fa n := by
        intro e hme
        have := List.find?_eq_none.mp hf e hme
        simpa [beq_iff_eq] using this
      have hlen : (p.1 ++ [(state_signature fa n, p.2)]).length =
          p.1.length + 1 := by simp
      refine ⟨by simp [h1], ?_, ?_, ?_, ?_, ?_⟩
      · intro k hk
        rw [hlen] at hk
        by_cases hkl : k < p.1.length
        · rw [List.get_eq_getElem, List.getElem_append_left hkl]
          exact h2 k hkl
        · have hke : k = p.1.length := by omega
          subst hke
          rw [List.get_eq_getElem,
            List.getElem_concat_length p.1 _ _ rfl]
          show p.2 = p.1.length
          exact h1
      · intro k1 k2 hk1 hk2 hne
        rw [hlen] at hk1 hk2
        by_cases hkl1 : k1 < p.1.length
        · by_cases hkl2 : k2 < p.1.length
          · rw [List.get_eq_getElem, List.get_eq_getElem,
              List.getElem_append_left hkl1, List.getElem_append_left hkl2]
            exact h3 k1 k2 hkl1 hkl2 hne
          · have hke : k2 = p.1.length := by omega
            subst hke
            rw [List.get_eq_getElem, List.get_eq_getElem,
              List.getElem_append_left hkl1,
              List.getElem_concat_length p.1 _ _ rfl]
            exact hnone _ (List.getElem_mem hkl1)
        · have hke : k1 = p.1.length := by omega
          subst hke
          have hkl2 : k2 < p.1.length := by omega
          rw [List.get_eq_getElem, List.get_eq_getElem,
            List.getElem_concat_length p.1 _ _ rfl,
            List.getElem_append_left hkl2]
          exact fun hcon => hnone _ (List.getElem_mem hkl2) hcon.symm
      · intro s hs
        by_cases hsn : s = n
        · subst hsn
          exact ⟨(state_signature fa s, p.2),
            List.mem_append_right _ (List.mem_singleton_self _), rfl⟩
        · obtain ⟨e, hme, hsig⟩ := h4 s (by omega)
          exact ⟨e, List.mem_append_left _ hme, hsig⟩
      · intro e he
        rcases List.mem_append.mp he with he | he
        · obtain ⟨s, hs, hsig⟩ := h5 e he
          exact ⟨s, by omega, hsig⟩
        · rw [List.mem_singleton] at he
          subst he
          exact ⟨n, by omega, rfl⟩
      · intro _
        by_cases hn : 0 < n
        · obtain ⟨h0, hv⟩ := h6 hn
          refine ⟨by rw [hlen]; omega, ?_⟩
          rw [List.get_eq_getElem, List.getElem_append_left h0,
            ← List.get_eq_getElem _ ⟨0, h0⟩]
          exact hv
        · have hn0 : n = 0 := by omega
          subst hn0
          have hp1 : p.1 = [] := by
            cases hp : p.1 with
            | nil => rfl
            | cons a l =>
                obtain ⟨s, hs, _⟩ := h5 a (by rw [hp]; exact List.mem_cons_self a l)
                omega
          refine ⟨by rw [hlen, hp1]; simp, ?_⟩
          have hz : p.2 = 0 := by rw [h1, hp1]; rfl
          rw [List.get_eq_getElem]
          have hgoal : (p.1 ++ [(state_signature fa 0, p.2)]) =
              [(state_signature fa 0, 0)] := by
            rw [hp1, hz]
            rfl
          simp [hgoal]

theorem simplify_assign_ok (fa : finite_automaton) :
    assign_ok fa (get_nstates fa) (simplify_assign fa) := by
  unfold simplify_assign
  generalize get_nstates fa = n
  induction n with
  | zero =>
      refine ⟨rfl, ?_, ?_, ?_, ?_, ?_⟩
      · intro k hk
        simp at hk
      · intro k1 k2 hk1 hk2 _
        simp at hk1
      · intro s hs
        omega
      · intro e he
        simp at he
      · intro h
        omega
  | succ n ih =>
      rw [List.range_succ, List.foldl_append, List.foldl_cons, List.foldl_nil]
      exact assign_step_ok fa n _ ih

theorem nsimple_eq_len (fa : finite_automaton) :
    nsimple fa = (simplify_assign fa).1.length :=
  (simplify_assign_ok fa).1

theorem sr2ss_find (fa : finite_automaton) (s : Nat)
    (hs : s < get_nstates fa) :
    ∃ e, (simplify_assign fa).1.find?
        (fun x => x.1 == state_signature fa s) = some e ∧
      e ∈ (simplify_assign fa).1 ∧ e.1 = state_signature fa s ∧
      sr2ss fa s = e.2 := by
  obtain ⟨h1, h2, h3, h4, h5, h6⟩ := simplify_assign_ok fa
  obtain ⟨e0, hme0, hsig0⟩ := h4 s hs
  cases hf : (simplify_assign fa).1.find?
      (fun x => x.1 == state_signature fa s) with
  | none =>
      exfalso
      have := List.find?_eq_none.mp hf e0 hme0
      simp [beq_iff_eq, hsig0] at this
  | some e =>
      refine ⟨e, rfl, List.mem_of_find?_eq_some hf, ?_, ?_⟩
      · have := List.find?_some hf
        simpa [beq_iff_eq] using this
      · unfold sr2ss
        rw [hf]

theorem assign_entry_pos (fa : finite_automaton) (e : (Int × List Int) × Nat)
    (he : e ∈ (simplify_assign fa).1) :
    ∃ hk : e.2 < (simplify_assign fa).1.length,
      (simplify_assign fa).1.get ⟨e.2, hk⟩ = e := by
  obtain ⟨h1, h2, h3, h4, h5, h6⟩ := simplify_assign_ok fa
  obtain ⟨k, hk, hke⟩ := List.mem_iff_getElem.mp he
  have hv := h2 k hk
  rw [List.get_eq_getElem, hke] at hv
  subst hv
  exact ⟨hk, by rw [List.get_eq_getElem]; exact hke⟩

theorem sr2ss_range (fa : finite_automaton) (s : Nat)
    (hs : s < get_nstates fa) : sr2ss fa s < nsimple fa := by
  obtain ⟨e, _, hme, _, hv⟩ := sr2ss_find fa s hs
  obtain ⟨hk, _⟩ := assign_entry_pos fa e hme
  rw [hv, nsimple_eq_len]
  exact hk

theorem sr2ss_congr (fa : finite_automaton) (s t : Nat)
    (h : state_signature fa s = state_signature fa t) :
    sr2ss fa s = sr2ss fa t := by
  unfold sr2ss
  rw [h]

theorem sr2ss_inj (fa : finite_automaton) (s t : Nat)
    (hs : s < get_nstates fa) (ht : t < get_nstates fa)
    (h : sr2ss fa s = sr2ss fa t) :
    state_signature fa s = state_signature fa t := by
  obtain ⟨es, _, hmes, hsigs, hvs⟩ := sr2ss_find fa s hs
  obtain ⟨et, _, hmet, hsigt, hvt⟩ := sr2ss_find fa t ht
  obtain ⟨hks, hgs⟩ := assign_entry_pos fa es hmes
  obtain ⟨hkt, hgt⟩ := assign_entry_pos fa et hmet
  have hval : es.2 = et.2 := by
    rw [← hvs, ← hvt, h]
  have he : es = et := by
    rw [← hgs, ← hgt]
    simp [List.get_eq_getElem, hval]
  rw [← hsigs, ← hsigt, he]

theorem sr2ss_surj (fa : finite_automaton) (c : Nat) (hc : c < nsimple fa) :
    ∃ s, s < get_nstates fa ∧ sr2ss fa s = c := by
  obtain ⟨h1, h2, h3, h4, h5, h6⟩ := simplify_assign_ok fa
  have hcl : c < (simplify_assign fa).1.length := by
    rw [← nsimple_eq_len]
    exact hc
  obtain ⟨s, hs, hsig⟩ := h5 ((simplify_assign fa).1.get ⟨c, hcl⟩)
    (List.get_mem _ c hcl)
  refine ⟨s, hs, ?_⟩
  obtain ⟨e2, _, hme2, hsig2, hv2⟩ := sr2ss_find fa s hs
  obtain ⟨hk2, hg2⟩ := assign_entry_pos fa e2 hme2
  by_cases hcc : e2.2 = c
  · rw [hv2, hcc]
  · exfalso
    apply h3 e2.2 c hk2 hcl hcc
    rw [hg2, hsig2, hsig]

theorem sr2ss_zero (fa : finite_automaton) (h0 : 0 < get_nstates fa) :
    sr2ss fa 0 = 0 := by
  obtain ⟨h1, h2, h3, h4, h5, h6⟩ := simplify_assign_ok fa
  obtain ⟨hl0, hv0⟩ := h6 h0
  obtain ⟨e, _, hme, hsig, hv⟩ := sr2ss_find fa 0 h0
  obtain ⟨hk, hg⟩ := assign_entry_pos fa e hme
  by_cases hcc : e.2 = 0
  · rw [hv, hcc]
  · exfalso
    apply h3 e.2 0 hk hl0 hcc
    rw [hg, hv0, hsig]

theorem nsimple_pos (fa : finite_automaton) (h0 : 0 < get_nstates fa) :
    0 < nsimple fa :=
  Nat.lt_of_le_of_lt (Nat.zero_le _) (sr2ss_range fa 0 h0)

/-- The value written into one cell of the minimised automaton: the image of
the original cell under the state renaming `sr2ss`. -/
def simp_cell (fa : finite_automaton) (s σ : Nat) : Int :=
  if step fa s σ = -1 then -1
  else ((sr2ss fa (step fa s σ).toNat : Nat) : Int)

/-- Inner loop body of the copy phase of `simplify_once`: copy one transition
cell of `state` into row `simple` (cells holding `-1` are skipped). -/
def simplify_copy_cell (fa : finite_automaton) (state simple : Nat)
    (acc : finite_automaton) (symbol : Nat) : finite_automaton :=
  let next_state := step fa state symbol
  if next_state = -1 then acc
  else add_transition acc simple symbol
    ((sr2ss fa next_state.toNat : Nat) : Int)

/-- Outer loop body of the copy phase of `simplify_once`: copy the whole row
and the accepted token of `state`, unless its simple state is already done. -/
def simplify_copy_step (fa : finite_automaton)
    (p : finite_automaton × List Bool) (state : Nat) :
    finite_automaton × List Bool :=
  let simple := sr2ss fa state
  if p.2.getD simple false then p
  else
    let out2 := (List.range (get_nsymbols_eps fa)).foldl
      (simplify_copy_cell fa state simple) p.1
    let token := accepts fa state
    let out3 := if token ≠ -1 then add_accept out2 simple token else out2
    (out3, p.2.set simple true)

/-- Embedding of `finite_automaton::simplify_once`. -/
def simplify_once (fa : finite_automaton) : finite_automaton :=
  let out0 := (List.range (nsimple fa)).foldl (fun acc _ => add_state acc)
    (mk_fa (get_nsymbols fa) (get_determinism fa))
  ((List.range (get_nstates fa)).foldl (simplify_copy_step fa)
    (out0, List.replicate (nsimple fa) false)).1

/-- The do/while loop of `finite_automaton::simplify`, with explicit fuel
(each repeat strictly shrinks the state count, so `get_nstates fa + 1`
rounds always suffice and the `0` case is never reached from `simplify`). -/
def simplify_go : Nat → finite_automaton → finite_automaton
  | 0, fa => fa
  | fuel + 1, fa =>
      let out := simplify_once fa
      if get_nstates out < get_nstates fa then simplify_go fuel out else out

/-- Embedding of `finite_automaton::simplify` (the iteration-count warning
print has no effect on the result and is dropped). -/
def simplify (fa : finite_automaton) : finite_automaton :=
  simplify_go (get_nstates fa + 1) fa

theorem step_out_of_cols (fa : finite_automaton) (hwf : wf fa) (s σ : Nat)
    (h : get_nsymbols_eps fa ≤ σ) : step fa s σ = -1 := by
  by_cases hs : s < get_nstates fa
  · unfold step
    have hrow : (fa.table.getD s []).length = get_ncols fa := by
      apply hwf.1
      rw [List.getD_eq_getElem?_getD, List.getElem?_eq_getElem hs]
      exact List.getElem_mem hs
    rw [List.getD_eq_getElem?_getD,
      List.getElem?_eq_none (by rw [hrow]; exact h)]
    rfl
  · exact step_out_of_range fa s σ (Nat.le_of_not_lt hs)

theorem add_states_fold (n : Nat) (fa0 : finite_automaton) :
    get_nstates ((List.range n).foldl (fun acc _ => add_state acc) fa0) =
      get_nstates fa0 + n ∧
    ((List.range n).foldl (fun acc _ => add_state acc) fa0).nsymbols =
      fa0.nsymbols ∧
    ((List.range n).foldl (fun acc _ => add_state acc) fa0).is_deterministic =
      fa0.is_deterministic ∧
    (wf fa0 → wf ((List.range n).foldl (fun acc _ => add_state acc) fa0)) ∧
    (∀ s σ, step ((List.range n).foldl (fun acc _ => add_state acc) fa0) s σ =
      step fa0 s σ) ∧
    (∀ s, accepts ((List.range n).foldl (fun acc _ => add_state acc) fa0) s =
      accepts fa0 s) := by
  induction n with
  | zero =>
      exact ⟨rfl, rfl, rfl, fun h => h, fun s σ => rfl, fun s => rfl⟩
  | succ n ih =>
      obtain ⟨ih1, ih2, ih3, ih4, ih5, ih6⟩ := ih
      rw [List.range_succ, List.foldl_append, List.foldl_cons, List.foldl_nil]
      refine ⟨?_, ?_, ?_, ?_, ?_, ?_⟩
      · rw [nstates_add_state, ih1]
        omega
      · rw [(fields_add_state _).1, ih2]
      · rw [(fields_add_state _).2, ih3]
      · intro h
        exact wf_add_state _ (ih4 h)
      · intro s σ
        rw [step_add_state, ih5]
      · intro s
        rw [accepts_add_state, ih6]

theorem simplify_copy_cell_eq (fa : finite_automaton) (state simple : Nat)
    (acc : finite_automaton) (symbol : Nat) :
    simplify_copy_cell fa state simple acc symbol =
      if step fa state symbol = -1 then acc
      else add_transition acc simple symbol
        ((sr2ss fa (step fa state symbol).toNat : Nat) : Int) := rfl

theorem copy_cells_fold (fa : finite_automaton) (state simple : Nat)
    (out : finite_automaton) (hwf : wf out)
    (hsim : simple < get_nstates out)
    (hnc : get_ncols out = get_nsymbols_eps fa) :
    ∀ m, m ≤ get_nsymbols_eps fa →
    wf ((List.range m).foldl (simplify_copy_cell fa state simple) out) ∧
    ((List.range m).foldl (simplify_copy_cell fa state simple) out).nsymbols =
      out.nsymbols ∧
    ((List.range m).foldl (simplify_copy_cell fa state simple)
      out).is_deterministic = out.is_deterministic ∧
    ((List.range m).foldl (simplify_copy_cell fa state simple)
      out).accepted_tokens = out.accepted_tokens ∧
    get_nstates ((List.range m).foldl (simplify_copy_cell fa state simple)
      out) = get_nstates out ∧
    (∀ σ, σ < m →
      step ((List.range m).foldl (simplify_copy_cell fa state simple) out)
        simple σ =
      (if step fa state σ = -1 then step out simple σ
       else simp_cell fa state σ)) ∧
    (∀ σ, m ≤ σ →
      step ((List.range m).foldl (simplify_copy_cell fa state simple) out)
        simple σ = step out simple σ) ∧
    (∀ i σ, i ≠ simple →
      step ((List.range m).foldl (simplify_copy_cell fa state simple) out)
        i σ = step out i σ) := by
  intro m
  induction m with
  | zero =>
      intro _
      exact ⟨hwf, rfl, rfl, rfl, rfl,
        fun σ hσ => absurd hσ (Nat.not_lt_zero σ),
        fun σ _ => rfl, fun i σ _ => rfl⟩
  | succ m ih =>
      intro hm
      obtain ⟨ih1, ih2, ih3, ih4, ih5, ih6, ih7, ih8⟩ := ih (by omega)
      rw [List.range_succ, List.foldl_append, List.foldl_cons, List.foldl_nil,
        simplify_copy_cell_eq]
      by_cases hns : step fa state m = -1
      · rw [if_pos hns]
        refine ⟨ih1, ih2, ih3, ih4, ih5, ?_,
          fun σ hσ => ih7 σ (by omega), ih8⟩
        intro σ hσ
        by_cases hσm : σ = m
        · subst hσm
          rw [if_pos hns]
          exact ih7 σ (Nat.le_refl σ)
        · exact ih6 σ (by omega)
      · rw [if_neg hns]
        have hncu : get_ncols ((List.range m).foldl
            (simplify_copy_cell fa state simple) out) = get_ncols out := by
          unfold get_ncols
          rw [ih2, ih3]
        have hstepc : ∀ s σ,
            step (add_transition ((List.range m).foldl
              (simplify_copy_cell fa state simple) out) simple m
              ((sr2ss fa (step fa state m).toNat : Nat) : Int)) s σ =
            if simple = s ∧ m = σ
            then ((sr2ss fa (step fa state m).toNat : Nat) : Int)
            else step ((List.range m).foldl
              (simplify_copy_cell fa state simple) out) s σ := by
          intro s σ
          rw [step_add_transition _ _ _ _ ih1 s σ]
          by_cases hc : simple = s ∧ m = σ
          · rw [if_pos ⟨hc.1, hc.2, by rw [← hc.1, ih5]; exact hsim,
              by rw [← hc.2, hncu, hnc]; omega⟩, if_pos hc]
          · rw [if_neg (fun hcon => hc ⟨hcon.1, hcon.2.1⟩), if_neg hc]
        refine ⟨wf_add_transition _ _ _ _ ih1,
          by rw [(fields_add_transition _ _ _ _).1, ih2],
          by rw [(fields_add_transition _ _ _ _).2.1, ih3],
          by rw [(fields_add_transition _ _ _ _).2.2, ih4],
          by rw [nstates_add_transition, ih5], ?_, ?_, ?_⟩
        · intro σ hσ
          by_cases hσm : σ = m
          · subst hσm
            rw [hstepc, if_pos ⟨rfl, rfl⟩, if_neg hns]
            unfold simp_cell
            rw [if_neg hns]
          · rw [hstepc, if_neg (fun hcon => hσm hcon.2.symm)]
            exact ih6 σ (by omega)
        · intro σ hσ
          rw [hstepc, if_neg (fun hcon => by omega)]
          exact ih7 σ (by omega)
        · intro i σ hi
          rw [hstepc, if_neg (fun hcon => hi hcon.1.symm)]
          exact ih8 i σ hi

/-- Invariant of the copy loop of `simplify_once` after the first `k`
original states have been processed. -/
def copy_ok (fa : finite_automaton) (k : Nat)
    (p : finite_automaton × List Bool) : Prop :=
  get_nstates p.1 = nsimple fa ∧ wf p.1 ∧
  p.1.nsymbols = fa.nsymbols ∧
  p.1.is_deterministic = fa.is_deterministic ∧
  p.2.length = nsimple fa ∧
  (∀ s, s < k → p.2.getD (sr2ss fa s) false = true) ∧
  (∀ c, p.2.getD c false = true →
    ∃ s, s < get_nstates fa ∧ s < k ∧ sr2ss fa s = c ∧
      (∀ σ, step p.1 c σ = simp_cell fa s σ) ∧
      accepts p.1 c = accepts fa s) ∧
  (∀ c, p.2.getD c false = false →
    (∀ σ, step p.1 c σ = -1) ∧ accepts p.1 c = -1)

theorem copy_step_ok (fa : finite_automaton) (hwffa : wf fa) (k : Nat)
    (hk : k < get_nstates fa)
    (p : finite_automaton × List Bool) (h : copy_ok fa k p) :
    copy_ok fa (k + 1) (simplify_copy_step fa p k) := by
  obtain ⟨h1, h2, h3, h4, h5, h6, h7, h8⟩ := h
  unfold simplify_copy_step
  by_cases hflag : p.2.getD (sr2ss fa k) false = true
  · rw [if_pos hflag]
    refine ⟨h1, h2, h3, h4, h5, ?_, ?_, h8⟩
    · intro s hs
      by_cases hsk : s = k
      · subst hsk
        exact hflag
      · exact h6 s (by omega)
    · intro c hc
      obtain ⟨s, hs1, hs2, hs3, hs4, hs5⟩ := h7 c hc
      exact ⟨s, hs1, by omega, hs3, hs4, hs5⟩
  · rw [if_neg hflag]
    have hflagf : p.2.getD (sr2ss fa k) false = false := by
      cases hb : p.2.getD (sr2ss fa k) false
      · rfl
      · exact absurd hb hflag
    simp only []
    obtain ⟨hrow0, hacc0⟩ := h8 _ hflagf
    have hnc : get_ncols p.1 = get_nsymbols_eps fa := by
      unfold get_nsymbols_eps get_ncols
      rw [h3, h4]
    have hsimlt : sr2ss fa k < get_nstates p.1 := by
      rw [h1]
      exact sr2ss_range fa k hk
    have hsimln : sr2ss fa k < nsimple fa := sr2ss_range fa k hk
    obtain ⟨c1, c2, c3, c4, c5, c6, c7, c8⟩ :=
      copy_cells_fold fa k (sr2ss fa k) p.1 h2 hsimlt hnc
        (get_nsymbols_eps fa) (Nat.le_refl _)
    have hstep2 : ∀ σ,
        step ((List.range (get_nsymbols_eps fa)).foldl
          (simplify_copy_cell fa k (sr2ss fa k)) p.1) (sr2ss fa k) σ =
        simp_cell fa k σ := by
      intro σ
      by_cases hσ : σ < get_nsymbols_eps fa
      · rw [c6 σ hσ]
        by_cases hns : step fa k σ = -1
        · rw [if_pos hns, hrow0 σ]
          unfold simp_cell
          rw [if_pos hns]
        · rw [if_neg hns]
      · rw [c7 σ (Nat.le_of_not_lt hσ), hrow0 σ]
        unfold simp_cell
        rw [if_pos (step_out_of_cols fa hwffa k σ (Nat.le_of_not_lt hσ))]
    have hstep3 : ∀ i σ, i ≠ sr2ss fa k →
        step ((List.range (get_nsymbols_eps fa)).foldl
          (simplify_copy_cell fa k (sr2ss fa k)) p.1) i σ = step p.1 i σ :=
      c8
    have haccl : ((List.range (get_nsymbols_eps fa)).foldl
        (simplify_copy_cell fa k (sr2ss fa k)) p.1).accepted_tokens.length =
        nsimple fa := by
      rw [c4, h2.2, ← h1]
      rfl
    have hflags : ∀ c, (p.2.set (sr2ss fa k) true).getD c false =
        if sr2ss fa k = c ∧ c < p.2.length then true
        else p.2.getD c false := fun c => getD_set p.2 _ c true false
    by_cases htok : accepts fa k ≠ -1
    · rw [if_pos htok]
      refine ⟨?_, wf_add_accept _ _ _ c1,
        by rw [(fields_add_accept _ _ _).1, c2, h3],
        by rw [(fields_add_accept _ _ _).2.1, c3, h4],
        by rw [List.length_set, h5], ?_, ?_, ?_⟩
      · show (add_accept _ _ _).table.length = _
        rw [(fields_add_accept _ _ _).2.2]
        rw [← c5] at h1
        exact h1
      · intro s hs
        rw [hflags]
        by_cases hck : sr2ss fa k = sr2ss fa s
        · rw [if_pos ⟨hck, by rw [← hck, h5]; exact hsimln⟩]
        · rw [if_neg (fun hcon => hck hcon.1)]
          have hsk : s ≠ k := fun hcon => hck (by rw [hcon])
          exact h6 s (by omega)
      · intro c hc
        rw [hflags] at hc
        by_cases hck : sr2ss fa k = c ∧ c < p.2.length
        · refine ⟨k, hk, by omega, hck.1, ?_, ?_⟩
          · intro σ
            rw [step_add_accept, ← hck.1]
            exact hstep2 σ
          · rw [accepts_add_accept,
              if_pos ⟨hck.1.symm ▸ rfl, by rw [haccl, ← hck.1]; exact hsimln⟩]
        · rw [if_neg hck] at hc
          obtain ⟨s, hs1, hs2, hs3, hs4, hs5⟩ := h7 c hc
          have hcne : c ≠ sr2ss fa k := by
            intro hcon
            apply hck
            refine ⟨hcon.symm, ?_⟩
            rw [h5, hcon]
            exact hsimln
          refine ⟨s, hs1, by omega, hs3, ?_, ?_⟩
          · intro σ
            rw [step_add_accept, hstep3 c σ hcne]
            exact hs4 σ
          · rw [accepts_add_accept, if_neg (fun hcon => hcne hcon.1.symm)]
            unfold accepts
            rw [c4]
            exact hs5
      · intro c hc
        rw [hflags] at hc
        by_cases hck : sr2ss fa k = c ∧ c < p.2.length
        · rw [if_pos hck] at hc
          exact Bool.noConfusion hc
        · rw [if_neg hck] at hc
          obtain ⟨hc1, hc2⟩ := h8 c hc
          have hcne : c ≠ sr2ss fa k := by
            intro hcon
            subst hcon
            rw [hflagf] at hc
            apply hck
            refine ⟨rfl, ?_⟩
            rw [h5]
            exact hsimln
          refine ⟨?_, ?_⟩
          · intro σ
            rw [step_add_accept, hstep3 c σ hcne]
            exact hc1 σ
          · rw [accepts_add_accept, if_neg (fun hcon => hcne hcon.1.symm)]
            unfold accepts
            rw [c4]
            exact hc2
    · rw [if_neg htok]
      have htok2 : accepts fa k = -1 := not_not.mp htok
      refine ⟨by rw [c5]; exact h1, c1,
        by rw [c2, h3], by rw [c3, h4],
        by rw [List.length_set, h5], ?_, ?_, ?_⟩
      · intro s hs
        rw [hflags]
        by_cases hck : sr2ss fa k = sr2ss fa s
        · rw [if_pos ⟨hck, by rw [← hck, h5]; exact hsimln⟩]
        · rw [if_neg (fun hcon => hck hcon.1)]
          have hsk : s ≠ k := fun hcon => hck (by rw [hcon])
          exact h6 s (by omega)
      · intro c hc
        rw [hflags] at hc
        by_cases hck : sr2ss fa k = c ∧ c < p.2.length
        · refine ⟨k, hk, by omega, hck.1, ?_, ?_⟩
          · intro σ
            rw [← hck.1]
            exact hstep2 σ
          · have : accepts ((List.range (get_nsymbols_eps fa)).foldl
                (simplify_copy_cell fa k (sr2ss fa k)) p.1) c =
                accepts p.1 c := by
              unfold accepts
              rw [c4]
            rw [this, ← hck.1, hacc0, htok2]
        · rw [if_neg hck] at hc
          obtain ⟨s, hs1, hs2, hs3, hs4, hs5⟩ := h7 c hc
          have hcne : c ≠ sr2ss fa k := by
            intro hcon
            apply hck
            refine ⟨hcon.symm, ?_⟩
            rw [h5, hcon]
            exact hsimln
          refine ⟨s, hs1, by omega, hs3, fun σ => by
            rw [hstep3 c σ hcne]; exact hs4 σ, ?_⟩
          have : accepts ((List.range (get_nsymbols_eps fa)).foldl
              (simplify_copy_cell fa k (sr2ss fa k)) p.1) c =
              accepts p.1 c := by
            unfold accepts
            rw [c4]
          rw [this]
          exact hs5
      · intro c hc
        rw [hflags] at hc
        by_cases hck : sr2ss fa k = c ∧ c < p.2.length
        · rw [if_pos hck] at hc
          exact Bool.noConfusion hc
        · rw [if_neg hck] at hc
          obtain ⟨hc1, hc2⟩ := h8 c hc
          have hcne : c ≠ sr2ss fa k := by
            intro hcon
            subst hcon
            rw [hflagf] at hc
            apply hck
            refine ⟨rfl, ?_⟩
            rw [h5]
            exact hsimln
          refine ⟨fun σ => by rw [hstep3 c σ hcne]; exact hc1 σ, ?_⟩
          have : accepts ((List.range (get_nsymbols_eps fa)).foldl
              (simplify_copy_cell fa k (sr2ss fa k)) p.1) c =
              accepts p.1 c := by
            unfold accepts
            rw [c4]
          rw [this]
          exact hc2

theorem copy_fold_ok (fa : finite_automaton) (hwffa : wf fa) :
    ∀ k, k ≤ get_nstates fa →
    copy_ok fa k ((List.range k).foldl (simplify_copy_step fa)
      ((List.range (nsimple fa)).foldl (fun acc _ => add_state acc)
        (mk_fa (get_nsymbols fa) (get_determinism fa)),
       List.replicate (nsimple fa) false)) := by
  intro k
  induction k with
  | zero =>
      intro _
      simp only [List.range_zero, List.foldl_nil]
      obtain ⟨a1, a2, a3, a4, a5, a6⟩ :=
        add_states_fold (nsimple fa) (mk_fa (get_nsymbols fa) (get_determinism fa))
      refine ⟨by rw [a1]; simp [get_nstates, mk_fa], a4 (wf_mk_fa _ _), a2, a3,
        List.length_replicate _ _, ?_, ?_, ?_⟩
      · intro s hs
        exact absurd hs (Nat.not_lt_zero s)
      · intro c hc
        rw [getD_replicate] at hc
        by_cases hcn : c < nsimple fa
        · rw [if_pos hcn] at hc
          exact Bool.noConfusion hc
        · rw [if_neg hcn] at hc
          exact Bool.noConfusion hc
      · intro c _
        constructor
        · intro σ
          rw [a5, step_mk_fa]
        · rw [a6, accepts_mk_fa]
  | succ k ih =>
      intro hk
      rw [List.range_succ, List.foldl_append, List.foldl_cons, List.foldl_nil]
      exact copy_step_ok fa hwffa k (by omega) _ (ih (by omega))

/-- Characterisation of `simplify_once`: the output has one state per
signature class, and the row and accepted token of the class of any original
state are the renamed row and the token of that state. -/
theorem simplify_once_spec (fa : finite_automaton) (hwffa : wf fa) :
    get_nstates (simplify_once fa) = nsimple fa ∧
    wf (simplify_once fa) ∧
    (simplify_once fa).nsymbols = fa.nsymbols ∧
    (simplify_once fa).is_deterministic = fa.is_deterministic ∧
    (∀ s, s < get_nstates fa →
      (∀ σ, step (simplify_once fa) (sr2ss fa s) σ = simp_cell fa s σ) ∧
      accepts (simplify_once fa) (sr2ss fa s) = accepts fa s) := by
  obtain ⟨h1, h2, h3, h4, h5, h6, h7, h8⟩ :=
    copy_fold_ok fa hwffa (get_nstates fa) (Nat.le_refl _)
  refine ⟨h1, h2, h3, h4, ?_⟩
  have hso : simplify_once fa =
      ((List.range (get_nstates fa)).foldl (simplify_copy_step fa)
        ((List.range (nsimple fa)).foldl (fun acc _ => add_state acc)
          (mk_fa (get_nsymbols fa) (get_determinism fa)),
         List.replicate (nsimple fa) false)).1 := rfl
  intro s hs
  have hflag := h6 s hs
  obtain ⟨s1, hs1, _, hc1, hcell, haccv⟩ := h7 _ hflag
  have hsig : state_signature fa s1 = state_signature fa s :=
    sr2ss_inj fa s1 s hs1 hs hc1
  have hrow : fa.table.getD s1 [] = fa.table.getD s [] :=
    congrArg Prod.snd hsig
  have hsigstep : ∀ σ, step fa s1 σ = step fa s σ := by
    intro σ
    unfold step
    rw [hrow]
  have hsigacc : accepts fa s1 = accepts fa s := congrArg Prod.fst hsig
  constructor
  · intro σ
    rw [hso, hcell σ]
    unfold simp_cell
    rw [hsigstep]
  · rw [hso, haccv, hsigacc]

/-! ### Word semantics: running the tables, and the spec-side NFA language -/

/-- Runtime table walk of an automaton on a word (modelled from the spec's
description of the lexer runtime): follow one cell per symbol, with the dead
state `-1` absorbing. -/
def dfa_run (fa : finite_automaton) : Int → List Nat → Int
  | state, [] => state
  | state, σ :: rest => dfa_run fa (stepI fa state σ) rest

/-- The token (`-1` for none) a table automaton yields on a word, walking
deterministically from state 0. -/
def dfa_token (fa : finite_automaton) (w : List Nat) : Int :=
  acceptsI fa (dfa_run fa 0 w)

/-- Spec-side semantics of the NFA on a word (the refinement-side definition,
following the spec's wording): the set of N-states reachable from state 0 by
epsilon-closed symbol steps. -/
def nfa_reach (fa : finite_automaton) (w : List Nat) : Finset Int :=
  w.foldl (fun S σ => eps_closure_spec fa (step_set S σ fa))
    (eps_closure_spec fa ({0} : Finset Int))

/-- Spec-side accepted token of the NFA on a word: the smallest accepted
token over the reached states (declaration-order priority), `-1` if none. -/
def nfa_token (fa : finite_automaton) (w : List Nat) : Int :=
  min_accepted_token fa (nfa_reach fa w)

theorem step_set_empty (σ : Nat) (fa : finite_automaton) :
    step_set ∅ σ fa = ∅ := by
  simp [step_set]

theorem eps_closure_spec_empty (fa : finite_automaton) :
    eps_closure_spec fa ∅ = ∅ :=
  eps_closure_spec_of_closed fa ∅ (by simp [eps_expand])

theorem min_accepted_empty (fa : finite_automaton) :
    min_accepted_token fa ∅ = -1 := by
  simp [min_accepted_token]

theorem stepI_neg (fa : finite_automaton) (σ : Nat) :
    stepI fa (-1) σ = -1 := by
  simp [stepI]

theorem md_run_aux (nfa out : finite_automaton) (ssupv : List (Finset Int))
    (hinv : md_inv nfa ssupv ssupv.length 0 (ssupv, out)) :
    ∀ (w : List Nat) (st : Int) (S : Finset Int),
    (∀ σ ∈ w, σ < get_nsymbols nfa) →
    ((S = ∅ ∧ st = -1) ∨
      (∃ j : Nat, j < ssupv.length ∧ st = (j : Int) ∧ ssupv.getD j ∅ = S)) →
    (w.foldl (fun T σ => eps_closure_spec nfa (step_set T σ nfa)) S = ∅ ∧
      dfa_run out st w = -1) ∨
    (∃ j : Nat, j < ssupv.length ∧ dfa_run out st w = (j : Int) ∧
      ssupv.getD j ∅ =
        w.foldl (fun T σ => eps_closure_spec nfa (step_set T σ nfa)) S) := by
  intro w
  induction w with
  | nil =>
      intro st S _ hcur
      simp only [List.foldl_nil, dfa_run]
      exact hcur
  | cons σ rest ih =>
      intro st S hw hcur
      simp only [List.foldl_cons, dfa_run]
      rcases hcur with ⟨h1, h2⟩ | ⟨j, hj, h1, h2⟩
      · subst h1
        subst h2
        apply ih
        · intro τ hτ
          exact hw τ (List.mem_cons_of_mem _ hτ)
        · left
          rw [step_set_empty, eps_closure_spec_empty, stepI_neg]
          exact ⟨rfl, rfl⟩
      · subst h1
        have hσ : σ < get_nsymbols nfa := hw σ (List.mem_cons_self σ rest)
        have hcell := hinv.done_cells j σ hj hσ
        unfold md_cell_ok at hcell
        rw [h2] at hcell
        have hstepIj : stepI out ((j : Nat) : Int) σ = step out j σ := by
          unfold stepI
          rw [if_neg (by omega), Int.toNat_natCast]
        by_cases hempty : step_set S σ nfa = ∅
        · rw [if_pos hempty] at hcell
          apply ih
          · intro τ hτ
            exact hw τ (List.mem_cons_of_mem _ hτ)
          · left
            rw [hempty, eps_closure_spec_empty, hstepIj, hcell]
            exact ⟨rfl, rfl⟩
        · rw [if_neg hempty] at hcell
          obtain ⟨j2, hj2, hstep, hget⟩ := hcell
          apply ih
          · intro τ hτ
            exact hw τ (List.mem_cons_of_mem _ hτ)
          · right
            rw [hstepIj, hstep]
            exact ⟨j2, hj2, rfl, hget⟩

theorem md_token_correct (nfa out : finite_automaton)
    (ssupv : List (Finset Int))
    (hinv : md_inv nfa ssupv ssupv.length 0 (ssupv, out))
    (h0 : 0 < ssupv.length)
    (hg0 : ssupv.getD 0 ∅ = eps_closure_spec nfa ({0} : Finset Int)) :
    ∀ w, (∀ σ ∈ w, σ < get_nsymbols nfa) → dfa_token out w = nfa_token nfa w := by
  intro w hw
  unfold dfa_token nfa_token nfa_reach
  have hrun := md_run_aux nfa out ssupv hinv w 0 (eps_closure_spec nfa {0})
    hw (Or.inr ⟨0, h0, rfl, hg0⟩)
  rcases hrun with ⟨h1, h2⟩ | ⟨j, hj, h1, h2⟩
  · rw [h2, h1, min_accepted_empty]
    simp [acceptsI]
  · rw [h1, ← h2]
    have : acceptsI out ((j : Nat) : Int) = accepts out j := by
      unfold acceptsI
      rw [if_neg (by omega), Int.toNat_natCast]
    rw [this]
    exact hinv.done_accept j hj

/-- All table entries point to valid states or are `-1`. -/
def values_ok (fa : finite_automaton) : Prop :=
  ∀ s σ, step fa s σ = -1 ∨
    (0 ≤ step fa s σ ∧ (step fa s σ).toNat < get_nstates fa)

theorem md_values_ok (nfa out : finite_automaton) (ssupv : List (Finset Int))
    (hinv : md_inv nfa ssupv ssupv.length 0 (ssupv, out)) :
    values_ok out := by
  intro s σ
  by_cases hs : s < ssupv.length
  · by_cases hσ : σ < get_nsymbols nfa
    · have hcell := hinv.done_cells s σ hs hσ
      unfold md_cell_ok at hcell
      by_cases hempty : step_set (ssupv.getD s ∅) σ nfa = ∅
      · rw [if_pos hempty] at hcell
        exact Or.inl hcell
      · rw [if_neg hempty] at hcell
        obtain ⟨j, hj, hstep, _⟩ := hcell
        right
        rw [hstep]
        refine ⟨Int.natCast_nonneg j, ?_⟩
        rw [Int.toNat_natCast, hinv.len_eq]
        exact hj
    · left
      apply step_out_of_cols out hinv.hwf
      show get_ncols out ≤ σ
      unfold get_ncols
      rw [hinv.nsym, hinv.det]
      simpa using Nat.le_of_not_lt hσ
  · left
    apply step_out_of_range
    rw [hinv.len_eq]
    exact Nat.le_of_not_lt hs

theorem dfa_run_valid (fa : finite_automaton) (hv : values_ok fa) :
    ∀ (w : List Nat) (st : Int),
    (st = -1 ∨ (0 ≤ st ∧ st.toNat < get_nstates fa)) →
    (dfa_run fa st w = -1 ∨
      (0 ≤ dfa_run fa st w ∧ (dfa_run fa st w).toNat < get_nstates fa)) := by
  intro w
  induction w with
  | nil =>
      intro st h
      simpa only [dfa_run] using h
  | cons σ rest ih =>
      intro st h
      simp only [dfa_run]
      apply ih
      rcases h with h | h
      · subst h
        rw [stepI_neg]
        exact Or.inl rfl
      · have : stepI fa st σ = step fa st.toNat σ := by
          unfold stepI
          rw [if_neg (by omega)]
        rw [this]
        exact hv st.toNat σ

theorem simplify_once_run (fa : finite_automaton) (hwf : wf fa)
    (hv : values_ok fa) :
    ∀ (w : List Nat) (st : Int),
    (st = -1 ∨ (0 ≤ st ∧ st.toNat < get_nstates fa)) →
    dfa_run (simplify_once fa)
      (if st < 0 then -1 else ((sr2ss fa st.toNat : Nat) : Int)) w =
    (if dfa_run fa st w < 0 then -1
     else ((sr2ss fa (dfa_run fa st w).toNat : Nat) : Int)) := by
  obtain ⟨s1, s2, s3, s4, s5⟩ := simplify_once_spec fa hwf
  intro w
  induction w with
  | nil =>
      intro st _
      simp only [dfa_run]
  | cons σ rest ih =>
      intro st h
      simp only [dfa_run]
      rcases h with h | h
      · subst h
        rw [if_pos (by omega), stepI_neg (simplify_once fa) σ, stepI_neg fa σ]
        have h2 := ih (-1) (Or.inl rfl)
        rw [if_pos (by omega)] at h2
        exact h2
      · have hnn : ¬ st < 0 := by omega
        rw [if_neg hnn]
        have hstepI : stepI fa st σ = step fa st.toNat σ := by
          unfold stepI
          rw [if_neg hnn]
        have h1 : stepI (simplify_once fa) ((sr2ss fa st.toNat : Nat) : Int) σ =
            step (simplify_once fa) (sr2ss fa st.toNat) σ := by
          unfold stepI
          rw [if_neg (by omega), Int.toNat_natCast]
        rw [h1, (s5 st.toNat h.2).1 σ]
        unfold simp_cell
        rw [hstepI]
        by_cases hns : step fa st.toNat σ = -1
        · rw [if_pos hns, hns]
          have h2 := ih (-1) (Or.inl rfl)
          rw [if_pos (by omega)] at h2
          exact h2
        · rw [if_neg hns]
          have hvv := hv st.toNat σ
          rcases hvv with hvv | hvv
          · exact absurd hvv hns
          · have h2 := ih (step fa st.toNat σ) (Or.inr hvv)
            rw [if_neg (by omega)] at h2
            exact h2

theorem simplify_once_token_eq (fa : finite_automaton) (hwf : wf fa)
    (hv : values_ok fa) (h0 : 0 < get_nstates fa) :
    ∀ w, dfa_token (simplify_once fa) w = dfa_token fa w := by
  obtain ⟨s1, s2, s3, s4, s5⟩ := simplify_once_spec fa hwf
  intro w
  unfold dfa_token
  have hstart : (0 : Int) = -1 ∨ ((0 : Int)) = 0 ∧ ((0 : Int)).toNat <
      get_nstates fa := Or.inr ⟨rfl, by simpa using h0⟩
  have hrun := simplify_once_run fa hwf hv w 0
    (Or.inr ⟨Int.le_refl 0, by simpa using h0⟩)
  rw [if_neg (by omega)] at hrun
  have hz : ((sr2ss fa ((0 : Int)).toNat : Nat) : Int) = 0 := by
    have : ((0 : Int)).toNat = 0 := rfl
    rw [this, sr2ss_zero fa h0]
    rfl
  rw [hz] at hrun
  rw [hrun]
  have hfv := dfa_run_valid fa hv w 0 (Or.inr ⟨Int.le_refl 0, by simpa using h0⟩)
  rcases hfv with hfv | hfv
  · rw [hfv]
    simp [acceptsI]
  · rw [if_neg (by omega)]
    have hh1 : acceptsI (simplify_once fa)
        ((sr2ss fa (dfa_run fa 0 w).toNat : Nat) : Int) =
        accepts (simplify_once fa) (sr2ss fa (dfa_run fa 0 w).toNat) := by
      unfold acceptsI
      rw [if_neg (by omega), Int.toNat_natCast]
    have hh2 : acceptsI fa (dfa_run fa 0 w) =
        accepts fa (dfa_run fa 0 w).toNat := by
      unfold acceptsI
      rw [if_neg (by omega)]
    rw [hh1, hh2]
    exact (s5 (dfa_run fa 0 w).toNat hfv.2).2

theorem simplify_once_preserves (fa : finite_automaton) (hwf : wf fa)
    (hv : values_ok fa) (h0 : 0 < get_nstates fa) :
    wf (simplify_once fa) ∧ values_ok (simplify_once fa) ∧
    0 < get_nstates (simplify_once fa) := by
  obtain ⟨s1, s2, s3, s4, s5⟩ := simplify_once_spec fa hwf
  refine ⟨s2, ?_, by rw [s1]; exact nsimple_pos fa h0⟩
  intro c σ
  by_cases hc : c < nsimple fa
  · obtain ⟨s, hs, hc2⟩ := sr2ss_surj fa c hc
    subst hc2
    rw [(s5 s hs).1 σ]
    unfold simp_cell
    by_cases hns : step fa s σ = -1
    · rw [if_pos hns]
      exact Or.inl rfl
    · rw [if_neg hns]
      right
      refine ⟨Int.natCast_nonneg _, ?_⟩
      rw [Int.toNat_natCast, s1]
      rcases hv s σ with hvv | hvv
      · exact absurd hvv hns
      · exact sr2ss_range fa _ hvv.2
  · left
    apply step_out_of_range
    rw [s1]
    omega

theorem simplify_go_token : ∀ (fuel : Nat) (fa : finite_automaton),
    get_nstates fa < fuel → wf fa → values_ok fa → 0 < get_nstates fa →
    ∀ w, dfa_token (simplify_go fuel fa) w = dfa_token fa w := by
  intro fuel
  induction fuel with
  | zero =>
      intro fa h1 _ _ h0
      omega
  | succ n ih =>
      intro fa hle hwf hv h0 w
      simp only [simplify_go]
      obtain ⟨p1, p2, p3⟩ := simplify_once_preserves fa hwf hv h0
      by_cases hlt : get_nstates (simplify_once fa) < get_nstates fa
      · rw [if_pos hlt]
        rw [ih (simplify_once fa) (by omega) p1 p2 p3 w,
          simplify_once_token_eq fa hwf hv h0 w]
      · rw [if_neg hlt]
        exact simplify_once_token_eq fa hwf hv h0 w

theorem simplify_token_eq (fa : finite_automaton) (hwf : wf fa)
    (hv : values_ok fa) (h0 : 0 < get_nstates fa) (w : List Nat) :
    dfa_token (simplify fa) w = dfa_token fa w :=
  simplify_go_token (get_nstates fa + 1) fa (Nat.lt_succ_self _) hwf hv h0 w

/-- Full pipeline correctness: determinisation followed by minimisation
yields the spec-side NFA token on every word over the input alphabet. -/
theorem pipeline_token_correct (nfa out : finite_automaton) (cf fuel : Nat)
    (ssupv : List (Finset Int))
    (hdet : get_determinism nfa = false)
    (haux : make_deterministic_aux nfa cf fuel = some (out, ssupv))
    (w : List Nat) (hw : ∀ σ ∈ w, σ < get_nsymbols nfa) :
    dfa_token (simplify out) w = nfa_token nfa w := by
  obtain ⟨hinv, h0, hg0⟩ :=
    make_deterministic_aux_spec nfa cf fuel out ssupv hdet haux
  have hvo := md_values_ok nfa out ssupv hinv
  have h0o : 0 < get_nstates out := by
    rw [hinv.len_eq]
    exact h0
  rw [simplify_token_eq out hinv.hwf hvo h0o w]
  exact md_token_correct nfa out ssupv hinv h0 hg0 w hw

/-- Embedding of the `unite` fold in `build_lexer`: the automaton of token 0,
then `unite` with each later token's automaton in declaration order (the
per-token automata, produced by `regex::build_dfa` with the declaration index
as token id, are parameters). -/
def build_lexer_fold (first : finite_automaton)
    (rest : List finite_automaton) : finite_automaton :=
  rest.foldl unite first

/-- Embedding of the tail of `build_lexer`: determinise the united automaton
and minimise it (with explicit fuel for the worklist loops). -/
def build_lexer_dfa (first : finite_automaton) (rest : List finite_automaton)
    (cf fuel : Nat) : Option finite_automaton :=
  (make_deterministic (build_lexer_fold first rest) cf fuel).map simplify

/-- Claim C1: for an NFA and any word over its input alphabet, the DFA
obtained by `make_deterministic` followed by `simplify` yields the same
accept decision and the same accepted token id as the spec-side NFA
semantics (reachable-state set with minimum-token resolution). -/
theorem claim_C1_determinize_simplify_preserve_language
    (nfa dfa : finite_automaton) (cf fuel : Nat)
    (hdet : get_determinism nfa = false)
    (hmd : make_deterministic nfa cf fuel = some dfa)
    (w : List Nat) (hw : ∀ σ ∈ w, σ < get_nsymbols nfa) :
    dfa_token (simplify dfa) w = nfa_token nfa w ∧
    (dfa_token (simplify dfa) w = -1 ↔ nfa_token nfa w = -1) := by
  unfold make_deterministic at hmd
  cases haux : make_deterministic_aux nfa cf fuel with
  | none =>
      rw [haux] at hmd
      exact Option.noConfusion hmd
  | some pr =>
      rw [haux] at hmd
      obtain ⟨out, ssupv⟩ := pr
      have hout : out = dfa := by simpa using hmd
      subst hout
      have hmain := pipeline_token_correct nfa out cf fuel ssupv hdet haux w hw
      exact ⟨hmain, by rw [hmain]⟩

/-- Claim C2: every D-state's accept token produced by `make_deterministic`
is the minimum accept token among its member N-states (`-1` when no member
accepts); consequently the lexer built by `build_lexer` (a `unite` fold over
the per-token automata, whose token ids are the declaration indices, then
determinisation and minimisation) assigns to any word the smallest-index
token among the accepting reached states, and no token when none accepts. -/
theorem claim_C2_dfa_accepts_minimum_member_token
    (nfa out : finite_automaton) (cf fuel : Nat) (ssupv : List (Finset Int))
    (hdet : get_determinism nfa = false)
    (haux : make_deterministic_aux nfa cf fuel = some (out, ssupv))
    (first : finite_automaton) (rest : List finite_automaton)
    (lexer : finite_automaton) (cf2 fuel2 : Nat)
    (hldet : get_determinism (build_lexer_fold first rest) = false)
    (hlex : build_lexer_dfa first rest cf2 fuel2 = some lexer)
    (w : List Nat)
    (hw : ∀ σ ∈ w, σ < get_nsymbols (build_lexer_fold first rest)) :
    (∀ i, i < ssupv.length →
      accepts out i = min_accepted_token nfa (ssupv.getD i ∅)) ∧
    dfa_token lexer w = nfa_token (build_lexer_fold first rest) w ∧
    (∀ t ∈ ((nfa_reach (build_lexer_fold first rest) w).image
        (fun state => acceptsI (build_lexer_fold first rest) state)).filter
        (· ≠ -1),
      dfa_token lexer w ≤ t) ∧
    (((nfa_reach (build_lexer_fold first rest) w).image
        (fun state => acceptsI (build_lexer_fold first rest) state)).filter
        (· ≠ -1) = ∅ →
      dfa_token lexer w = -1) := by
  refine ⟨(make_deterministic_aux_spec nfa cf fuel out ssupv hdet haux).1.done_accept,
    ?_⟩
  unfold build_lexer_dfa make_deterministic at hlex
  cases haux2 : make_deterministic_aux (build_lexer_fold first rest) cf2 fuel2 with
  | none =>
      rw [haux2] at hlex
      exact Option.noConfusion hlex
  | some pr =>
      rw [haux2] at hlex
      obtain ⟨out2, ssupv2⟩ := pr
      have hlx : simplify out2 = lexer := by simpa using hlex
      subst hlx
      have hmain := pipeline_token_correct (build_lexer_fold first rest) out2
        cf2 fuel2 ssupv2 hldet haux2 w hw
      refine ⟨hmain, ?_, ?_⟩
      · intro t ht
        rw [hmain]
        unfold nfa_token min_accepted_token
        rw [dif_pos ⟨t, ht⟩]
        exact Finset.min'_le _ t ht
      · intro hempty
        rw [hmain]
        unfold nfa_token min_accepted_token
        rw [dif_neg]
        rw [hempty]
        exact Finset.not_nonempty_empty

/-- A two-token union NFA (token 0 accepting symbol 0, token 1 accepting
symbol 1), used as the concrete example in the pipeline witnesses. -/
def sample_union_nfa : finite_automaton :=
  unite (make_single_nfa 2 0 0) (make_single_nfa 2 1 1)

/-- The subset-construction DFA of `sample_union_nfa`. -/
def sample_union_dfa : finite_automaton :=
  finite_automaton.mk 2 true [[1, 2], [-1, -1], [-1, -1]] [-1, 0, 1]

/-- Concrete witness for claim C1: the pipeline on the two-token union NFA
and the word `[1, 0]`. -/
theorem claim_C1_witness :
    get_determinism sample_union_nfa = false ∧
    make_deterministic sample_union_nfa 10 10 = some sample_union_dfa ∧
    (∀ σ ∈ [1, 0], σ < get_nsymbols sample_union_nfa) ∧
    (dfa_token (simplify sample_union_dfa) [1, 0] =
        nfa_token sample_union_nfa [1, 0] ∧
      (dfa_token (simplify sample_union_dfa) [1, 0] = -1 ↔
        nfa_token sample_union_nfa [1, 0] = -1)) :=
  ⟨by decide, by decide, by decide,
   claim_C1_determinize_simplify_preserve_language sample_union_nfa
     sample_union_dfa 10 10 (by decide) (by decide) [1, 0] (by decide)⟩

/-- Concrete witness for claim C2: the subset construction of the two-token
union NFA and the lexer built from its two component automata, on the word
`[0]`. -/
theorem claim_C2_witness :
    get_determinism sample_union_nfa = false ∧
    make_deterministic_aux sample_union_nfa 10 10 =
      some (sample_union_dfa, [({3, 1, 0} : Finset Int), {2}, {4}]) ∧
    get_determinism (build_lexer_fold (make_single_nfa 2 0 0)
      [make_single_nfa 2 1 1]) = false ∧
    build_lexer_dfa (make_single_nfa 2 0 0) [make_single_nfa 2 1 1] 10 10 =
      some sample_union_dfa ∧
    (∀ σ ∈ [0], σ < get_nsymbols (build_lexer_fold (make_single_nfa 2 0 0)
      [make_single_nfa 2 1 1])) ∧
    ((∀ i, i < [({3, 1, 0} : Finset Int), {2}, {4}].length →
        accepts sample_union_dfa i = min_accepted_token sample_union_nfa
          ([({3, 1, 0} : Finset Int), {2}, {4}].getD i ∅)) ∧
      dfa_token sample_union_dfa [0] =
        nfa_token (build_lexer_fold (make_single_nfa 2 0 0)
          [make_single_nfa 2 1 1]) [0] ∧
      (∀ t ∈ ((nfa_reach (build_lexer_fold (make_single_nfa 2 0 0)
          [make_single_nfa 2 1 1]) [0]).image
          (fun state => acceptsI (build_lexer_fold (make_single_nfa 2 0 0)
            [make_single_nfa 2 1 1]) state)).filter (· ≠ -1),
        dfa_token sample_union_dfa [0] ≤ t) ∧
      (((nfa_reach (build_lexer_fold (make_single_nfa 2 0 0)
          [make_single_nfa 2 1 1]) [0]).image
          (fun state => acceptsI (build_lexer_fold (make_single_nfa 2 0 0)
            [make_single_nfa 2 1 1]) state)).filter (· ≠ -1) = ∅ →
        dfa_token sample_union_dfa [0] = -1)) :=
  ⟨by decide, by decide, by decide, by decide, by decide,
   claim_C2_dfa_accepts_minimum_member_token sample_union_nfa sample_union_dfa
     10 10 [({3, 1, 0} : Finset Int), {2}, {4}] (by decide) (by decide)
     (make_single_nfa 2 0 0) [make_single_nfa 2 1 1] sample_union_dfa 10 10
     (by decide) (by decide) [0] (by decide)⟩

/-! ### Language descriptions (`parsegen_language.cpp`, `parsegen_regex.cpp`) -/

/-- One token declaration of a `language` (a name and a regex). -/
structure token where
  name : String
  regex : String
deriving DecidableEq, Repr

/-- One production declaration of a `language`. -/
structure lang_production where
  lhs : String
  rhs : List String
deriving DecidableEq, Repr

/-- Embedding of `struct language`. -/
structure language where
  tokens : List token
  productions : List lang_production
  ignored_tokens : List String
deriving DecidableEq, Repr

/-- Embedding of `regex::build_language`: the bootstrapped regex front-end
language.  The `PROD_*`/`TOK_*` enum constants and `NPRODS`/`NTOKS` come from
`parsegen_regex.hpp`, which is not under `src/`; modelled from the spec and
the assignment order in `build_language`, whose 22 production slots and 12
token slots are each assigned exactly once.  The string literals are copied
verbatim (C++ and Lean share the backslash escape). -/
def regex_build_language : language :=
  { tokens := [
      { name := "char", regex := "[^\\\\\\.\\[\\]\\(\\)\\|\\-\\^\\*\\+\\?]|\\\\." },
      { name := ".", regex := "\\." },
      { name := "[", regex := "\\]" },
      { name := "]", regex := "\\]" },
      { name := "(", regex := "\\(" },
      { name := ")", regex := "\\)" },
      { name := "|", regex := "\\|" },
      { name := "-", regex := "\\-" },
      { name := "^", regex := "\\^" },
      { name := "*", regex := "\\*" },
      { name := "+", regex := "\\+" },
      { name := "?", regex := "\\?" }],
    productions := [
      { lhs := "regex", rhs := ["union"] },
      { lhs := "union", rhs := ["concat"] },
      { lhs := "union", rhs := ["union", "|", "concat"] },
      { lhs := "concat", rhs := ["qualified"] },
      { lhs := "concat", rhs := ["concat", "qualified"] },
      { lhs := "qualified", rhs := ["single"] },
      { lhs := "qualified", rhs := ["qualified", "*"] },
      { lhs := "qualified", rhs := ["qualified", "+"] },
      { lhs := "qualified", rhs := ["qualified", "?"] },
      { lhs := "single", rhs := ["char"] },
      { lhs := "single", rhs := ["."] },
      { lhs := "single", rhs := ["set"] },
      { lhs := "single", rhs := ["(", "union", ")"] },
      { lhs := "set", rhs := ["positive-set"] },
      { lhs := "set", rhs := ["negative-set"] },
      { lhs := "positive-set", rhs := ["[", "set-items", "]"] },
      { lhs := "negative-set", rhs := ["[", "^", "set-items", "]"] },
      { lhs := "set-items", rhs := ["set-item"] },
      { lhs := "set-items", rhs := ["set-items", "set-item"] },
      { lhs := "set-item", rhs := ["char"] },
      { lhs := "set-item", rhs := ["range"] },
      { lhs := "range", rhs := ["char", "-", "char"] }],
    ignored_tokens := [] }

/-- Claim C8 (counterexample): the bootstrapped regex language does NOT have
13 tokens and 21 productions as claimed. -/
theorem claim_C8_counterexample :
    ¬(regex_build_language.tokens.length = 13 ∧
      regex_build_language.productions.length = 21) := by
  decide

/-- Claim C8 (amended): the bootstrapped regex front-end language consists of
exactly 12 tokens and exactly 22 productions. -/
theorem claim_C8_regex_language_counts :
    regex_build_language.tokens.length = 12 ∧
    regex_build_language.productions.length = 22 := by
  decide

/-! ### `build_indent_info` (claim C5) -/

/-- Embedding of `struct indentation`. -/
structure indentation where
  is_sensitive : Bool
  indent_token : Int
  dedent_token : Int
  newline_token : Int
deriving DecidableEq, Repr

/-- The token scan loop of `build_indent_info`. -/
def indent_scan_step (lang : language) (out : indentation) (tok_i : Nat) :
    Except String indentation :=
  let tok := lang.tokens.getD tok_i ⟨"", ""⟩
  if tok.name = "INDENT" then
    if out.indent_token ≠ -1 then
      Except.error "The language has two or more INDENT tokens\n"
    else Except.ok { out with indent_token := tok_i, is_sensitive := true }
  else if tok.name = "DEDENT" then
    if out.dedent_token ≠ -1 then
      Except.error "The language has two or more DEDENT tokens\n"
    else Except.ok { out with dedent_token := tok_i }
  else if tok.name = "NEWLINE" then
    if out.newline_token ≠ -1 then
      Except.error "The language has two or more NEWLINE tokens\n"
    else Except.ok { out with newline_token := tok_i }
  else Except.ok out

/-- Embedding of `build_indent_info` (all `throw std::invalid_argument`
sites become `Except.error`). -/
def build_indent_info (lang : language) : Except String indentation :=
  match (List.range lang.tokens.length).foldlM (indent_scan_step lang)
      ⟨false, -1, -1, -1⟩ with
  | Except.error e => Except.error e
  | Except.ok out =>
      if out.is_sensitive ∧ out.indent_token = -1 then
        Except.error "This indentation-sensitive language has no INDENT token\n"
      else if out.is_sensitive ∧ out.dedent_token = -1 then
        Except.error "This indentation-sensitive language has no DEDENT token\n"
      else if out.is_sensitive ∧ out.newline_token = -1 then
        Except.error "This indentation-sensitive language has no NEWLINE token\n"
      else if out.indent_token < out.newline_token ∨
          out.dedent_token < out.newline_token then
        Except.error "NEWLINE needs to come before all other indent tokens\n"
      else Except.ok out

/-- A language declaring a `NEWLINE` token but no `INDENT` token. -/
def newline_only_language : language :=
  { tokens := [{ name := "NEWLINE", regex := "\n" }],
    productions := [{ lhs := "top", rhs := ["NEWLINE"] }],
    ignored_tokens := [] }

/-- Claim C5: the final ordering check of `build_indent_info` is not guarded
by `is_sensitive`, so a language with a `NEWLINE` token and no `INDENT`
token (not indent-sensitive, where the spec requires success with
`is_sensitive = false` and `-1` ids) is rejected: the absent
`indent_token=-1` compares less than the `NEWLINE` id. -/
theorem claim_C5_newline_only_language_rejected :
    (∀ tok ∈ newline_only_language.tokens, tok.name ≠ "INDENT") ∧
    build_indent_info newline_only_language =
      Except.error "NEWLINE needs to come before all other indent tokens\n" := by
  constructor
  · decide
  · rfl

/-! ### Grammars and the parser construction (`parsegen_build_parser.cpp`) -/

/-- One production of `struct grammar` (symbols are interned ids). -/
structure gproduction where
  lhs : Int
  rhs : List Int
deriving DecidableEq, Repr

/-- Embedding of `struct grammar`.  Symbol ids `0 ≤ s < nterminals` are
terminals and `nterminals ≤ s < nsymbols` are nonterminals (modelled from the
spec; the helpers `is_terminal`/`is_nonterminal` live in a header not under
`src/`). -/
structure grammar where
  nsymbols : Nat
  nterminals : Nat
  productions : List gproduction
  ignored_terminals : List Int
deriving DecidableEq, Repr

/-- Modelled from the spec: terminal ids come first. -/
def is_terminal (g : grammar) (s : Int) : Prop :=
  0 ≤ s ∧ s < (g.nterminals : Int)

/-- Modelled from the spec: nonterminal ids follow the terminals. -/
def is_nonterminal (g : grammar) (s : Int) : Prop :=
  (g.nterminals : Int) ≤ s ∧ s < (g.nsymbols : Int)

instance (g : grammar) (s : Int) : Decidable (is_terminal g s) := by
  unfold is_terminal
  infer_instance

instance (g : grammar) (s : Int) : Decidable (is_nonterminal g s) := by
  unfold is_nonterminal
  infer_instance

/-- Embedding of `action::kind` (the kinds used by `accept_parser`). -/
inductive action_kind where
  | shift
  | reduce
  | skip
deriving DecidableEq, Repr

/-- Embedding of `struct action` (`next_state` for shifts, `production` for
reductions; unused fields are `-1` where C++ leaves them uninitialised). -/
structure paction where
  kind : action_kind
  next_state : Int
  production : Int
deriving DecidableEq, Repr

/-- The skip action built inside `accept_parser`'s ignored-terminal loop. -/
def mk_skip_action : paction := ⟨action_kind.skip, -1, -1⟩

/-- Embedding of `struct action_in_progress`: an action together with its
terminal context set. -/
structure action_in_progress where
  action : paction
  context : Finset Int
deriving DecidableEq

/-- One action of one state, as processed by the `accept_parser` loops.  The
write targets of `add_terminal_action`/`add_nonterminal_action` (not under
`src/`) are modelled as an event log of `(state, symbol, payload)` writes.
Note: the ignored-terminal skip loop is nested inside the per-action loop,
exactly as in the source. -/
def accept_write_action (g : grammar) (s_i : Nat)
    (log : List (Nat × Int × paction) × List (Nat × Int × Int))
    (a : action_in_progress) :
    List (Nat × Int × paction) × List (Nat × Int × Int) :=
  let first_ctx := (finset_asc a.context).headD (-1)
  let log2 :=
    if a.action.kind = action_kind.shift ∧ is_nonterminal g first_ctx then
      (log.1, log.2 ++ [(s_i, first_ctx, a.action.next_state)])
    else
      (log.1 ++ (finset_asc a.context).map (fun t => (s_i, t, a.action)),
       log.2)
  (log2.1 ++ g.ignored_terminals.map (fun t => (s_i, t, mk_skip_action)),
   log2.2)

/-- Embedding of `accept_parser` (each state's actions are the parameter;
only the `actions` field of `state_in_progress` is consumed). -/
def accept_tables (g : grammar) (sips : List (List action_in_progress)) :
    List (Nat × Int × paction) × List (Nat × Int × Int) :=
  (List.range sips.length).foldl
    (fun log s_i => (sips.getD s_i []).foldl (accept_write_action g s_i) log)
    ([], [])

/-- A one-state parser-in-progress whose single state carries two reduce
actions with disjoint terminal contexts, over a grammar with one ignored
terminal. -/
def two_action_state_grammar : grammar :=
  { nsymbols := 4, nterminals := 3, productions := [],
    ignored_terminals := [0] }

/-- The single state: two reduce actions, contexts `{1}` and `{2}`. -/
def two_action_state_sips : List (List action_in_progress) :=
  [[⟨⟨action_kind.reduce, -1, 0⟩, ({1} : Finset Int)⟩,
    ⟨⟨action_kind.reduce, -1, 1⟩, ({2} : Finset Int)⟩]]

/-- Claim C6: `accept_parser`'s ignored-terminal skip loop is nested inside
the per-action loop, so a state with two actions writes the skip action into
the same `(state, ignored terminal)` cell twice — not exactly once per pair
as claimed, and the same cell is written twice. -/
theorem claim_C6_skip_written_once_per_action_not_per_state :
    ((accept_tables two_action_state_grammar two_action_state_sips).1.filter
      (fun e => e.1 = 0 ∧ e.2.1 = 0 ∧ e.2.2 = mk_skip_action)).length = 2 ∧
    (2 : Nat) ≠ 1 := by
  decide

/-! ### `regex::build_dfa` (claim C7) -/

/-- Embedding of `regex::build_dfa` over an abstract parse run
(`parse false` is the normal `parser.parse_string`, `parse true` the
`debug_parser` rerun in the catch block; `parser::parse_string` is not under
`src/`).  The second component counts how many times the input regex is
parsed. -/
def build_dfa_runs (parse : Bool → Except String finite_automaton) :
    Except String finite_automaton × Nat :=
  match parse false with
  | Except.ok fa => (Except.ok fa, 1)
  | Except.error e =>
      match parse true with
      | _ => (Except.error (e ++ "\nrepeating with debug_parser:\n"), 2)

/-- Claim C7 (counterexample): when the regex parse fails, `build_dfa`
parses the input twice (the catch block reruns a `debug_parser` before
rethrowing), so errors are retried internally, contrary to the claim. -/
theorem claim_C7_counterexample :
    (build_dfa_runs (fun _ => Except.error "x")).2 = 2 ∧
    ¬ (build_dfa_runs (fun _ => Except.error "x")).2 = 1 := by
  decide

/-- Claim C7 (amended): `build_dfa` surfaces every parse outcome — a success
is returned after a single parse, and a failure is rethrown (never
swallowed) with the debug transcript appended, after exactly one extra
`debug_parser` run of the same input. -/
theorem claim_C7_errors_surfaced_one_debug_retry
    (parse : Bool → Except String finite_automaton) :
    (∀ fa, parse false = Except.ok fa →
      build_dfa_runs parse = (Except.ok fa, 1)) ∧
    (∀ e, parse false = Except.error e →
      build_dfa_runs parse =
        (Except.error (e ++ "\nrepeating with debug_parser:\n"), 2)) := by
  constructor
  · intro fa h
    unfold build_dfa_runs
    rw [h]
  · intro e h
    unfold build_dfa_runs
    rw [h]

/-- Concrete witness for claim C7's amended statement. -/
theorem claim_C7_witness :
    ((fun _ => Except.error "bad regex" :
        Bool → Except String finite_automaton) false = Except.error "bad regex") ∧
    build_dfa_runs (fun _ => Except.error "bad regex") =
      (Except.error ("bad regex" ++ "\nrepeating with debug_parser:\n"), 2) :=
  ⟨rfl,
   (claim_C7_errors_surfaced_one_debug_retry
      (fun _ => Except.error "bad regex")).2 "bad regex" rfl⟩

/-! ### Adequacy and `build_lalr1_parser` (claim C3) -/

/-- Embedding of `struct state_in_progress` (the fields consumed by the
adequacy check and by `accept_parser`: the configuration list and the
actions). -/
structure state_in_progress where
  configs : List Nat
  actions : List action_in_progress
deriving DecidableEq

/-- The skip test both loops of `determine_adequate_states` apply: a shift
action whose context starts with a nonterminal (a goto entry, exempt from
the terminal-disjointness check). -/
def action_is_nt_shift (g : grammar) (a : action_in_progress) : Prop :=
  a.action.kind = action_kind.shift ∧
  is_nonterminal g ((finset_asc a.context).headD (-1))

instance (g : grammar) (a : action_in_progress) :
    Decidable (action_is_nt_shift g a) := by
  unfold action_is_nt_shift
  infer_instance

/-- Embedding of the double loop of `determine_adequate_states` for one
state: each action in turn is compared against all later actions (both
skipping goto entries), and the state is inadequate as soon as two terminal
contexts intersect. -/
def state_is_adequate (g : grammar) : List action_in_progress → Bool
  | [] => true
  | a :: rest =>
      if action_is_nt_shift g a then state_is_adequate g rest
      else if rest.any (fun a2 =>
          decide (¬ action_is_nt_shift g a2) &&
          decide ((a.context ∩ a2.context).Nonempty)) then false
      else state_is_adequate g rest

/-- Embedding of `determine_adequate_states` (the verbose printing has no
effect on the result). -/
def determine_adequate_states (g : grammar)
    (states : List state_in_progress) : List Bool :=
  states.map (fun st => state_is_adequate g st.actions)

/-- Embedding of the control flow of `build_lalr1_parser`
(`parsegen_build_parser.cpp:1023-1107`): build the LR(0) machine, return it
if already adequate, otherwise recompute the reduce contexts by Pager lane
tracing and return the updated machine only if it passes the adequacy check,
aborting (`none`) otherwise.  The LR(0) construction and the lane-tracing
context update are the parameters `lr0` and `update_contexts`; the claim is
conditional on a successful return, which this gate decides.  (`min_element`
over the `adequate` vector is `true` exactly when all entries are.) -/
def build_lalr1 (g : grammar)
    (lr0 : grammar → List state_in_progress)
    (update_contexts : grammar → List state_in_progress →
      List state_in_progress) :
    Option (List state_in_progress) :=
  let states := lr0 g
  let adequate := determine_adequate_states g states
  if adequate.all (fun b => b) then some states
  else
    let states2 := update_contexts g states
    let adequate2 := determine_adequate_states g states2
    if adequate2.all (fun b => b) then some states2
    else none

theorem state_is_adequate_spec (g : grammar) :
    ∀ (acts : List action_in_progress),
    state_is_adequate g acts = true →
    ∀ i j, i < j → j < acts.length →
    ¬ action_is_nt_shift g (acts.getD i ⟨mk_skip_action, ∅⟩) →
    ¬ action_is_nt_shift g (acts.getD j ⟨mk_skip_action, ∅⟩) →
    (acts.getD i ⟨mk_skip_action, ∅⟩).context ∩
      (acts.getD j ⟨mk_skip_action, ∅⟩).context = ∅ := by
  intro acts
  induction acts with
  | nil =>
      intro _ i j _ hj
      simp at hj
  | cons a rest ih =>
      intro h i j hij hj hni hnj
      rw [List.length_cons] at hj
      unfold state_is_adequate at h
      by_cases hnt : action_is_nt_shift g a
      · rw [if_pos hnt] at h
        cases i with
        | zero =>
            exact absurd hnt (by simpa using hni)
        | succ i0 =>
            cases j with
            | zero => omega
            | succ j0 =>
                rw [List.getD_cons_succ] at hni hnj ⊢
                exact ih h i0 j0 (by omega) (by omega) hni hnj
      · rw [if_neg hnt] at h
        by_cases hany : rest.any (fun a2 =>
            decide (¬ action_is_nt_shift g a2) &&
            decide ((a.context ∩ a2.context).Nonempty)) = true
        · rw [if_pos hany] at h
          exact Bool.noConfusion h
        · rw [if_neg hany] at h
          have hclean : ∀ a2 ∈ rest, action_is_nt_shift g a2 ∨
              a.context ∩ a2.context = ∅ := by
            intro a2 ha2
            by_cases h1 : action_is_nt_shift g a2
            · exact Or.inl h1
            · right
              by_contra hcon
              apply hany
              rw [List.any_eq_true]
              refine ⟨a2, ha2, ?_⟩
              rw [Bool.and_eq_true, decide_eq_true_iff, decide_eq_true_iff]
              exact ⟨h1, Finset.nonempty_iff_ne_empty.mpr hcon⟩
          cases i with
          | zero =>
              cases j with
              | zero => omega
              | succ j0 =>
                  rw [List.getD_cons_zero] at hni ⊢
                  rw [List.getD_cons_succ] at hnj ⊢
                  have hmem : rest.getD j0 ⟨mk_skip_action, ∅⟩ ∈ rest := by
                    rw [List.getD_eq_getElem?_getD,
                      List.getElem?_eq_getElem (by omega)]
                    exact List.getElem_mem (by omega)
                  rcases hclean _ hmem with hc | hc
                  · exact absurd hc hnj
                  · exact hc
          | succ i0 =>
              cases j with
              | zero => omega
              | succ j0 =>
                  rw [List.getD_cons_succ] at hni hnj ⊢
                  exact ih h i0 j0 (by omega) (by omega) hni hnj

/-- Claim C3: if `build_lalr1_parser` returns successfully then in every
returned state the terminal contexts of the actions (goto entries aside) are
pairwise disjoint, so for every state and every terminal at most one
non-error action is defined: any two actions of a state that both claim a
terminal `t` in their context are the same action. -/
theorem claim_C3_lalr1_success_implies_disjoint_action_contexts
    (g : grammar)
    (lr0 : grammar → List state_in_progress)
    (update_contexts : grammar → List state_in_progress →
      List state_in_progress)
    (pip : List state_in_progress)
    (h : build_lalr1 g lr0 update_contexts = some pip) :
    (∀ st ∈ pip, ∀ i j, i < j → j < st.actions.length →
      ¬ action_is_nt_shift g (st.actions.getD i ⟨mk_skip_action, ∅⟩) →
      ¬ action_is_nt_shift g (st.actions.getD j ⟨mk_skip_action, ∅⟩) →
      (st.actions.getD i ⟨mk_skip_action, ∅⟩).context ∩
        (st.actions.getD j ⟨mk_skip_action, ∅⟩).context = ∅) ∧
    (∀ st ∈ pip, ∀ (t : Int) i j, i < st.actions.length →
      j < st.actions.length →
      ¬ action_is_nt_shift g (st.actions.getD i ⟨mk_skip_action, ∅⟩) →
      ¬ action_is_nt_shift g (st.actions.getD j ⟨mk_skip_action, ∅⟩) →
      t ∈ (st.actions.getD i ⟨mk_skip_action, ∅⟩).context →
      t ∈ (st.actions.getD j ⟨mk_skip_action, ∅⟩).context →
      i = j) := by
  have hall : ∀ st ∈ pip, state_is_adequate g st.actions = true := by
    unfold build_lalr1 at h
    by_cases h1 : (determine_adequate_states g (lr0 g)).all (fun b => b) = true
    · rw [if_pos h1, Option.some.injEq] at h
      subst h
      intro st hst
      have := List.all_eq_true.mp h1 (state_is_adequate g st.actions)
      apply this
      unfold determine_adequate_states
      exact List.mem_map_of_mem _ hst
    · rw [if_neg h1] at h
      by_cases h2 : (determine_adequate_states g
          (update_contexts g (lr0 g))).all (fun b => b) = true
      · rw [if_pos h2, Option.some.injEq] at h
        subst h
        intro st hst
        apply List.all_eq_true.mp h2 (state_is_adequate g st.actions)
        unfold determine_adequate_states
        exact List.mem_map_of_mem _ hst
      · rw [if_neg h2] at h
        exact Option.noConfusion h
  constructor
  · intro st hst i j hij hj hni hnj
    exact state_is_adequate_spec g st.actions (hall st hst) i j hij hj hni hnj
  · intro st hst t i j hi hj hni hnj hti htj
    by_contra hne
    by_cases hlt : i < j
    · have := state_is_adequate_spec g st.actions (hall st hst) i j hlt hj hni hnj
      have hmem : t ∈ (st.actions.getD i ⟨mk_skip_action, ∅⟩).context ∩
          (st.actions.getD j ⟨mk_skip_action, ∅⟩).context :=
        Finset.mem_inter.mpr ⟨hti, htj⟩
      rw [this] at hmem
      exact absurd hmem (Finset.not_mem_empty t)
    · have hlt2 : j < i := by omega
      have := state_is_adequate_spec g st.actions (hall st hst) j i hlt2 hi hnj hni
      have hmem : t ∈ (st.actions.getD j ⟨mk_skip_action, ∅⟩).context ∩
          (st.actions.getD i ⟨mk_skip_action, ∅⟩).context :=
        Finset.mem_inter.mpr ⟨htj, hti⟩
      rw [this] at hmem
      exact absurd hmem (Finset.not_mem_empty t)

/-- A grammar with two terminals and one nonterminal, for the C3 witness. -/
def sample_lr_grammar : grammar :=
  { nsymbols := 3, nterminals := 2, productions := [], ignored_terminals := [] }

/-- One adequate state: a goto entry on the nonterminal `2` plus a reduce on
terminal `0` and a shift on terminal `1` (disjoint contexts). -/
def sample_adequate_states : List state_in_progress :=
  [⟨[0], [⟨⟨action_kind.shift, 1, -1⟩, ({2} : Finset Int)⟩,
          ⟨⟨action_kind.reduce, -1, 0⟩, ({0} : Finset Int)⟩,
          ⟨⟨action_kind.shift, 2, -1⟩, ({1} : Finset Int)⟩]⟩]

/-- Concrete witness for claim C3. -/
theorem claim_C3_witness :
    build_lalr1 sample_lr_grammar (fun _ => sample_adequate_states)
      (fun _ s => s) = some sample_adequate_states ∧
    ((∀ st ∈ sample_adequate_states, ∀ i j, i < j → j < st.actions.length →
      ¬ action_is_nt_shift sample_lr_grammar
        (st.actions.getD i ⟨mk_skip_action, ∅⟩) →
      ¬ action_is_nt_shift sample_lr_grammar
        (st.actions.getD j ⟨mk_skip_action, ∅⟩) →
      (st.actions.getD i ⟨mk_skip_action, ∅⟩).context ∩
        (st.actions.getD j ⟨mk_skip_action, ∅⟩).context = ∅) ∧
    (∀ st ∈ sample_adequate_states, ∀ (t : Int) i j, i < st.actions.length →
      j < st.actions.length →
      ¬ action_is_nt_shift sample_lr_grammar
        (st.actions.getD i ⟨mk_skip_action, ∅⟩) →
      ¬ action_is_nt_shift sample_lr_grammar
        (st.actions.getD j ⟨mk_skip_action, ∅⟩) →
      t ∈ (st.actions.getD i ⟨mk_skip_action, ∅⟩).context →
      t ∈ (st.actions.getD j ⟨mk_skip_action, ∅⟩).context →
      i = j)) :=
  ⟨by decide,
   claim_C3_lalr1_success_implies_disjoint_action_contexts sample_lr_grammar
     (fun _ => sample_adequate_states) (fun _ s => s) sample_adequate_states
     (by decide)⟩

/-! ### Context-free derivations (spec side, for claim C4) -/

/-- A single context-free rewriting step of the grammar (the spec's `⇒`). -/
def derives1 (g : grammar) (α β : List Int) : Prop :=
  ∃ (p : gproduction) (l r : List Int), p ∈ g.productions ∧
    α = l ++ p.lhs :: r ∧ β = l ++ p.rhs ++ r

/-- A derivation of exactly `n` steps. -/
def derivesK (g : grammar) : Nat → List Int → List Int → Prop
  | 0, α, β => α = β
  | n + 1, α, β => ∃ γ, derives1 g α γ ∧ derivesK g n γ β

/-- The spec's `⇒*`. -/
def derives_star (g : grammar) (α β : List Int) : Prop :=
  ∃ n, derivesK g n α β

theorem derivesK_trans (g : grammar) :
    ∀ (m n : Nat) (α β γ : List Int), derivesK g m α β →
    derivesK g n β γ → derivesK g (m + n) α γ := by
  intro m
  induction m with
  | zero =>
      intro n α β γ h1 h2
      unfold derivesK at h1
      subst h1
      simpa using h2
  | succ m ih =>
      intro n α β γ h1 h2
      obtain ⟨δ, hs, hrest⟩ := h1
      have he : m + 1 + n = (m + n) + 1 := by omega
      rw [he]
      exact ⟨δ, hs, ih n δ β γ hrest h2⟩

theorem derives1_context (g : grammar) (l r α β : List Int)
    (h : derives1 g α β) : derives1 g (l ++ α ++ r) (l ++ β ++ r) := by
  obtain ⟨p, l0, r0, hp, ha, hb⟩ := h
  refine ⟨p, l ++ l0, r0 ++ r, hp, ?_, ?_⟩
  · rw [ha]
    simp
  · rw [hb]
    simp

theorem derivesK_context (g : grammar) (l r : List Int) :
    ∀ (n : Nat) (α β : List Int), derivesK g n α β →
    derivesK g n (l ++ α ++ r) (l ++ β ++ r) := by
  intro n
  induction n with
  | zero =>
      intro α β h
      unfold derivesK at h ⊢
      rw [h]
  | succ n ih =>
      intro α β h
      obtain ⟨γ, hs, hrest⟩ := h
      exact ⟨l ++ γ ++ r, derives1_context g l r α γ hs, ih γ β hrest⟩

theorem derivesK_append (g : grammar) (m n : Nat) (α α2 β β2 : List Int)
    (h1 : derivesK g m α α2) (h2 : derivesK g n β β2) :
    derivesK g (m + n) (α ++ β) (α2 ++ β2) := by
  apply derivesK_trans g m n _ (α2 ++ β)
  · have := derivesK_context g [] β m α α2 h1
    simpa using this
  · have := derivesK_context g α2 [] n β β2 h2
    simpa using this

theorem derives_star_append (g : grammar) (α α2 β β2 : List Int)
    (h1 : derives_star g α α2) (h2 : derives_star g β β2) :
    derives_star g (α ++ β) (α2 ++ β2) := by
  obtain ⟨m, h1⟩ := h1
  obtain ⟨n, h2⟩ := h2
  exact ⟨m + n, derivesK_append g m n _ _ _ _ h1 h2⟩

theorem derivesK_nil (g : grammar) :
    ∀ (n : Nat) (w : List Int), derivesK g n [] w → w = [] := by
  intro n
  induction n with
  | zero =>
      intro w h
      exact h.symm
  | succ n ih =>
      intro w h
      obtain ⟨γ, hs, hrest⟩ := h
      obtain ⟨p, l, r, _, ha, _⟩ := hs
      exact absurd ha.symm (by simp)

theorem derivesK_split (g : grammar) :
    ∀ (n : Nat) (l r w : List Int), derivesK g n (l ++ r) w →
    ∃ n1 n2 w1 w2, n1 + n2 = n ∧ w = w1 ++ w2 ∧
      derivesK g n1 l w1 ∧ derivesK g n2 r w2 := by
  intro n
  induction n with
  | zero =>
      intro l r w h
      unfold derivesK at h
      exact ⟨0, 0, l, r, rfl, h.symm, rfl, rfl⟩
  | succ n ih =>
      intro l r w h
      obtain ⟨γ, hs, hrest⟩ := h
      obtain ⟨p, l0, r0, hp, ha, hb⟩ := hs
      rcases List.append_eq_append_iff.mp ha with ⟨a2, hc, hd⟩ | ⟨c2, hc, hd⟩
      · -- the rewritten symbol lies in `r` : r = a2 ++ p.lhs :: r0
        subst hc
        subst hb
        have hr2 : derivesK g n (l ++ (a2 ++ p.rhs ++ r0)) w := by
          have : l ++ a2 ++ p.rhs ++ r0 = l ++ (a2 ++ p.rhs ++ r0) := by simp
          rw [← this]
          exact hrest
        obtain ⟨n1, n2, w1, w2, hn, hw, h1, h2⟩ := ih l _ w hr2
        refine ⟨n1, n2 + 1, w1, w2, by omega, hw, h1, ?_⟩
        exact ⟨a2 ++ p.rhs ++ r0, ⟨p, a2, r0, hp, hd, rfl⟩, h2⟩
      · -- the boundary case splits on whether `c2` is empty
        cases c2 with
        | nil =>
            -- rewritten symbol is the head of `r`
            rw [List.append_nil] at hc
            subst hc
            simp only [List.nil_append] at hd
            subst hb
            have hr2 : derivesK g n (l ++ (p.rhs ++ r0)) w := by
              have : l ++ p.rhs ++ r0 = l ++ (p.rhs ++ r0) := by simp
              rw [← this]
              exact hrest
            obtain ⟨n1, n2, w1, w2, hn, hw, h1, h2⟩ := ih l _ w hr2
            refine ⟨n1, n2 + 1, w1, w2, by omega, hw, h1, ?_⟩
            refine ⟨p.rhs ++ r0, ⟨p, [], r0, hp, ?_, by simp⟩, h2⟩
            rw [← hd]
            rfl
        | cons c ctail =>
            -- rewritten symbol lies in `l` : l = l0 ++ p.lhs :: ctail
            have hc2 : c = p.lhs := by
              have := hd
              rw [List.cons_append] at this
              exact (List.cons.injEq _ _ _ _ ▸ this).1.symm
            subst hc2
            have hr0 : r0 = ctail ++ r := by
              have := hd
              rw [List.cons_append] at this
              exact (List.cons.injEq _ _ _ _ ▸ this).2
            subst hr0
            subst hc
            subst hb
            have hr2 : derivesK g n ((l0 ++ p.rhs ++ ctail) ++ r) w := by
              have : l0 ++ p.rhs ++ (ctail ++ r) =
                  (l0 ++ p.rhs ++ ctail) ++ r := by simp
              rw [← this]
              exact hrest
            obtain ⟨n1, n2, w1, w2, hn, hw, h1, h2⟩ := ih _ r w hr2
            refine ⟨n1 + 1, n2, w1, w2, by omega, hw, ?_, h2⟩
            exact ⟨l0 ++ p.rhs ++ ctail, ⟨p, l0, ctail, hp, by simp, rfl⟩, h1⟩

/-- The spec-side nullability predicate: `A` has a derivation to the empty
string exactly when some production of `A` has an all-nullable RHS. -/
inductive nullable (g : grammar) : Int → Prop where
  | mk (p : gproduction) (hp : p ∈ g.productions)
      (h : ∀ s ∈ p.rhs, nullable g s) : nullable g p.lhs

/-- The spec-side FIRST relation: `first_sym g A t` says some derivation
from `A` produces a string starting with the terminal `t`. -/
inductive first_sym (g : grammar) : Int → Int → Prop where
  | term (t : Int) (h : is_terminal g t) : first_sym g t t
  | step (p : gproduction) (hp : p ∈ g.productions) (pre post : List Int)
      (s t : Int) (hsplit : p.rhs = pre ++ s :: post)
      (hnull : ∀ x ∈ pre, nullable g x) (h : first_sym g s t) :
      first_sym g p.lhs t

theorem first_sym_terminal (g : grammar) (A t : Int)
    (h : first_sym g A t) : is_terminal g t := by
  induction h with
  | term t h => exact h
  | step p hp pre post s t hsplit hnull h ih => exact ih

theorem derives_star_nil_of_all (g : grammar) :
    ∀ L : List Int, (∀ s ∈ L, derives_star g [s] []) →
    derives_star g L [] := by
  intro L
  induction L with
  | nil =>
      intro _
      exact ⟨0, rfl⟩
  | cons s rest ihr =>
      intro h
      have h1 := h s (List.mem_cons_self s rest)
      have h2 := ihr (fun x hx => h x (List.mem_cons_of_mem _ hx))
      have := derives_star_append g [s] [] rest [] h1 h2
      simpa using this

theorem nullable_derives (g : grammar) (A : Int) (h : nullable g A) :
    derives_star g [A] [] := by
  induction h with
  | mk p hp h ih =>
      obtain ⟨n, hn⟩ := derives_star_nil_of_all g p.rhs ih
      exact ⟨n + 1, p.rhs, ⟨p, [], [], hp, by simp, by simp⟩, hn⟩

theorem first_sym_derives (g : grammar) (A t : Int)
    (h : first_sym g A t) : ∃ γ, derives_star g [A] (t :: γ) := by
  induction h with
  | term t h => exact ⟨[], 0, rfl⟩
  | step p hp pre post s t hsplit hnull h ih =>
      obtain ⟨γ, hγ⟩ := ih
      have hpre : derives_star g pre [] :=
        derives_star_nil_of_all g pre
          (fun x hx => nullable_derives g x (hnull x hx))
      refine ⟨γ ++ post, ?_⟩
      have hstep1 : derivesK g 1 [p.lhs] p.rhs :=
        ⟨p.rhs, ⟨p, [], [], hp, by simp, by simp⟩, rfl⟩
      have hrest : derives_star g p.rhs ((t :: γ) ++ post) := by
        rw [hsplit]
        have := derives_star_append g pre [] (s :: post) ((t :: γ) ++ post)
          hpre ?_
        · simpa using this
        · have := derives_star_append g [s] (t :: γ) post post hγ ⟨0, rfl⟩
          simpa using this
      obtain ⟨n, hn⟩ := hrest
      exact ⟨1 + n, derivesK_trans g 1 n _ _ _ hstep1 hn⟩

theorem derives_nil_nullable (g : grammar) :
    ∀ (n : Nat) (α : List Int), derivesK g n α [] →
    ∀ x ∈ α, nullable g x := by
  intro n
  induction n using Nat.strong_induction_on with
  | _ n ih =>
      intro α h x hx
      cases n with
      | zero =>
          unfold derivesK at h
          subst h
          simp at hx
      | succ n0 =>
          obtain ⟨γ, hs, hrest⟩ := h
          obtain ⟨p, l, r, hp, ha, hb⟩ := hs
          subst ha
          subst hb
          rcases List.mem_append.mp hx with hx | hx
          · exact ih n0 (by omega) _ hrest x (by simp [hx])
          · rcases List.mem_cons.mp hx with hx | hx
            · subst hx
              refine nullable.mk p hp ?_
              intro s hs2
              exact ih n0 (by omega) _ hrest s (by simp [hs2])
            · exact ih n0 (by omega) _ hrest x (by simp [hx])

theorem derivesK_head_split (g : grammar) :
    ∀ (α : List Int) (n : Nat) (t : Int) (γ : List Int),
    derivesK g n α (t :: γ) →
    ∃ pre s post γ2 n2, n2 ≤ n ∧ α = pre ++ s :: post ∧
      (∀ x ∈ pre, nullable g x) ∧ derivesK g n2 [s] (t :: γ2) := by
  intro α
  induction α with
  | nil =>
      intro n t γ h
      have := derivesK_nil g n _ h
      exact absurd this (by simp)
  | cons a rest ih =>
      intro n t γ h
      have hsplit : derivesK g n ([a] ++ rest) (t :: γ) := by simpa using h
      obtain ⟨n1, n2, w1, w2, hn, hw, h1, h2⟩ :=
        derivesK_split g n [a] rest _ hsplit
      cases w1 with
      | nil =>
          have hnull : nullable g a := by
            have := derives_nil_nullable g n1 [a] h1 a
            exact this (by simp)
          simp only [List.nil_append] at hw
          subst hw
          obtain ⟨pre, s, post, γ2, n3, hn3, hsp, hnulls, hder⟩ :=
            ih n2 t γ h2
          exact ⟨a :: pre, s, post, γ2, n3, by omega, by rw [hsp]; rfl,
            by
              intro x hx
              rcases List.mem_cons.mp hx with hx | hx
              · subst hx; exact hnull
              · exact hnulls x hx,
            hder⟩
      | cons y w1tail =>
          have hy : y = t ∧ w1tail ++ w2 = γ := by
            rw [List.cons_append] at hw
            exact ⟨((List.cons.injEq _ _ _ _) ▸ hw).1.symm,
              (((List.cons.injEq _ _ _ _) ▸ hw).2).symm⟩
          exact ⟨[], a, rest, w1tail, n1, by omega, by simp,
            by intro x hx; simp at hx, by rw [← hy.1]; exact h1⟩

theorem derives_first_sym (g : grammar)
    (hlhs : ∀ p ∈ g.productions, is_nonterminal g p.lhs) :
    ∀ (n : Nat) (A t : Int) (γ : List Int), derivesK g n [A] (t :: γ) →
    is_terminal g t → first_sym g A t := by
  intro n
  induction n using Nat.strong_induction_on with
  | _ n ih =>
      intro A t γ h ht
      cases n with
      | zero =>
          unfold derivesK at h
          have : A = t ∧ γ = [] := by
            rw [List.cons.injEq] at h
            exact ⟨h.1, h.2.symm⟩
          rw [this.1]
          exact first_sym.term t ht
      | succ n0 =>
          obtain ⟨β, hs, hrest⟩ := h
          obtain ⟨p, l, r, hp, ha, hb⟩ := hs
          have hlr : l = [] ∧ A = p.lhs ∧ r = [] := by
            cases l with
            | nil =>
                simp only [List.nil_append, List.cons.injEq] at ha
                exact ⟨rfl, ha.1, ha.2.symm⟩
            | cons x l2 =>
                rw [List.cons_append, List.cons.injEq] at ha
                have := ha.2
                exact absurd this.symm (by simp)
          obtain ⟨hl, hA, hr⟩ := hlr
          subst hl
          subst hr
          subst hA
          rw [List.nil_append, List.append_nil] at hb
          subst hb
          obtain ⟨pre, s, post, γ2, n2, hn2, hsp, hnulls, hder⟩ :=
            derivesK_head_split g p.rhs n0 t γ hrest
          have hfs : first_sym g s t := ih n2 (by omega) s t γ2 hder ht
          exact first_sym.step p hp pre post s t hsp hnulls hfs

end Parsegen
